import Mathlib

/-!
Verification development for the Repository Planning Graph (RPG) engine.

This file gives a shallow embedding of the graph substrate
(`src/graph/rpg.ts`), the search/explore tools (`src/tools/search.ts`,
`src/tools/explore.ts`), the encoder's entity-id generation
(`src/encoder/encoder.ts`) and the artifact grounder
(`src/encoder/grounding.ts`), and proves or refutes the claims of the
specification against that embedding.

Modelling conventions:
- JavaScript `throw` is modelled with `Except String`; an `Except.error`
  result means the operation failed and the caller's graph is unchanged.
- The graphology multigraph operations used by the source
  (`addNode`, `dropNode`, `mergeNodeAttributes`, `addEdgeWithKey`,
  `mapOutEdges`, `mapInEdges`, `mapNodes`, `mapEdges`) are modelled with
  their documented semantics over insertion-ordered lists:
  `addEdgeWithKey` throws when the key is already used,
  `mergeNodeAttributes` performs a shallow top-level merge of attributes,
  `dropNode` cascades incident edges.
- JavaScript `Set` and `Map` are modelled as insertion-ordered lists with
  first-insertion key order and last-write value semantics.
- Machine numbers appearing here (line numbers, depths) are small counts;
  they are modelled as `Nat`.
-/

set_option maxRecDepth 4096

namespace RPGSpec

/-! ### String helpers -/

/-- Infix test on character lists: does `sub` occur contiguously in the
second argument? -/
def infixOfB (sub : List Char) : List Char → Bool
  | [] => sub.isEmpty
  | c :: s' => List.isPrefixOf sub (c :: s') || infixOfB sub s'

/-- JavaScript `a.includes(b)` on strings: substring containment. -/
def strContains (s sub : String) : Bool :=
  infixOfB sub.data s.data

/-- JavaScript `a.startsWith(b)` and the regular `^`-anchored prefix
test, on the underlying character lists. -/
def strStarts (pre s : String) : Bool :=
  List.isPrefixOf pre.data s.data

/-- Lowercase a string character by character, as `toLowerCase` does on
the ASCII identifiers and phrases handled here. -/
def lowerStr (s : String) : String :=
  String.mk (s.data.map Char.toLower)

/-- Character-list worker for JavaScript `String.prototype.split('/')`. -/
def splitSlashAux : List Char → List Char → List String
  | [], cur => [String.mk cur.reverse]
  | c :: rest, cur =>
    if c == '/' then String.mk cur.reverse :: splitSlashAux rest []
    else splitSlashAux rest (c :: cur)

/-- JavaScript `p.split('/')`: the (possibly empty) chunks between the
separators. -/
def splitSlash (p : String) : List String :=
  splitSlashAux p.data []

/-- Split a path on `/` keeping only non-empty segments, as in
`dirPath.split('/').filter(s => s.length > 0)` (grounding.ts). -/
def segsOf (p : String) : List String :=
  (splitSlash p).filter (fun s => s.length > 0)

/-- Join path segments with `/`, as in `pathSegments.join('/')`. -/
def joinSegs : List String → String
  | [] => ""
  | [x] => x
  | x :: xs => x ++ "/" ++ joinSegs xs

/-- Node's `path.dirname` for the relative POSIX paths handled by the
grounder (no trailing slash, no leading slash): everything before the
last `/`, or `.` when there is no `/`. -/
def dirname (p : String) : String :=
  let parts := splitSlash p
  if parts.length ≤ 1 then "." else joinSegs parts.dropLast

/-- JavaScript `Set.add`: append when absent, keep insertion order. -/
def setAdd (l : List String) (x : String) : List String :=
  if l.contains x then l else l ++ [x]

/-- Collect a list into JavaScript `Set` iteration order (first
occurrence wins, order preserved). -/
def setList (l : List String) : List String :=
  l.foldl setAdd []

/-- Add every element of `ds` into the set `acc`, in order, as in
`for (const dir of childDirs) dirSet.add(dir)`. -/
def setUnion (acc ds : List String) : List String :=
  ds.foldl setAdd acc

/-! ### Node and edge data model

The concrete files `src/graph/node.ts` and `src/graph/edge.ts` only
survive through their re-exports and tests; the constructors and
predicates below are modelled from the spec (§3 data model) and pinned by
`tests/graph.test.ts`: nodes and edges are tagged variants, the
predicates test the tag. -/

/-- Node variant tag. -/
inductive NodeType where
  | highLevel
  | lowLevel
deriving DecidableEq, Repr

/-- Edge variant tag. -/
inductive EdgeType where
  | functional
  | dependency
deriving DecidableEq, Repr

/-- String value of the edge tag as it appears in edge keys. -/
def edgeTypeStr : EdgeType → String
  | .functional => "functional"
  | .dependency => "dependency"

/-- Value stored in the open `metadata.extra` bag. -/
inductive ExtraVal where
  | str (s : String)
  | strList (l : List String)
deriving DecidableEq, Repr

/-- The open key/value bag `metadata.extra`, as an insertion-ordered
association list (JavaScript object key order). -/
abbrev Extra := List (String × ExtraVal)

/-- Look up a key in an extra bag. -/
def extraGet (e : Extra) (k : String) : Option ExtraVal :=
  (e.find? (fun p => p.1 == k)).map (fun p => p.2)

/-- JavaScript object spread update: replace the value in place when the
key exists, append otherwise. -/
def extraSet (e : Extra) (k : String) (v : ExtraVal) : Extra :=
  if e.any (fun p => p.1 == k) then
    e.map (fun p => if p.1 == k then (k, v) else p)
  else e ++ [(k, v)]

/-- Semantic feature carried by every node. Modelled from the spec:
description plus optional keywords and sub-features. -/
structure SemanticFeature where
  description : String
  keywords : Option (List String) := none
  subFeatures : Option (List String) := none
deriving DecidableEq, Repr

/-- Structural metadata carried by nodes. Modelled from the spec (§3);
`entityType` is a plain string as in the TypeScript union. -/
structure StructuralMetadata where
  entityType : String
  path : Option String := none
  qualifiedName : Option String := none
  language : Option String := none
  startLine : Option Nat := none
  endLine : Option Nat := none
  extra : Option Extra := none
deriving DecidableEq, Repr

/-- A graph node: tagged variant with the shared attribute record
(graphology stores the whole object as node attributes). -/
structure Node where
  id : String
  type : NodeType
  feature : SemanticFeature
  metadata : Option StructuralMetadata := none
  directoryPath : Option String := none
  sourceCode : Option String := none
deriving DecidableEq, Repr

/-- Modelled from the spec: `isHighLevelNode` tests the variant tag
(pinned by tests/graph.test.ts). -/
def isHighLevelNode (n : Node) : Bool := n.type == .highLevel

/-- Modelled from the spec: `isLowLevelNode` tests the variant tag
(pinned by tests/graph.test.ts). -/
def isLowLevelNode (n : Node) : Bool := n.type == .lowLevel

/-- A graph edge: tagged variant with the optional fields of both
variants flattened, as graphology stores one attribute record. -/
structure Edge where
  source : String
  target : String
  type : EdgeType
  level : Option Nat := none
  siblingOrder : Option Nat := none
  dependencyType : Option String := none
  isRuntime : Option Bool := none
  line : Option Nat := none
deriving DecidableEq, Repr

/-- Modelled from the spec: functional-edge constructor. -/
def createFunctionalEdge (source target : String)
    (level : Option Nat := none) (siblingOrder : Option Nat := none) : Edge :=
  { source := source, target := target, type := .functional,
    level := level, siblingOrder := siblingOrder }

/-- Modelled from the spec: dependency-edge constructor. -/
def createDependencyEdge (source target : String) (dependencyType : String)
    (isRuntime : Option Bool := none) (line : Option Nat := none) : Edge :=
  { source := source, target := target, type := .dependency,
    dependencyType := some dependencyType, isRuntime := isRuntime, line := line }

/-- Modelled from the spec: edge-variant predicate. -/
def isFunctionalEdge (e : Edge) : Bool := e.type == .functional

/-- Modelled from the spec: edge-variant predicate. -/
def isDependencyEdge (e : Edge) : Bool := e.type == .dependency

/-! ### RepositoryPlanningGraph (src/graph/rpg.ts)

The class wraps a directed graphology multigraph; we model its state as
the insertion-ordered lists of node attribute records and edge attribute
records. The repository configuration is omitted: no claim mentions it. -/

/-- State of a `RepositoryPlanningGraph`. -/
structure RPG where
  nodes : List Node := []
  edges : List Edge := []
deriving DecidableEq, Repr

/-- Empty graph (fresh `new RepositoryPlanningGraph(config)`). -/
def RPG.empty : RPG := {}

/-- Whether a node id is present (`graph.hasNode`). -/
def RPG.hasNode (g : RPG) (id : String) : Bool :=
  g.nodes.any (fun n => n.id == id)

/-- Source `getNode`: attributes of the node, or `undefined`. -/
def RPG.getNode (g : RPG) (id : String) : Option Node :=
  g.nodes.find? (fun n => n.id == id)

/-- Source `addNode`: throws when the id already exists. -/
def RPG.addNode (g : RPG) (n : Node) : Except String RPG :=
  if g.hasNode n.id then
    .error ("Node with id \"" ++ n.id ++ "\" already exists")
  else
    .ok { g with nodes := g.nodes ++ [n] }

/-- Source `addHighLevelNode`: build the tagged node and delegate. -/
def RPG.addHighLevelNode (g : RPG) (id : String) (feature : SemanticFeature)
    (directoryPath : Option String := none)
    (metadata : Option StructuralMetadata := none) : Except String RPG :=
  g.addNode { id := id, type := .highLevel, feature := feature,
              metadata := metadata, directoryPath := directoryPath }

/-- Source `addLowLevelNode`: build the tagged node and delegate. -/
def RPG.addLowLevelNode (g : RPG) (id : String) (feature : SemanticFeature)
    (metadata : StructuralMetadata)
    (sourceCode : Option String := none) : Except String RPG :=
  g.addNode { id := id, type := .lowLevel, feature := feature,
              metadata := some metadata, sourceCode := sourceCode }

/-- A `Partial<Node>` update: present fields override, absent fields are
left alone (graphology `mergeNodeAttributes` shallow-merge semantics). -/
structure PartialNode where
  type : Option NodeType := none
  feature : Option SemanticFeature := none
  metadata : Option StructuralMetadata := none
  directoryPath : Option String := none
  sourceCode : Option String := none
deriving DecidableEq, Repr

/-- Shallow top-level merge `{...node, ...updates}` performed by
graphology `mergeNodeAttributes`. -/
def applyPartial (u : PartialNode) (n : Node) : Node :=
  { id := n.id,
    type := u.type.getD n.type,
    feature := u.feature.getD n.feature,
    metadata := match u.metadata with | some m => some m | none => n.metadata,
    directoryPath := match u.directoryPath with | some d => some d | none => n.directoryPath,
    sourceCode := match u.sourceCode with | some s => some s | none => n.sourceCode }

/-- Source `updateNode`: throws when the id is absent, otherwise merges
the update shallowly into the node's attributes. -/
def RPG.updateNode (g : RPG) (id : String) (u : PartialNode) : Except String RPG :=
  if ¬ g.hasNode id then
    .error ("Node with id \"" ++ id ++ "\" not found")
  else
    .ok { g with nodes := g.nodes.map (fun n => if n.id == id then applyPartial u n else n) }

/-- Source `removeNode`: throws when absent; `dropNode` cascades the
incident edges. -/
def RPG.removeNode (g : RPG) (id : String) : Except String RPG :=
  if ¬ g.hasNode id then
    .error ("Node with id \"" ++ id ++ "\" not found")
  else
    .ok { nodes := g.nodes.filter (fun n => n.id != id),
          edges := g.edges.filter (fun e => e.source != id && e.target != id) }

/-- Source `getNodes` (graphology `mapNodes`, insertion order). -/
def RPG.getNodes (g : RPG) : List Node := g.nodes

/-- Source `getHighLevelNodes`. -/
def RPG.getHighLevelNodes (g : RPG) : List Node :=
  g.getNodes.filter isHighLevelNode

/-- Source `getLowLevelNodes`. -/
def RPG.getLowLevelNodes (g : RPG) : List Node :=
  g.getNodes.filter isLowLevelNode

/-- Edge key used by `addEdge`: `source->target:type`. -/
def edgeKey (e : Edge) : String :=
  e.source ++ "->" ++ e.target ++ ":" ++ edgeTypeStr e.type

/-- Whether an edge with the given key exists. -/
def RPG.hasEdgeKey (g : RPG) (k : String) : Bool :=
  g.edges.any (fun e => edgeKey e == k)

/-- Source `addEdge`: endpoint checks, then graphology `addEdgeWithKey`,
which throws when the key is already used. -/
def RPG.addEdge (g : RPG) (e : Edge) : Except String RPG :=
  if ¬ g.hasNode e.source then
    .error ("Source node \"" ++ e.source ++ "\" not found")
  else if ¬ g.hasNode e.target then
    .error ("Target node \"" ++ e.target ++ "\" not found")
  else if g.hasEdgeKey (edgeKey e) then
    .error ("edge \"" ++ edgeKey e ++ "\" already exists")
  else
    .ok { g with edges := g.edges ++ [e] }

/-- Source `addFunctionalEdge`: build the edge and delegate. -/
def RPG.addFunctionalEdge (g : RPG) (source target : String)
    (level : Option Nat := none) (siblingOrder : Option Nat := none) :
    Except String RPG :=
  g.addEdge (createFunctionalEdge source target level siblingOrder)

/-- Source `addDependencyEdge`: build the edge and delegate. -/
def RPG.addDependencyEdge (g : RPG) (source target : String)
    (dependencyType : String) : Except String RPG :=
  g.addEdge (createDependencyEdge source target dependencyType)

/-- Source `getEdges` (graphology `mapEdges`, insertion order). -/
def RPG.getEdges (g : RPG) : List Edge := g.edges

/-- Source `getOutEdges`: empty for an absent node, else the outgoing
edges, filtered by type when one is given. -/
def RPG.getOutEdges (g : RPG) (nodeId : String) (edgeType : Option EdgeType := none) :
    List Edge :=
  if ¬ g.hasNode nodeId then []
  else
    let edges := g.edges.filter (fun e => e.source == nodeId)
    match edgeType with
    | some t => edges.filter (fun e => e.type == t)
    | none => edges

/-- Source `getInEdges`: empty for an absent node, else the incoming
edges, filtered by type when one is given. -/
def RPG.getInEdges (g : RPG) (nodeId : String) (edgeType : Option EdgeType := none) :
    List Edge :=
  if ¬ g.hasNode nodeId then []
  else
    let edges := g.edges.filter (fun e => e.target == nodeId)
    match edgeType with
    | some t => edges.filter (fun e => e.type == t)
    | none => edges

/-- Source `getChildren`: targets of outgoing functional edges that
resolve to nodes. -/
def RPG.getChildren (g : RPG) (nodeId : String) : List Node :=
  (g.getOutEdges nodeId (some .functional)).filterMap (fun e => g.getNode e.target)

/-- Source `getParent`: source of the first incoming functional edge. -/
def RPG.getParent (g : RPG) (nodeId : String) : Option Node :=
  match (g.getInEdges nodeId (some .functional)).head? with
  | none => none
  | some e => g.getNode e.source

/-- Source `getDependencies`: targets of outgoing dependency edges. -/
def RPG.getDependencies (g : RPG) (nodeId : String) : List Node :=
  (g.getOutEdges nodeId (some .dependency)).filterMap (fun e => g.getNode e.target)

/-- Source `getDependents`: sources of incoming dependency edges. -/
def RPG.getDependents (g : RPG) (nodeId : String) : List Node :=
  (g.getInEdges nodeId (some .dependency)).filterMap (fun e => g.getNode e.source)

/-- Source `searchByFeature`: case-insensitive substring match over the
description, the keywords and the sub-features. -/
def RPG.searchByFeature (g : RPG) (query : String) : List Node :=
  let ql := lowerStr query
  g.getNodes.filter (fun n =>
    strContains (lowerStr n.feature.description) ql
    || (n.feature.keywords.getD []).any (fun k => strContains (lowerStr k) ql)
    || (n.feature.subFeatures.getD []).any (fun f => strContains (lowerStr f) ql))

/-! ### The regular-expression fragment used by searchByPath

`searchByPath` runs `new RegExp(pattern.replace(/\*/g, '.*')).test(path)`.
For the glob patterns the tool receives (literal characters, `/`, `.`
and `*`; no other regular-expression metacharacters) the compiled regex
is a sequence of literal characters, any-character dots, and `.*`
wildcards, tested unanchored. We model exactly that fragment. -/

/-- One token of the compiled pattern. -/
inductive RegTok where
  | lit (c : Char)
  | anyChar
  | anyStr
deriving DecidableEq, Repr

/-- Compile a glob pattern the way `pattern.replace(/\*/g, '.*')` does:
`*` becomes a `.*` wildcard, `.` is the regex any-character dot, every
other character matches literally. -/
def globToks (pattern : String) : List RegTok :=
  pattern.data.map (fun c =>
    if c == '*' then RegTok.anyStr
    else if c == '.' then RegTok.anyChar
    else RegTok.lit c)

/-- Match the token list against a character list, anchored at the start
(the end is free, as `RegExp.test` only needs some match). The recursion
decreases `ps.length + s.length`; the `fuel` argument bounds it so that
the function is structurally recursive (and so reduces in the kernel);
`reMatch` supplies sufficient fuel. -/
def reMatchF : Nat → List RegTok → List Char → Bool
  | 0, _, _ => false
  | _ + 1, [], _ => true
  | fuel + 1, .anyStr :: ps, s =>
    reMatchF fuel ps s ||
      (match s with
       | [] => false
       | _ :: s' => reMatchF fuel (.anyStr :: ps) s')
  | fuel + 1, .anyChar :: ps, s =>
    (match s with
     | [] => false
     | _ :: s' => reMatchF fuel ps s')
  | fuel + 1, .lit c :: ps, s =>
    (match s with
     | [] => false
     | c' :: s' => c == c' && reMatchF fuel ps s')

/-- Anchored match with the fuel the recursion needs. -/
def reMatch (ps : List RegTok) (s : List Char) : Bool :=
  reMatchF (ps.length + s.length + 1) ps s

/-- Unanchored `RegExp.test`: try a match at every start position. -/
def reTest (ps : List RegTok) : List Char → Bool
  | [] => reMatch ps []
  | c :: s' => reMatch ps (c :: s') || reTest ps s'

/-- Source `searchByPath`: filter the low-level nodes whose
`metadata.path` is truthy and passes the regex test. -/
def RPG.searchByPath (g : RPG) (pattern : String) : List Node :=
  g.getLowLevelNodes.filter (fun n =>
    match n.metadata with
    | some m =>
      match m.path with
      | some p => p != "" && reTest (globToks pattern) p.data
      | none => false
    | none => false)

/-! ### SearchNode (src/tools/search.ts) -/

/-- Search mode. -/
inductive SearchMode where
  | features
  | snippets
  | auto
deriving DecidableEq, Repr

/-- Options for `SearchNode.query` (the fields the implementation
reads). -/
structure SearchOptions where
  mode : SearchMode
  featureTerms : Option (List String) := none
  filePattern : Option String := none
deriving Repr

/-- Result of `SearchNode.query`. -/
structure SearchResult where
  nodes : List Node
  totalMatches : Nat
  mode : SearchMode
deriving DecidableEq, Repr

/-- JavaScript `Map.set`: replace the value in place when the key
exists, append otherwise. -/
def nodeMapSet (m : List (String × Node)) (k : String) (v : Node) :
    List (String × Node) :=
  if m.any (fun p => p.1 == k) then
    m.map (fun p => if p.1 == k then (k, v) else p)
  else m ++ [(k, v)]

/-- Source deduplication `Array.from(new Map(results.map(n => [n.id, n])).values())`:
keys keep first-insertion order, values are the last write. -/
def dedupById (l : List Node) : List Node :=
  (l.foldl (fun m n => nodeMapSet m n.id n) []).map (fun p => p.2)

/-- The feature-search phase of `SearchNode.query`: one `searchByFeature`
call per term, results concatenated. -/
def featurePhase (g : RPG) (opts : SearchOptions) : List Node :=
  if opts.mode == .features || opts.mode == .auto then
    match opts.featureTerms with
    | some ts => ts.flatMap (fun t => g.searchByFeature t)
    | none => []
  else []

/-- The snippet-search phase of `SearchNode.query`: `searchByPath` on the
file pattern when one is provided. The source guard is
`if (options.filePattern)`, a JavaScript truthiness test, so an empty
string skips the phase just like an absent one. -/
def snippetPhase (g : RPG) (opts : SearchOptions) : List Node :=
  if opts.mode == .snippets || opts.mode == .auto then
    match opts.filePattern with
    | some p => if p == "" then [] else g.searchByPath p
    | none => []
  else []

/-- Source `SearchNode.query`: run the phases that match the mode, then
deduplicate by node id. -/
def SearchNode.query (g : RPG) (opts : SearchOptions) : SearchResult :=
  let results := featurePhase g opts ++ snippetPhase g opts
  let uniqueNodes := dedupById results
  { nodes := uniqueNodes, totalMatches := uniqueNodes.length, mode := opts.mode }

/-! ### ExploreRPG (src/tools/explore.ts) -/

/-- Edge-type selector for exploration. -/
inductive ExploreEdgeType where
  | functional
  | dependency
  | both
deriving DecidableEq, Repr

/-- Traversal direction. -/
inductive ExploreDirection where
  | out
  | inward
  | both
deriving DecidableEq, Repr

/-- Options for `ExploreRPG.traverse` (defaults as in the source). -/
structure ExploreOptions where
  startNode : String
  edgeType : ExploreEdgeType
  maxDepth : Nat := 3
  direction : ExploreDirection := .out
deriving Repr

/-- Edge record pushed by the traversal. -/
structure ExpEdge where
  source : String
  target : String
  type : String
deriving DecidableEq, Repr

/-- Result of `ExploreRPG.traverse`. -/
structure ExploreResult where
  nodes : List Node
  edges : List ExpEdge
  maxDepthReached : Nat
deriving DecidableEq, Repr

/-- Mutable state of the `explore` closure. -/
structure ExpState where
  visited : List String := []
  nodes : List Node := []
  edges : List ExpEdge := []
  maxDepthReached : Nat := 0
deriving DecidableEq, Repr

/-- Source `getEdgeTypes`. -/
def exploreEdgeTypes : ExploreEdgeType → List EdgeType
  | .both => [.functional, .dependency]
  | .functional => [.functional]
  | .dependency => [.dependency]

/-- The neighbours the `explore` closure iterates, in loop order: for
each selected edge type, the outgoing edges (when direction is `out` or
`both`) then the incoming edges (when direction is `in` or `both`); each
entry carries the node to recurse into and the edge record pushed just
before the recursive call. -/
def succPairs (g : RPG) (opts : ExploreOptions) (nodeId : String) :
    List (String × ExpEdge) :=
  (exploreEdgeTypes opts.edgeType).flatMap (fun et =>
    (if opts.direction == .out || opts.direction == .both then
      (g.getOutEdges nodeId (some et)).map
        (fun e => (e.target, ⟨e.source, e.target, edgeTypeStr e.type⟩))
    else []) ++
    (if opts.direction == .inward || opts.direction == .both then
      (g.getInEdges nodeId (some et)).map
        (fun e => (e.source, ⟨e.source, e.target, edgeTypeStr e.type⟩))
    else []))

/-- Source `explore(nodeId, depth)`: stop above the depth bound or on a
visited node; mark visited; record the node and the depth; then loop
over the selected edges, pushing each edge record and recursing one
level deeper. The recursion depth of the source is bounded by the depth
guard (`depth > maxDepth` stops immediately); the structural `fuel`
argument carries that bound explicitly — `traverse` passes
`maxDepth + 1`, so `fuel = maxDepth + 1 - depth` throughout and the
`fuel = 0` case coincides with the source's depth guard. -/
def explore (g : RPG) (opts : ExploreOptions) :
    Nat → Nat → String → ExpState → ExpState
  | 0, _, _, st => st
  | fuel + 1, depth, nodeId, st =>
    if opts.maxDepth < depth ∨ st.visited.contains nodeId then st
    else
      let st1 := { st with visited := st.visited ++ [nodeId] }
      match g.getNode nodeId with
      | none => st1
      | some node =>
        let st2 := { st1 with
          nodes := st1.nodes ++ [node],
          maxDepthReached := max st1.maxDepthReached depth }
        (succPairs g opts nodeId).foldl
          (fun st' p =>
            explore g opts fuel (depth + 1) p.1 { st' with edges := st'.edges ++ [p.2] })
          st2

/-- Source `ExploreRPG.traverse`: run `explore` from the start node at
depth 0 on the empty state. -/
def ExploreRPG.traverse (g : RPG) (opts : ExploreOptions) : ExploreResult :=
  let st := explore g opts (opts.maxDepth + 1) 0 opts.startNode {}
  { nodes := st.nodes, edges := st.edges, maxDepthReached := st.maxDepthReached }

/-! ### Entity id generation (src/encoder/encoder.ts) -/

/-- Join with `:`, as in `parts.join(':')`. -/
def joinColon : List String → String
  | [] => ""
  | [x] => x
  | x :: xs => x ++ ":" ++ joinColon xs

/-- Source `generateEntityId`: join `[filePath, entityType]`, the entity
name when truthy (JavaScript `if (entityName)` — the empty string is
falsy), and the start line when not `undefined`, with `:`. -/
def generateEntityId (filePath entityType : String)
    (entityName : Option String := none) (startLine : Option Nat := none) : String :=
  let parts := [filePath, entityType]
  let parts :=
    match entityName with
    | some n => if n == "" then parts else parts ++ [n]
    | none => parts
  let parts :=
    match startLine with
    | some l => parts ++ [toString l]
    | none => parts
  joinColon parts

/-- The slice of `CodeEntity` (src/utils/ast.ts) that id generation
reads; `startLine` is a required field there. -/
structure CodeEntity where
  type : String
  name : String
  startLine : Nat
  endLine : Nat
deriving DecidableEq, Repr

/-- The id `extractEntities` gives the low-level node of a parsed code
entity: `generateEntityId(relativePath, entity.type, entity.name,
entity.startLine)`. -/
def entityNodeId (relativePath : String) (e : CodeEntity) : String :=
  generateEntityId relativePath e.type (some e.name) (some e.startLine)

/-- The id `extractEntities` gives the file-level node:
`generateEntityId(relativePath, 'file')`. -/
def fileNodeId (relativePath : String) : String :=
  generateEntityId relativePath "file"

/-! ### PathTrie and computeLCA (src/encoder/grounding.ts)

The source mutates a trie of `TrieNode`s and splices a shared `results`
array. The mutations performed after a node is emitted
(`node.children.clear()` and `node.isTerminal = true`) are invisible: the
node is never revisited and its parent only inspects its own fields, so
the pure model below drops them. Splicing away every entry that starts
with `currentPath + "/"`, scanning from the end, keeps the relative
order of the remaining entries, i.e. it is a filter. -/

/-- A prefix-trie node: terminal flag plus insertion-ordered children
(JavaScript `Map` preserves insertion order). -/
inductive Trie where
  | mk (isTerminal : Bool) (children : List (String × Trie))

/-- Terminal flag of a trie node. -/
def Trie.term : Trie → Bool
  | .mk b _ => b

/-- Children of a trie node. -/
def Trie.kids : Trie → List (String × Trie)
  | .mk _ ch => ch

/-- JavaScript `Map.set` on the children list: replace the child in
place when the key exists, append otherwise. -/
def kidsSet (ch : List (String × Trie)) (k : String) (c : Trie) :
    List (String × Trie) :=
  if ch.any (fun p => p.1 == k) then
    ch.map (fun p => if p.1 == k then (k, c) else p)
  else ch ++ [(k, c)]

/-- Source `PathTrie.insert`, on the already-split segment list: per
segment, fetch the child (creating a fresh node when absent, which
`Map.set` appends at the end), recurse into it, and store it back; the
final node is marked terminal. -/
def trieInsert : List String → Trie → Trie
  | [], t => .mk true t.kids
  | s :: rest, t =>
    let child := ((t.kids.find? (fun p => p.1 == s)).map (fun p => p.2)).getD (.mk false [])
    .mk t.term (kidsSet t.kids s (trieInsert rest child))

/-- Method-style alias matching the source call `trie.insert(dir)`. -/
def Trie.insert (t : Trie) (segs : List String) : Trie :=
  trieInsert segs t

mutual

/-- Source `PathTrie.postOrder`: children first, then — skipping the
root — emit the node when it is branching (more than one child) or
terminal, after pruning every already-collected path lying strictly
below it. -/
def postOrderNode : Trie → List String → List String → List String
  | .mk term ch, pathSegs, results =>
    let r1 := postOrderKids ch pathSegs results
    if pathSegs.isEmpty then r1
    else if decide (1 < ch.length) || term then
      let currentPath := joinSegs pathSegs
      (r1.filter (fun x => !(strStarts (currentPath ++ "/") x))) ++ [currentPath]
    else r1

/-- The `for (const [segment, child] of node.children)` loop threading
the results accumulator. -/
def postOrderKids : List (String × Trie) → List String → List String → List String
  | [], _, results => results
  | (s, c) :: rest, pathSegs, results =>
    postOrderKids rest pathSegs (postOrderNode c (pathSegs ++ [s]) results)

end

/-- Build the trie inserted with every directory of the (already
Set-deduplicated) list, in iteration order. -/
def buildTrie (dirs : List String) : Trie :=
  dirs.foldl (fun t d => t.insert (segsOf d)) (.mk false [])

/-- Source `computeLCA`: empty and singleton sets short-circuit,
otherwise insert every directory into a fresh trie and run the
post-order walk from the root. The `Set<string>` argument is modelled as
its insertion-ordered, deduplicated element list. -/
def computeLCA (dirPaths : List String) : List String :=
  let s := setList dirPaths
  if s.length == 0 then []
  else if s.length == 1 then s
  else postOrderNode (buildTrie s) [] []

/-! ### ArtifactGrounder (src/encoder/grounding.ts) -/

/-- The metadata written by the single-LCA branch of `propagate`:
`{...node.metadata, entityType: 'module', path: lcaPaths[0]}` (spreading
`undefined` contributes nothing). -/
def groundMetaSingle (m : Option StructuralMetadata) (p : String) :
    StructuralMetadata :=
  match m with
  | some m => { m with entityType := "module", path := some p }
  | none => { entityType := "module", path := some p }

/-- The metadata written by the multi-LCA branch of `propagate`:
`{...node.metadata, entityType: 'module', path: sorted[0],
extra: {...node.metadata?.extra, paths: sorted}}`. -/
def groundMetaMulti (m : Option StructuralMetadata) (sorted : List String) :
    StructuralMetadata :=
  match m with
  | some m =>
    { m with entityType := "module", path := sorted.head?,
             extra := some (extraSet (m.extra.getD []) "paths" (.strList sorted)) }
  | none =>
    { entityType := "module", path := sorted.head?,
      extra := some (extraSet [] "paths" (.strList sorted)) }

/-- Lexicographic comparison of code-point lists (the order JavaScript
`Array.prototype.sort()` uses on the code units of these ASCII paths). -/
def charListLeB : List Char → List Char → Bool
  | [], _ => true
  | _ :: _, [] => false
  | a :: as, b :: bs =>
    if a.toNat < b.toNat then true
    else if b.toNat < a.toNat then false
    else charListLeB as bs

/-- Lexicographic `≤` on strings, by code points. -/
def strLeB (a b : String) : Bool :=
  charListLeB a.data b.data

/-- Insert into an ascending list, keeping it ascending. -/
def insertSorted (x : String) : List String → List String
  | [] => [x]
  | y :: ys => if strLeB x y then x :: y :: ys else y :: insertSorted x ys

/-- JavaScript `Array.prototype.sort()` on distinct strings: the unique
ascending ordering, realised as an insertion sort. -/
def jsSort (l : List String) : List String :=
  l.foldr insertSorted []

/-- Source `ArtifactGrounder.propagate`, with explicit recursion fuel
(`none` models the stack overflow an unbounded recursion would hit; the
source has no cycle guard, so termination is only by the finite
functional hierarchy). A missing node contributes nothing; a low-level
node contributes the directory of its path (nothing when the path is
missing or empty — the source guard `if (!filePath)` is a JavaScript
falsiness test); otherwise the children are propagated in order, collecting
their directories into a Set, and a high-level node with a non-empty set
is updated with the LCA metadata. A thrown `updateNode` error would
propagate out of `ground`, modelled as `none`. -/
def propagate : Nat → RPG → String → Option (RPG × List String)
  | 0, _, _ => none
  | fuel + 1, g, nodeId =>
    match g.getNode nodeId with
    | none => some (g, [])
    | some node =>
      if isLowLevelNode node then
        match node.metadata with
        | none => some (g, [])
        | some m =>
          match m.path with
          | none => some (g, [])
          | some filePath =>
            if filePath == "" then some (g, [])
            else some (g, [dirname filePath])
      else
        let step := (g.getChildren nodeId).foldl
          (fun acc c =>
            match acc with
            | none => none
            | some (gAcc, dirSet) =>
              match propagate fuel gAcc c.id with
              | none => none
              | some (g', ds) => some (g', setUnion dirSet ds))
          (some (g, []))
        match step with
        | none => none
        | some (g', dirSet) =>
          if isHighLevelNode node && !dirSet.isEmpty then
            let lcaPaths := computeLCA dirSet
            if lcaPaths.length == 1 then
              match lcaPaths.head? with
              | none => some (g', dirSet)
              | some p0 =>
                match g'.updateNode nodeId { metadata := some (groundMetaSingle node.metadata p0) } with
                | .ok g'' => some (g'', dirSet)
                | .error _ => none
            else if 1 < lcaPaths.length then
              let sorted := jsSort lcaPaths
              match g'.updateNode nodeId { metadata := some (groundMetaMulti node.metadata sorted) } with
              | .ok g'' => some (g'', dirSet)
              | .error _ => none
            else some (g', dirSet)
          else some (g', dirSet)

/-- The root loop of `ArtifactGrounder.ground`: over the high-level
nodes of the initial graph, propagate from each node that has no
functional parent in the current graph. -/
def groundList : Nat → RPG → List Node → Option RPG
  | _, g, [] => some g
  | fuel, g, n :: rest =>
    if (g.getParent n.id).isSome then groundList fuel g rest
    else
      match propagate fuel g n.id with
      | none => none
      | some (g', _) => groundList fuel g' rest

/-- Source `ArtifactGrounder.ground` with recursion fuel. -/
def ground (fuel : Nat) (g : RPG) : Option RPG :=
  groundList fuel g g.getHighLevelNodes

/-! ### Relations describing the functional hierarchy

These two relations state, independently of the grounder's recursion,
which nodes its traversal can reach and which directories it collects.
They are used to phrase the grounding claims. -/

/-- A functional chain from `a` to `b` passing only through high-level
nodes (including both endpoints): the nodes the grounder's recursive
descent visits as interior points. -/
inductive HLPath (g : RPG) : String → String → Prop where
  | refl (a : String) (n : Node) (hn : g.getNode a = some n)
      (hHL : isHighLevelNode n = true) : HLPath g a a
  | step (a b c : String) (n : Node) (hab : HLPath g a b) (e : Edge)
      (he : e ∈ g.edges) (hsrc : e.source = b) (htgt : e.target = c)
      (hty : e.type = .functional) (hn : g.getNode c = some n)
      (hHL : isHighLevelNode n = true) : HLPath g a c

/-- The directory `d` is contributed to node `a`'s propagation: either
`a` is a low-level node whose non-empty `metadata.path` has directory
`d` (the source's `if (!filePath)` falsiness guard drops both missing
and empty paths), or `a` is a high-level node with a functional child
edge to a node that contributes `d`. This is the frontier of nearest
low-level descendants reachable through high-level interior nodes. -/
inductive Frontier (g : RPG) : String → String → Prop where
  | here (a : String) (n : Node) (p : String) (hn : g.getNode a = some n)
      (hLL : isLowLevelNode n = true)
      (hp : n.metadata.bind StructuralMetadata.path = some p)
      (hpne : p ≠ "") :
      Frontier g a (dirname p)
  | step (a b : String) (d : String) (n : Node) (hn : g.getNode a = some n)
      (hHL : isHighLevelNode n = true) (e : Edge) (he : e ∈ g.edges)
      (hsrc : e.source = a) (htgt : e.target = b) (hty : e.type = .functional)
      (hb : Frontier g b d) : Frontier g a d

/-- The metadata value `propagate` writes for a node whose entry
metadata was `m` and whose collected directory set was `ds`: the single-
and multi-LCA branches of the source, including the no-op case when
`computeLCA` returns nothing. -/
def groundedMetaFor (m : Option StructuralMetadata) (ds : List String) :
    Option StructuralMetadata :=
  let lcaPaths := computeLCA ds
  if lcaPaths.length == 1 then
    match lcaPaths.head? with
    | none => m
    | some p0 => some (groundMetaSingle m p0)
  else if 1 < lcaPaths.length then some (groundMetaMulti m (jsSort lcaPaths))
  else m

/-- How a graph evolves under the grounder: edges unchanged, node
presence unchanged, and every node keeps its identity, type, feature and
code fields, with its metadata either untouched or (for a high-level
node) rewritten to the LCA metadata of its directory frontier. -/
def Evol (g gc : RPG) : Prop :=
  gc.edges = g.edges ∧
  (∀ a, g.getNode a = none → gc.getNode a = none) ∧
  (∀ a n, g.getNode a = some n → ∃ n', gc.getNode a = some n' ∧
    n'.id = n.id ∧ n'.type = n.type ∧ n'.feature = n.feature ∧
    n'.directoryPath = n.directoryPath ∧ n'.sourceCode = n.sourceCode ∧
    (n'.metadata = n.metadata ∨
      (isHighLevelNode n = true ∧ ∃ ds, ds ≠ [] ∧ ds.Nodup ∧
        (∀ d, d ∈ ds ↔ Frontier g a d) ∧ n'.metadata = groundedMetaFor n.metadata ds)))

/-! ### Concrete example inputs used by the claims -/

/-- Build steps for a graph whose high-level node sits below a
low-level parent: the grounder's root loop never reaches it. -/
def gC6abuild : Except String RPG :=
  (RPG.empty.addLowLevelNode "l0" { description := "loader" }
      { entityType := "file", path := some "x/a.ts" }).bind
  (fun g => (g.addHighLevelNode "h" { description := "feature" }).bind
  (fun g => (g.addLowLevelNode "l1" { description := "impl" }
      { entityType := "file", path := some "src/m/f.ts" }).bind
  (fun g => (g.addFunctionalEdge "l0" "h").bind
  (fun g => g.addFunctionalEdge "h" "l1"))))

/-- Graph with a high-level node below a low-level parent. -/
def gC6a : RPG := gC6abuild.toOption.getD RPG.empty

/-- Build steps for a graph where the nearest low-level descendant of
the high-level node itself has a deeper low-level child: the grounder
stops at the nearest one. -/
def gC6bbuild : Except String RPG :=
  (RPG.empty.addHighLevelNode "h2" { description := "domain" }).bind
  (fun g => (g.addLowLevelNode "a" { description := "entry" }
      { entityType := "file", path := some "a/x.ts" }).bind
  (fun g => (g.addLowLevelNode "b" { description := "leaf" }
      { entityType := "file", path := some "b/y.ts" }).bind
  (fun g => (g.addFunctionalEdge "h2" "a").bind
  (fun g => g.addFunctionalEdge "a" "b"))))

/-- Graph whose frontier low-level node has a deeper low-level child. -/
def gC6b : RPG := gC6bbuild.toOption.getD RPG.empty

/-- The second graph after grounding. -/
def gC6bg : RPG := (ground 10 gC6b).getD RPG.empty

/-- The high-level node of the second grounding example. -/
def nC6h2 : Node :=
  { id := "h2", type := .highLevel, feature := { description := "domain" } }

/-- The frontier low-level node of the second grounding example. -/
def nC6a : Node :=
  { id := "a", type := .lowLevel, feature := { description := "entry" },
    metadata := some { entityType := "file", path := some "a/x.ts" } }

/-- Build steps of the grounding scenario of the spec's end-to-end
scenario 4: one high-level node over two low-level files in `src/utils`
and `tests/utils`. -/
def gC1build : Except String RPG :=
  (RPG.empty.addHighLevelNode "domain:CrossCutting" { description := "cross-cutting concern" }).bind
  (fun g => (g.addLowLevelNode "src/utils/helper.ts:file" { description := "utility helpers" }
      { entityType := "file", path := some "src/utils/helper.ts" }).bind
  (fun g => (g.addLowLevelNode "tests/utils/helper.test.ts:file" { description := "helper tests" }
      { entityType := "file", path := some "tests/utils/helper.test.ts" }).bind
  (fun g => (g.addFunctionalEdge "domain:CrossCutting" "src/utils/helper.ts:file").bind
  (fun g => g.addFunctionalEdge "domain:CrossCutting" "tests/utils/helper.test.ts:file"))))

/-- The graph of the grounding scenario. -/
def gC1 : RPG := gC1build.toOption.getD RPG.empty

/-- The scenario graph after `ground()`. -/
def gC1g : RPG := (ground 10 gC1).getD RPG.empty

/-- Graph for the auto-mode search scenario: one node matching the
feature term, one unrelated low-level node matching the file pattern. -/
def gC2build : Except String RPG :=
  (RPG.empty.addHighLevelNode "auth" { description := "handle authentication" }).bind
  (fun g => g.addLowLevelNode "src/db/conn.ts:file" { description := "connect database" }
      { entityType := "file", path := some "src/db/conn.ts" })

/-- The auto-mode scenario graph. -/
def gC2 : RPG := gC2build.toOption.getD RPG.empty

/-- The auto-mode query of the scenario: a feature term with hits and a
file pattern. -/
def optsC2 : SearchOptions :=
  { mode := .auto, featureTerms := some ["authentication"],
    filePattern := some "src/db*" }

/-- A concrete parsed entity (spec end-to-end scenario 1's `greet`). -/
def entC3 : CodeEntity := { type := "function", name := "greet", startLine := 1, endLine := 3 }

/-- Build steps producing a functional two-cycle and a doubly-parented
node through the public operations: `a → b`, `b → a`, `a → c`, `b → c`
are all accepted. -/
def gC4build : Except String RPG :=
  (RPG.empty.addHighLevelNode "a" { description := "area a" }).bind
  (fun g => (g.addHighLevelNode "b" { description := "area b" }).bind
  (fun g => (g.addHighLevelNode "c" { description := "area c" }).bind
  (fun g => (g.addFunctionalEdge "a" "b").bind
  (fun g => (g.addFunctionalEdge "b" "a").bind
  (fun g => (g.addFunctionalEdge "a" "c").bind
  (fun g => g.addFunctionalEdge "b" "c"))))))

/-- The cyclic, doubly-parented graph. -/
def gC4 : RPG := gC4build.toOption.getD RPG.empty

/-- Two nodes and one functional edge, built through the public
operations. -/
def gC5build : Except String RPG :=
  (RPG.empty.addHighLevelNode "a" { description := "area a" }).bind
  (fun g => (g.addHighLevelNode "b" { description := "area b" }).bind
  (fun g => g.addFunctionalEdge "a" "b"))

/-- The two-node graph with one `a → b` functional edge. -/
def gC5 : RPG := gC5build.toOption.getD RPG.empty

/-- The edge whose repeated insertion the idempotence claim describes. -/
def eC5 : Edge := createFunctionalEdge "a" "b"

/-- The duplicate node whose repeated insertion the claim describes. -/
def nC5 : Node := { id := "a", type := .highLevel, feature := { description := "area a" } }

/-- A node carrying feature keywords and a metadata extra entry, for the
update-merge claim. -/
def gC8 : RPG :=
  { nodes := [{ id := "n", type := .lowLevel,
                feature := { description := "parse config", keywords := some ["config", "parse"] },
                metadata := some { entityType := "function", path := some "src/cfg.ts",
                                   extra := some [("owner", .str "core")] } }],
    edges := [] }

/-- An update naming only `feature.description`. -/
def uC8a : PartialNode := { feature := some { description := "load settings" } }

/-- An update naming only `metadata.entityType`. -/
def uC8b : PartialNode := { metadata := some { entityType := "file" } }

/-- Build steps of a three-node graph with functional and dependency
edges, for the traversal claim's witness. -/
def gC9build : Except String RPG :=
  (RPG.empty.addHighLevelNode "r" { description := "root area" }).bind
  (fun g => (g.addLowLevelNode "f" { description := "file node" }
      { entityType := "file", path := some "src/f.ts" }).bind
  (fun g => (g.addLowLevelNode "h" { description := "helper file" }
      { entityType := "file", path := some "src/h.ts" }).bind
  (fun g => (g.addFunctionalEdge "r" "f").bind
  (fun g => (g.addFunctionalEdge "r" "h").bind
  (fun g => g.addDependencyEdge "f" "h" "import")))))

/-- The traversal witness graph. -/
def gC9 : RPG := gC9build.toOption.getD RPG.empty

/-- Invariant of the exploration state: recorded node ids are distinct,
every recorded node is a node of the graph, every recorded node was
marked visited, and the recorded depth never exceeds the bound. -/
def ExpInv (g : RPG) (opts : ExploreOptions) (st : ExpState) : Prop :=
  (st.nodes.map Node.id).Nodup ∧
  (∀ n ∈ st.nodes, n ∈ g.nodes) ∧
  (∀ n ∈ st.nodes, n.id ∈ st.visited) ∧
  st.maxDepthReached ≤ opts.maxDepth

/-! ### Specification-side view of the post-order LCA walk

`postOrderNode` threads one results accumulator through the whole walk
and prunes it in place; `minimalGood` computes the same emitted paths
compositionally (the shallowest branching-or-terminal node of each
branch), which is the form the proofs reason about. -/

/-- The emission test of the walk: branching (more than one child) or
terminal. -/
def goodT (t : Trie) : Bool :=
  decide (1 < t.kids.length) || t.term

mutual

/-- The paths the post-order walk emits below a node whose own path is
`pathSegs`: the node's path itself when the node is good (and not the
root), otherwise the union over its children. -/
def minimalGood : Trie → List String → List String
  | .mk term ch, pathSegs =>
    if pathSegs.isEmpty then minimalGoodKids ch pathSegs
    else if goodT (.mk term ch) then [joinSegs pathSegs]
    else minimalGoodKids ch pathSegs

/-- Concatenation of the children's emissions, in child order. -/
def minimalGoodKids : List (String × Trie) → List String → List String
  | [], _ => []
  | (s, c) :: rest, pathSegs =>
    minimalGood c (pathSegs ++ [s]) ++ minimalGoodKids rest pathSegs

end

mutual

/-- Size of a trie, for strong induction. -/
def trieSize : Trie → Nat
  | .mk _ ch => trieSizeKids ch + 1

/-- Size of a children list. -/
def trieSizeKids : List (String × Trie) → Nat
  | [] => 0
  | (_, c) :: rest => trieSize c + trieSizeKids rest + 1

end

/-- A path segment as produced by `segsOf`: non-empty and free of `/`. -/
def segOK (s : String) : Prop :=
  s ≠ "" ∧ '/' ∉ s.data

/-- Well-formedness of a trie built from split directory paths: every
key is a proper segment, keys are distinct at each node, and the
children are themselves well-formed. -/
inductive TrieOK : Trie → Prop where
  | intro (t : Trie)
      (hseg : ∀ p ∈ t.kids, segOK p.1)
      (hch : ∀ p ∈ t.kids, TrieOK p.2)
      (hnodup : (t.kids.map Prod.fst).Nodup) : TrieOK t

/-- Subtree of a trie at a path of keys, following the first child with
each key (keys are duplicate-free in every trie the grounder builds). -/
def subAt : Trie → List String → Option Trie
  | t, [] => some t
  | t, s :: q =>
    match t.kids.find? (fun p => p.1 == s) with
    | some p => subAt p.2 q
    | none => none

/-- The node at the path exists and is terminal. -/
def termAtB (t : Trie) (q : List String) : Bool :=
  match subAt t q with
  | some t' => t'.term
  | none => false

/-- The node at the path exists and has a child keyed `a`. -/
def edgeAtB (t : Trie) (q : List String) (a : String) : Bool :=
  match subAt t q with
  | some t' => t'.kids.any (fun p => p.1 == a)
  | none => false

/-- The node at the path exists and is good (branching or terminal). -/
def goodAtB (t : Trie) (q : List String) : Bool :=
  match subAt t q with
  | some t' => goodT t'
  | none => false

/-- Input-level goodness of a segment path with respect to the inserted
directory list: the path is one of the inserted paths, or two distinct
continuations of it occur among the inserted paths. This mentions only
the membership of the list, never its order. -/
def goodP (l : List String) (q : List String) : Prop :=
  (∃ d ∈ l, segsOf d = q) ∨
  (∃ a b, a ≠ b ∧ (∃ d ∈ l, q ++ [a] <+: segsOf d) ∧ (∃ d ∈ l, q ++ [b] <+: segsOf d))

/-- Input-level characterisation of an emitted LCA path: the join of a
non-empty good segment path none of whose proper non-empty prefixes is
good. -/
def MGP (l : List String) (x : String) : Prop :=
  ∃ q, q ≠ [] ∧ x = joinSegs q ∧ goodP l q ∧
    ∀ q', q' <+: q → q' ≠ q → q' ≠ [] → ¬ goodP l q'

/-! ### Helper lemmas about the list-backed sets and maps -/

theorem beq_comm_str (a b : String) : (a == b) = (b == a) := by
  by_cases h : a = b
  · subst h; rfl
  · rw [beq_eq_false_iff_ne.mpr h, beq_eq_false_iff_ne.mpr (Ne.symm h)]

theorem mem_setAdd (l : List String) (x y : String) :
    y ∈ setAdd l x ↔ y ∈ l ∨ y = x := by
  unfold setAdd
  by_cases h : x ∈ l
  · rw [if_pos (List.elem_eq_true_of_mem h)]
    constructor
    · exact fun hy => Or.inl hy
    · rintro (hy | rfl)
      · exact hy
      · exact h
  · rw [if_neg (fun hc => h (List.mem_of_elem_eq_true hc))]
    simp

theorem setAdd_nodup (l : List String) (x : String) (h : l.Nodup) :
    (setAdd l x).Nodup := by
  unfold setAdd
  by_cases hm : x ∈ l
  · rw [if_pos (List.elem_eq_true_of_mem hm)]
    exact h
  · rw [if_neg (fun hc => hm (List.mem_of_elem_eq_true hc))]
    exact List.nodup_append.mpr ⟨h, List.nodup_singleton x, by simpa using fun hx => hm hx⟩

theorem mem_setUnion (acc ds : List String) (y : String) :
    y ∈ setUnion acc ds ↔ y ∈ acc ∨ y ∈ ds := by
  induction ds generalizing acc with
  | nil => simp [setUnion]
  | cons d ds ih =>
    show y ∈ setUnion (setAdd acc d) ds ↔ _
    rw [ih, mem_setAdd]
    simp only [List.mem_cons]
    tauto

theorem setUnion_nodup (acc ds : List String) (h : acc.Nodup) :
    (setUnion acc ds).Nodup := by
  induction ds generalizing acc with
  | nil => exact h
  | cons d ds ih => exact ih (setAdd acc d) (setAdd_nodup acc d h)

theorem mem_setList (l : List String) (y : String) : y ∈ setList l ↔ y ∈ l := by
  unfold setList
  rw [show l.foldl setAdd [] = setUnion [] l from rfl, mem_setUnion]
  simp

theorem setList_nodup (l : List String) : (setList l).Nodup :=
  setUnion_nodup [] l List.nodup_nil

theorem nodeMapSet_fst (m : List (String × Node)) (k : String) (v : Node) :
    (nodeMapSet m k v).map Prod.fst = setAdd (m.map Prod.fst) k := by
  unfold nodeMapSet setAdd
  have hc : (m.map Prod.fst).contains k = m.any (fun p => p.1 == k) := by
    induction m with
    | nil => rfl
    | cons a m ih =>
      simp only [List.map_cons, List.contains_cons, List.any_cons, ih]
      rw [beq_comm_str]
  by_cases h : m.any (fun p => p.1 == k) = true
  · rw [if_pos h, if_pos (by rw [hc]; exact h)]
    rw [List.map_map]
    apply List.map_congr_left
    intro p _
    by_cases hp : p.1 = k
    · show (if (p.1 == k) = true then (k, v) else p).1 = p.1
      rw [if_pos (beq_iff_eq.mpr hp)]
      exact hp.symm
    · show (if (p.1 == k) = true then (k, v) else p).1 = p.1
      rw [if_neg (fun hb => hp (eq_of_beq hb))]
  · rw [if_neg h, if_neg (by rw [hc]; exact h)]
    rw [List.map_append]
    rfl

theorem nodeMapSet_mem (m : List (String × Node)) (k : String) (v : Node)
    (p : String × Node) (hp : p ∈ nodeMapSet m k v) : p = (k, v) ∨ p ∈ m := by
  unfold nodeMapSet at hp
  by_cases h : m.any (fun q => q.1 == k) = true
  · rw [if_pos h] at hp
    obtain ⟨q, hq, hqe⟩ := List.mem_map.mp hp
    by_cases hqk : (q.1 == k) = true
    · rw [if_pos hqk] at hqe
      exact Or.inl hqe.symm
    · rw [if_neg hqk] at hqe
      exact Or.inr (hqe ▸ hq)
  · rw [if_neg h] at hp
    rcases List.mem_append.mp hp with hm | hm
    · exact Or.inr hm
    · simp at hm
      exact Or.inl hm

theorem dedupFold_fst (l : List Node) :
    ∀ m : List (String × Node),
    ((l.foldl (fun m n => nodeMapSet m n.id n) m).map Prod.fst)
      = setUnion (m.map Prod.fst) (l.map Node.id) := by
  induction l with
  | nil => intro m; rfl
  | cons a l ih =>
    intro m
    show ((l.foldl _ (nodeMapSet m a.id a)).map Prod.fst) = _
    rw [ih (nodeMapSet m a.id a), nodeMapSet_fst]
    rfl

theorem dedupFold_kv (l : List Node) :
    ∀ m : List (String × Node), (∀ p ∈ m, p.2.id = p.1) →
    ∀ p ∈ l.foldl (fun m n => nodeMapSet m n.id n) m, p.2.id = p.1 := by
  induction l with
  | nil => intro m hm; exact hm
  | cons a l ih =>
    intro m hm
    apply ih
    intro p hp
    rcases nodeMapSet_mem m a.id a p hp with rfl | hpm
    · rfl
    · exact hm p hpm

theorem dedupFold_val (l : List Node) :
    ∀ m : List (String × Node), ∀ p ∈ l.foldl (fun m n => nodeMapSet m n.id n) m,
    p ∈ m ∨ p.2 ∈ l := by
  induction l with
  | nil => intro m p hp; exact Or.inl hp
  | cons a l ih =>
    intro m p hp
    rcases ih (nodeMapSet m a.id a) p hp with hpm | hpl
    · rcases nodeMapSet_mem m a.id a p hpm with rfl | hq
      · exact Or.inr (List.mem_cons_self _ _)
      · exact Or.inl hq
    · exact Or.inr (List.mem_cons_of_mem _ hpl)

theorem dedupById_ids (l : List Node) :
    (dedupById l).map Node.id = setList (l.map Node.id) := by
  unfold dedupById
  rw [List.map_map]
  have hkv := dedupFold_kv l [] (by intro p hp; cases hp)
  have h1 : ((l.foldl (fun m n => nodeMapSet m n.id n) []).map (Node.id ∘ fun p => p.2))
      = ((l.foldl (fun m n => nodeMapSet m n.id n) []).map Prod.fst) :=
    List.map_congr_left (fun p hp => hkv p hp)
  rw [h1, dedupFold_fst]
  rfl

theorem dedupById_mem (l : List Node) (n : Node) (h : n ∈ dedupById l) : n ∈ l := by
  unfold dedupById at h
  obtain ⟨p, hp, rfl⟩ := List.mem_map.mp h
  rcases dedupFold_val l [] p hp with hm | hv
  · cases hm
  · exact hv

theorem dedupById_ids_nodup (l : List Node) : ((dedupById l).map Node.id).Nodup := by
  rw [dedupById_ids]
  exact setList_nodup _

/-! ### Helper lemmas about the graph operations -/

theorem getNode_id (g : RPG) (x : String) (n : Node) (h : g.getNode x = some n) :
    n.id = x := by
  unfold RPG.getNode at h
  have hb := @List.find?_some Node (fun n => n.id == x) n g.nodes h
  exact eq_of_beq hb

theorem getNode_mem (g : RPG) (x : String) (n : Node) (h : g.getNode x = some n) :
    n ∈ g.nodes := by
  unfold RPG.getNode at h
  exact List.mem_of_find?_eq_some h

theorem hasNode_of_getNode (g : RPG) (x : String) (n : Node)
    (h : g.getNode x = some n) : g.hasNode x = true := by
  have hb : (n.id == x) = true := by
    unfold RPG.getNode at h
    exact @List.find?_some Node (fun n => n.id == x) n g.nodes h
  unfold RPG.hasNode
  exact List.any_eq_true.mpr ⟨n, getNode_mem g x n h, hb⟩

theorem getNode_none_of_hasNode_false (g : RPG) (x : String)
    (h : g.hasNode x = false) : g.getNode x = none := by
  unfold RPG.hasNode at h
  unfold RPG.getNode
  apply List.find?_eq_none.mpr
  intro n hn
  intro hc
  have : (g.nodes.any fun n => n.id == x) = true := List.any_eq_true.mpr ⟨n, hn, hc⟩
  rw [h] at this
  cases this

theorem applyPartial_id (u : PartialNode) (n : Node) : (applyPartial u n).id = n.id := rfl

theorem find?_map_id_preserved (l : List Node) (f : Node → Node)
    (hf : ∀ x, (f x).id = x.id) (id : String) :
    (l.map f).find? (fun n => n.id == id) = (l.find? (fun n => n.id == id)).map f := by
  induction l with
  | nil => rfl
  | cons a l ih =>
    show List.find? (fun n => n.id == id) (f a :: l.map f) = _
    simp only [List.find?]
    rw [hf a]
    cases hb : (a.id == id) with
    | true => rfl
    | false => exact ih

theorem updateNode_ok (g : RPG) (id : String) (u : PartialNode) (n : Node)
    (h : g.getNode id = some n) :
    g.updateNode id u
      = Except.ok { g with nodes := g.nodes.map (fun x => if x.id == id then applyPartial u x else x) } := by
  unfold RPG.updateNode
  rw [if_neg (by rw [hasNode_of_getNode g id n h]; intro hc; cases hc rfl)]

theorem updateFun_id (u : PartialNode) (id : String) :
    ∀ x : Node, ((fun x => if x.id == id then applyPartial u x else x) x).id = x.id := by
  intro x
  by_cases hx : (x.id == id) = true
  · show (if (x.id == id) = true then applyPartial u x else x).id = x.id
    rw [if_pos hx]
    rfl
  · show (if (x.id == id) = true then applyPartial u x else x).id = x.id
    rw [if_neg hx]

theorem getNode_after_update (g : RPG) (id : String) (u : PartialNode) (n : Node)
    (h : g.getNode id = some n) :
    ({ g with nodes := g.nodes.map (fun x => if x.id == id then applyPartial u x else x) } : RPG).getNode id
      = some (applyPartial u n) := by
  unfold RPG.getNode at h ⊢
  rw [find?_map_id_preserved _ _ (updateFun_id u id) id, h]
  show some (if (n.id == id) = true then applyPartial u n else n) = _
  rw [if_pos (by rw [getNode_id g id n (by unfold RPG.getNode; exact h)]; exact beq_self_eq_true id)]

theorem getNode_after_update_other (g : RPG) (id id' : String) (u : PartialNode)
    (hne : id' ≠ id) :
    ({ g with nodes := g.nodes.map (fun x => if x.id == id then applyPartial u x else x) } : RPG).getNode id'
      = g.getNode id' := by
  unfold RPG.getNode
  rw [find?_map_id_preserved _ _ (updateFun_id u id) id']
  cases hfind : List.find? (fun n => n.id == id') g.nodes with
  | none => rfl
  | some m =>
    have hm : m.id = id' := by
      have hb := @List.find?_some Node (fun n => n.id == id') m g.nodes hfind
      exact eq_of_beq hb
    show some (if (m.id == id) = true then applyPartial u m else m) = some m
    rw [if_neg (by
      rw [hm]
      intro hb
      exact hne (eq_of_beq hb))]

/-! ### Claim theorems -/

/-- C10. For ids absent from the graph, the read operations return empty
results (`getNode` gives `undefined`, the edge and hierarchy queries give
empty lists), while `updateNode` and `removeNode` throw a not-found
error; an error leaves the graph unchanged (the operation returns no new
state). -/
theorem c10_absent_id_reads_empty_mutations_throw
    (g : RPG) (id : String) (u : PartialNode) (h : g.hasNode id = false) :
    g.getNode id = none ∧
    (∀ t, g.getOutEdges id t = []) ∧
    (∀ t, g.getInEdges id t = []) ∧
    g.getChildren id = [] ∧
    g.getParent id = none ∧
    g.getDependencies id = [] ∧
    g.getDependents id = [] ∧
    (∃ m, g.updateNode id u = Except.error m) ∧
    (∃ m, g.removeNode id = Except.error m) := by
  have hout : ∀ t, g.getOutEdges id t = [] := by
    intro t
    unfold RPG.getOutEdges
    rw [if_pos (by rw [h]; intro hc; cases hc)]
  have hin : ∀ t, g.getInEdges id t = [] := by
    intro t
    unfold RPG.getInEdges
    rw [if_pos (by rw [h]; intro hc; cases hc)]
  refine ⟨getNode_none_of_hasNode_false g id h, hout, hin, ?_, ?_, ?_, ?_, ?_, ?_⟩
  · unfold RPG.getChildren
    rw [hout]
    rfl
  · unfold RPG.getParent
    rw [hin]
    rfl
  · unfold RPG.getDependencies
    rw [hout]
    rfl
  · unfold RPG.getDependents
    rw [hin]
    rfl
  · refine ⟨"Node with id \"" ++ id ++ "\" not found", ?_⟩
    unfold RPG.updateNode
    rw [if_pos (by rw [h]; intro hc; cases hc)]
  · refine ⟨"Node with id \"" ++ id ++ "\" not found", ?_⟩
    unfold RPG.removeNode
    rw [if_pos (by rw [h]; intro hc; cases hc)]

/-- Witness for C10 at a concrete graph and id. -/
theorem c10_witness :
    gC2.hasNode "ghost" = false ∧
    (gC2.getNode "ghost" = none ∧ gC2.getChildren "ghost" = [] ∧
      gC2.getParent "ghost" = none ∧
      (∃ m, gC2.updateNode "ghost" {} = Except.error m) ∧
      (∃ m, gC2.removeNode "ghost" = Except.error m)) := by
  have h : gC2.hasNode "ghost" = false := by decide
  have hc := c10_absent_id_reads_empty_mutations_throw gC2 "ghost" {} h
  exact ⟨h, hc.1, hc.2.2.2.1, hc.2.2.2.2.1, hc.2.2.2.2.2.2.2.1, hc.2.2.2.2.2.2.2.2⟩

/-- C8 counterexample. `updateNode` does not deep-merge: an update
naming only `feature.description` erases the pre-existing
`feature.keywords`, and an update naming only `metadata.entityType`
erases `metadata.path` and the pre-existing `metadata.extra` entries. -/
theorem c8_counterexample :
    ((gC8.updateNode "n" uC8a).toOption.bind (fun g' => (g'.getNode "n").map Node.feature))
      = some { description := "load settings", keywords := none } ∧
    ((gC8.updateNode "n" uC8b).toOption.bind (fun g' => g'.getNode "n")).bind Node.metadata
      = some { entityType := "file" } := by
  exact ⟨rfl, rfl⟩

/-- C8 amended. `updateNode` on an existing id succeeds and performs a
shallow top-level merge: top-level fields not named in the update are
unchanged, while a named field — in particular `feature` or the whole
`metadata` record — is replaced wholesale rather than deep-merged; edges
and all other nodes are untouched. -/
theorem c8_update_shallow_merge
    (g : RPG) (id : String) (u : PartialNode) (n : Node)
    (h : g.getNode id = some n) :
    ∃ g', g.updateNode id u = Except.ok g' ∧
      g'.getNode id = some (applyPartial u n) ∧
      (applyPartial u n).id = n.id ∧
      (applyPartial u n).feature = u.feature.getD n.feature ∧
      (applyPartial u n).metadata
        = (match u.metadata with | some m => some m | none => n.metadata) ∧
      g'.edges = g.edges ∧
      (∀ id', id' ≠ id → g'.getNode id' = g.getNode id') := by
  refine ⟨_, updateNode_ok g id u n h, getNode_after_update g id u n h, rfl, ?_, ?_, rfl,
    fun id' hne => getNode_after_update_other g id id' u hne⟩
  · show u.feature.getD n.feature = u.feature.getD n.feature
    rfl
  · show (match u.metadata with | some m => some m | none => n.metadata) = _
    rfl

/-- Witness for C8 at a concrete graph, update and node. -/
theorem c8_witness :
    ∃ g', gC8.updateNode "n" uC8a = Except.ok g' ∧
      g'.getNode "n" = some (applyPartial uC8a
        { id := "n", type := .lowLevel,
          feature := { description := "parse config", keywords := some ["config", "parse"] },
          metadata := some { entityType := "function", path := some "src/cfg.ts",
                             extra := some [("owner", .str "core")] } }) := by
  have h := c8_update_shallow_merge gC8 "n" uC8a
    { id := "n", type := .lowLevel,
      feature := { description := "parse config", keywords := some ["config", "parse"] },
      metadata := some { entityType := "function", path := some "src/cfg.ts",
                         extra := some [("owner", .str "core")] } } rfl
  obtain ⟨g', h1, h2, _⟩ := h
  exact ⟨g', h1, h2⟩

/-- C5 counterexample. Repeating the same write is not failure-free:
the second `addEdge` of the same `(source, target, type)` and the second
`addNode` of the same id both throw (though the duplicate edge is indeed
not inserted — exactly one edge with that identity remains). -/
theorem c5_counterexample :
    gC5build = Except.ok gC5 ∧
    gC5.addEdge eC5 = Except.error "edge \"a->b:functional\" already exists" ∧
    gC5.addNode nC5 = Except.error "Node with id \"a\" already exists" ∧
    (gC5.edges.filter (fun e' =>
      e'.source == eC5.source && e'.target == eC5.target && e'.type == eC5.type)).length = 1 := by
  exact ⟨rfl, rfl, rfl, rfl⟩

/-- C5 amended. After a successful `addEdge(e)`, exactly one edge with
identity `(e.source, e.target, e.type)` exists, and a repeated
`addEdge(e)` throws a duplicate-key error instead of succeeding
silently; likewise a repeated `addNode` throws on the duplicated id. The
failing second call returns no new graph, so the state is unchanged. -/
theorem c5_second_write_throws :
    (∀ (g : RPG) (e : Edge) (g' : RPG), g.addEdge e = Except.ok g' →
      (g'.edges.filter (fun e' =>
        e'.source == e.source && e'.target == e.target && e'.type == e.type)).length = 1 ∧
      ∃ m, g'.addEdge e = Except.error m) ∧
    (∀ (g : RPG) (n : Node) (g' : RPG), g.addNode n = Except.ok g' →
      (g'.nodes.filter (fun n' => n'.id == n.id)).length = 1 ∧
      ∃ m, g'.addNode n = Except.error m) := by
  constructor
  · intro g e g' h
    unfold RPG.addEdge at h
    by_cases hs : g.hasNode e.source = true
    swap
    · rw [if_pos (by rw [Bool.not_eq_true] at hs; rw [hs]; intro hc; cases hc)] at h
      cases h
    by_cases ht : g.hasNode e.target = true
    swap
    · rw [if_neg (by rw [hs]; intro hc; exact hc rfl),
          if_pos (by rw [Bool.not_eq_true] at ht; rw [ht]; intro hc; cases hc)] at h
      cases h
    by_cases hk : g.hasEdgeKey (edgeKey e) = true
    · rw [if_neg (by rw [hs]; intro hc; exact hc rfl),
          if_neg (by rw [ht]; intro hc; exact hc rfl), if_pos hk] at h
      cases h
    · rw [if_neg (by rw [hs]; intro hc; exact hc rfl),
          if_neg (by rw [ht]; intro hc; exact hc rfl),
          if_neg (by rw [Bool.not_eq_true] at hk; rw [hk]; intro hc; cases hc)] at h
      cases h
      have hfilter : g.edges.filter (fun e' =>
          e'.source == e.source && e'.target == e.target && e'.type == e.type) = [] := by
        apply List.filter_eq_nil_iff.mpr
        intro e' he' hcontra
        have h1 : e'.source = e.source := eq_of_beq (Bool.and_elim_left (Bool.and_elim_left hcontra))
        have h2 : e'.target = e.target := eq_of_beq (Bool.and_elim_right (Bool.and_elim_left hcontra))
        have h3 : e'.type = e.type := eq_of_beq (Bool.and_elim_right hcontra)
        have hkey : edgeKey e' = edgeKey e := by
          unfold edgeKey
          rw [h1, h2, h3]
        have : g.hasEdgeKey (edgeKey e) = true := by
          unfold RPG.hasEdgeKey
          exact List.any_eq_true.mpr ⟨e', he', by rw [hkey]; exact beq_self_eq_true _⟩
        rw [this] at hk
        exact hk rfl
      constructor
      · show (List.filter _ (g.edges ++ [e])).length = 1
        rw [List.filter_append, hfilter]
        show ([] ++ List.filter _ [e]).length = 1
        rw [List.nil_append]
        show (List.filter _ [e]).length = 1
        rw [List.filter_cons_of_pos (by
          show (e.source == e.source && e.target == e.target && e.type == e.type) = true
          simp)]
        rfl
      · refine ⟨"edge \"" ++ edgeKey e ++ "\" already exists", ?_⟩
        unfold RPG.addEdge
        have hkey' : ({ g with edges := g.edges ++ [e] } : RPG).hasEdgeKey (edgeKey e) = true := by
          unfold RPG.hasEdgeKey
          exact List.any_eq_true.mpr ⟨e, by simp, beq_self_eq_true _⟩
        rw [if_neg (by show ¬¬g.hasNode e.source = true; rw [hs]; intro hc; exact hc rfl),
            if_neg (by show ¬¬g.hasNode e.target = true; rw [ht]; intro hc; exact hc rfl),
            if_pos hkey']
  · intro g n g' h
    unfold RPG.addNode at h
    by_cases hn : g.hasNode n.id = true
    · rw [if_pos hn] at h
      cases h
    · rw [if_neg hn] at h
      cases h
      have hfilter : g.nodes.filter (fun n' => n'.id == n.id) = [] := by
        apply List.filter_eq_nil_iff.mpr
        intro n' hn' hcontra
        exact hn (by
          unfold RPG.hasNode
          exact List.any_eq_true.mpr ⟨n', hn', hcontra⟩)
      constructor
      · show (List.filter _ (g.nodes ++ [n])).length = 1
        rw [List.filter_append, hfilter]
        show ([] ++ List.filter _ [n]).length = 1
        rw [List.nil_append]
        show (List.filter _ [n]).length = 1
        have hp : (fun n' : Node => n'.id == n.id) n = true := beq_self_eq_true n.id
        rw [@List.filter_cons_of_pos Node (fun n' => n'.id == n.id) n [] hp]
        rfl
      · refine ⟨"Node with id \"" ++ n.id ++ "\" already exists", ?_⟩
        unfold RPG.addNode
        rw [if_pos (by
          show ({ g with nodes := g.nodes ++ [n] } : RPG).hasNode n.id = true
          unfold RPG.hasNode
          exact List.any_eq_true.mpr ⟨n, by simp, beq_self_eq_true _⟩)]

/-- Witness for C5 at a concrete graph. -/
theorem c5_witness :
    ((({ gC2 with edges := gC2.edges ++ [createFunctionalEdge "auth" "src/db/conn.ts:file"] } : RPG).edges.filter
        (fun e' => e'.source == "auth" && e'.target == "src/db/conn.ts:file"
          && e'.type == EdgeType.functional)).length = 1 ∧
      ∃ m, ({ gC2 with edges := gC2.edges ++ [createFunctionalEdge "auth" "src/db/conn.ts:file"] } : RPG).addEdge
        (createFunctionalEdge "auth" "src/db/conn.ts:file") = Except.error m) :=
  c5_second_write_throws.1 gC2 (createFunctionalEdge "auth" "src/db/conn.ts:file") _ rfl

/-- C4 counterexample. The public operations accept a functional cycle
(`a → b` then `b → a`, though `a` is in `b`'s ancestor chain) and a node
with two incoming functional edges (`a → c` and `b → c`): the Functional
edges of a reachable graph need not form a forest and no addition is
rejected for its ancestor chain. -/
theorem c4_counterexample :
    gC4build = Except.ok gC4 ∧
    createFunctionalEdge "a" "b" ∈ gC4.edges ∧
    createFunctionalEdge "b" "a" ∈ gC4.edges ∧
    (gC4.getInEdges "c" (some .functional)).length = 2 := by
  exact ⟨rfl, by decide, by decide, rfl⟩

/-- C4 amended. `addEdge` (hence `addFunctionalEdge`) checks only that
both endpoints exist and that no edge with the same
`(source, target, type)` key exists; it performs no single-parent or
ancestor-chain check, so any such addition succeeds — including ones
that close a cycle or give a node a second functional parent. -/
theorem c4_functional_edge_unchecked
    (g : RPG) (s t : String) (l so : Option Nat)
    (hs : g.hasNode s = true) (ht : g.hasNode t = true)
    (hk : g.hasEdgeKey (edgeKey (createFunctionalEdge s t l so)) = false) :
    g.addFunctionalEdge s t l so
      = Except.ok { g with edges := g.edges ++ [createFunctionalEdge s t l so] } := by
  unfold RPG.addFunctionalEdge RPG.addEdge
  rw [if_neg (by show ¬¬g.hasNode s = true; rw [hs]; intro hc; exact hc rfl),
      if_neg (by show ¬¬g.hasNode t = true; rw [ht]; intro hc; exact hc rfl),
      if_neg (by rw [hk]; intro hc; cases hc)]

/-- Witness for C4: the ancestor-closing edge `c → a` is accepted on the
already-cyclic graph. -/
theorem c4_witness :
    gC4.addFunctionalEdge "c" "a" none none
      = Except.ok { gC4 with edges := gC4.edges ++ [createFunctionalEdge "c" "a" none none] } :=
  c4_functional_edge_unchecked gC4 "c" "a" none none (by decide) (by decide) (by decide)

/-- C3 counterexample. The low-level node created for an extracted
entity (spec scenario 1's `greet` at line 1) carries the start line in
its id: the id is `src/a.ts:function:greet:1`, not the claimed
`src/a.ts:function:greet`. -/
theorem c3_counterexample :
    entityNodeId "src/a.ts" entC3 = "src/a.ts:function:greet:1" ∧
    entityNodeId "src/a.ts" entC3 ≠ "src/a.ts:function:greet" := by
  exact ⟨rfl, by decide⟩

/-- C3 amended. File nodes get id `{relativePath}:file` as claimed, but
the id of an entity node is
`{relativePath}:{entityType}:{entityName}:{startLine}` — the simple
entity name followed by the start line, which `extractEntities` always
passes (`CodeEntity.startLine` is a required field). -/
theorem c3_entity_ids_include_start_line
    (rel : String) (e : CodeEntity) (h : e.name ≠ "") :
    fileNodeId rel = rel ++ ":file" ∧
    entityNodeId rel e = rel ++ ":" ++ e.type ++ ":" ++ e.name ++ ":" ++ toString e.startLine := by
  have hb : (e.name == "") = false := beq_eq_false_iff_ne.mpr h
  constructor
  · show joinColon [rel, "file"] = rel ++ ":file"
    show rel ++ ":" ++ joinColon ["file"] = rel ++ ":file"
    rw [String.append_assoc]
    rfl
  · show joinColon ((if (e.name == "") = true then [rel, e.type]
        else [rel, e.type] ++ [e.name]) ++ [toString e.startLine]) = _
    rw [hb]
    show rel ++ ":" ++ (e.type ++ ":" ++ (e.name ++ ":" ++ toString e.startLine)) = _
    simp only [String.append_assoc]

/-- Witness for C3 at the concrete entity. -/
theorem c3_witness :
    fileNodeId "src/a.ts" = "src/a.ts" ++ ":file" ∧
    entityNodeId "src/a.ts" entC3
      = "src/a.ts" ++ ":" ++ "function" ++ ":" ++ "greet" ++ ":" ++ toString 1 :=
  c3_entity_ids_include_start_line "src/a.ts" entC3 (by decide)

/-- C1 (code bug). After grounding the high-level node over
`src/utils` and `tests/utils`, its `metadata.extra.paths` contains
`tests/utils`, which matches the glob `tests/utils*` — yet
`searchByPath("tests/utils*")` returns only the low-level test file:
the implementation filters `getLowLevelNodes()` and consults only
`metadata.path`, never `extra.paths` and never high-level nodes. The
repository's own test (`tests/encoder/grounding.test.ts`, "should make
HighLevelNodes findable via searchByPath using extra.paths") and the
plan document `.please/plans/2026-02-06-lca-artifact-grounding.md`
(acceptance: "searchByPath matches HighLevelNodes via metadata.path and
metadata.extra.paths") require the claimed behaviour. -/
theorem c1_searchByPath_misses_grounded_highLevel :
    gC1build = Except.ok gC1 ∧
    ground 10 gC1 = some gC1g ∧
    ((gC1g.getNode "domain:CrossCutting").bind Node.metadata).bind StructuralMetadata.extra
      = some [("paths", ExtraVal.strList ["src/utils", "tests/utils"])] ∧
    reTest (globToks "tests/utils*") "tests/utils".data = true ∧
    (gC1g.searchByPath "tests/utils*").map Node.id = ["tests/utils/helper.test.ts:file"] := by
  exact ⟨rfl, rfl, rfl, rfl, rfl⟩

/-- C2 counterexample. In `auto` mode, snippet search is not skipped
when feature search already returned nodes: with a feature hit (`auth`)
and a file pattern, the result also contains the path hit — there is no
staged fallback. -/
theorem c2_counterexample :
    gC2build = Except.ok gC2 ∧
    (featurePhase gC2 optsC2).map Node.id = ["auth"] ∧
    (SearchNode.query gC2 optsC2).nodes.map Node.id = ["auth", "src/db/conn.ts:file"] := by
  exact ⟨rfl, rfl, rfl⟩

/-- C2 amended. In `auto` mode the query always runs feature search
over the feature terms and, whenever a non-empty `filePattern` is
provided, also runs snippet search — regardless of whether feature
search returned nodes; an empty `filePattern` is falsy in JavaScript
and skips the snippet phase exactly like an absent one. The combined
results are deduplicated by node id, preserving first-seen order
(`setList` of the ids), and every snippet hit's id is in the result. -/
theorem c2_auto_runs_both_phases
    (g : RPG) (opts : SearchOptions) (h : opts.mode = SearchMode.auto) :
    (SearchNode.query g opts).nodes = dedupById (featurePhase g opts ++ snippetPhase g opts) ∧
    (SearchNode.query g opts).nodes.map Node.id
      = setList ((featurePhase g opts ++ snippetPhase g opts).map Node.id) ∧
    (∀ n, n ∈ (SearchNode.query g opts).nodes → n ∈ featurePhase g opts ++ snippetPhase g opts) ∧
    (∀ p, opts.filePattern = some p → p ≠ "" → snippetPhase g opts = g.searchByPath p) ∧
    (opts.filePattern = some "" → snippetPhase g opts = []) ∧
    (∀ n, n ∈ snippetPhase g opts → n.id ∈ (SearchNode.query g opts).nodes.map Node.id) ∧
    ((SearchNode.query g opts).nodes.map Node.id).Nodup ∧
    (SearchNode.query g opts).totalMatches = (SearchNode.query g opts).nodes.length := by
  refine ⟨rfl, dedupById_ids _, fun n hn => dedupById_mem _ n hn, ?_, ?_, ?_,
    dedupById_ids_nodup _, rfl⟩
  · intro p hp hpne
    unfold snippetPhase
    rw [h, hp]
    show (if (p == "") = true then [] else g.searchByPath p) = _
    rw [if_neg (fun hc => hpne (eq_of_beq hc))]
  · intro hp
    unfold snippetPhase
    rw [h, hp]
    rfl
  · intro n hn
    have hmem : n ∈ featurePhase g opts ++ snippetPhase g opts :=
      List.mem_append.mpr (Or.inr hn)
    show n.id ∈ (dedupById (featurePhase g opts ++ snippetPhase g opts)).map Node.id
    rw [dedupById_ids]
    exact (mem_setList _ _).mpr (List.mem_map_of_mem Node.id hmem)

/-- Witness for C2: the amended behaviour at the concrete scenario. -/
theorem c2_witness :
    (SearchNode.query gC2 optsC2).nodes
      = dedupById (featurePhase gC2 optsC2 ++ snippetPhase gC2 optsC2) ∧
    ((SearchNode.query gC2 optsC2).nodes.map Node.id).Nodup :=
  ⟨(c2_auto_runs_both_phases gC2 optsC2 rfl).1,
   (c2_auto_runs_both_phases gC2 optsC2 rfl).2.2.2.2.2.2.1⟩

/-! ### Exploration invariants (claim C9) -/

theorem explore_succ_eq (g : RPG) (opts : ExploreOptions)
    (fuel depth : Nat) (nodeId : String) (st : ExpState) :
    explore g opts (fuel + 1) depth nodeId st
      = if opts.maxDepth < depth ∨ st.visited.contains nodeId then st
        else
          match g.getNode nodeId with
          | none => { st with visited := st.visited ++ [nodeId] }
          | some node =>
            (succPairs g opts nodeId).foldl
              (fun st' p =>
                explore g opts fuel (depth + 1) p.1 { st' with edges := st'.edges ++ [p.2] })
              { st with visited := st.visited ++ [nodeId],
                        nodes := st.nodes ++ [node],
                        maxDepthReached := max st.maxDepthReached depth } := rfl

theorem explore_inv (g : RPG) (opts : ExploreOptions) :
    ∀ (fuel depth : Nat) (nodeId : String) (st : ExpState),
    ExpInv g opts st →
    ExpInv g opts (explore g opts fuel depth nodeId st) ∧
    (∀ x ∈ st.visited, x ∈ (explore g opts fuel depth nodeId st).visited) := by
  intro fuel
  induction fuel with
  | zero =>
    intro depth nodeId st h
    exact ⟨h, fun x hx => hx⟩
  | succ fuel ih =>
    intro depth nodeId st h
    rw [explore_succ_eq]
    by_cases hg : opts.maxDepth < depth ∨ st.visited.contains nodeId = true
    · rw [if_pos hg]
      exact ⟨h, fun x hx => hx⟩
    · rw [if_neg hg]
      have hdep : depth ≤ opts.maxDepth := by
        rcases Nat.lt_or_ge opts.maxDepth depth with hlt | hge
        · exact absurd (Or.inl hlt) hg
        · exact hge
      have hnv : nodeId ∉ st.visited := by
        intro hmem
        exact hg (Or.inr (List.elem_eq_true_of_mem hmem))
      cases hget : g.getNode nodeId with
      | none =>
        refine ⟨⟨h.1, h.2.1, ?_, h.2.2.2⟩, ?_⟩
        · intro n hn
          exact List.mem_append_left _ (h.2.2.1 n hn)
        · intro x hx
          exact List.mem_append_left _ hx
      | some node =>
        have hid : node.id = nodeId := getNode_id g nodeId node hget
        have hst2 : ExpInv g opts
            { st with visited := st.visited ++ [nodeId],
                      nodes := st.nodes ++ [node],
                      maxDepthReached := max st.maxDepthReached depth } := by
          refine ⟨?_, ?_, ?_, ?_⟩
          · show (List.map Node.id (st.nodes ++ [node])).Nodup
            rw [List.map_append]
            refine List.Nodup.append h.1 (by simp) ?_
            intro a ha hb
            simp only [List.map_cons, List.map_nil, List.mem_singleton] at hb
            obtain ⟨n, hn, hniq⟩ := List.mem_map.mp ha
            have hv := h.2.2.1 n hn
            rw [hniq, hb, hid] at hv
            exact hnv hv
          · intro n hn
            rcases List.mem_append.mp hn with hn | hn
            · exact h.2.1 n hn
            · rw [List.mem_singleton.mp hn]
              exact getNode_mem g nodeId node hget
          · intro n hn
            rcases List.mem_append.mp hn with hn | hn
            · exact List.mem_append_left _ (h.2.2.1 n hn)
            · rw [List.mem_singleton.mp hn, hid]
              exact List.mem_append_right _ (List.mem_singleton.mpr rfl)
          · exact max_le h.2.2.2 hdep
        have hfold : ∀ (l : List (String × ExpEdge)) (s : ExpState), ExpInv g opts s →
            ExpInv g opts (l.foldl (fun st' p =>
              explore g opts fuel (depth + 1) p.1 { st' with edges := st'.edges ++ [p.2] }) s) ∧
            (∀ x ∈ s.visited, x ∈ (l.foldl (fun st' p =>
              explore g opts fuel (depth + 1) p.1 { st' with edges := st'.edges ++ [p.2] }) s).visited) := by
          intro l
          induction l with
          | nil => exact fun s hs => ⟨hs, fun x hx => hx⟩
          | cons p l ihl =>
            intro s hs
            have hs' : ExpInv g opts { s with edges := s.edges ++ [p.2] } :=
              ⟨hs.1, hs.2.1, hs.2.2.1, hs.2.2.2⟩
            have h1 := ih (depth + 1) p.1 { s with edges := s.edges ++ [p.2] } hs'
            have h2 := ihl _ h1.1
            exact ⟨h2.1, fun x hx => h2.2 x (h1.2 x hx)⟩
        have hres := hfold (succPairs g opts nodeId) _ hst2
        refine ⟨hres.1, ?_⟩
        intro x hx
        exact hres.2 x (List.mem_append_left _ hx)

theorem foldl_explore_zero_nodes (g : RPG) (opts : ExploreOptions) (depth : Nat) :
    ∀ (l : List (String × ExpEdge)) (s : ExpState),
    ((l.foldl (fun st' p =>
      explore g opts 0 (depth + 1) p.1 { st' with edges := st'.edges ++ [p.2] }) s)).nodes
      = s.nodes := by
  intro l
  induction l with
  | nil => intro s; rfl
  | cons p l ihl =>
    intro s
    exact ihl { s with edges := s.edges ++ [p.2] }

/-- C9. Bounded traversal: with `maxDepth = 0` only the start node is
returned (empty when the start id is absent); in every traversal the
returned node ids are distinct (each node visited at most once), every
returned node belongs to the graph, the number of returned nodes is
bounded by the graph size (so the traversal visits finitely many nodes
and terminates — the embedding is a total function), and the reported
`maxDepthReached` never exceeds the requested bound. -/
theorem c9_traverse_bounded
    (g : RPG) (opts : ExploreOptions) :
    (opts.maxDepth = 0 →
      (ExploreRPG.traverse g opts).nodes = (g.getNode opts.startNode).toList) ∧
    ((ExploreRPG.traverse g opts).nodes.map Node.id).Nodup ∧
    (∀ n ∈ (ExploreRPG.traverse g opts).nodes, n ∈ g.nodes) ∧
    (ExploreRPG.traverse g opts).nodes.length ≤ g.nodes.length ∧
    (ExploreRPG.traverse g opts).maxDepthReached ≤ opts.maxDepth := by
  have hstart : ExpInv g opts ({} : ExpState) := by
    refine ⟨List.nodup_nil, ?_, ?_, Nat.zero_le _⟩
    · intro n hn
      cases hn
    · intro n hn
      cases hn
  have hinv := explore_inv g opts (opts.maxDepth + 1) 0 opts.startNode {} hstart
  have hnodes : (ExploreRPG.traverse g opts).nodes
      = (explore g opts (opts.maxDepth + 1) 0 opts.startNode {}).nodes := rfl
  have hmdr : (ExploreRPG.traverse g opts).maxDepthReached
      = (explore g opts (opts.maxDepth + 1) 0 opts.startNode {}).maxDepthReached := rfl
  refine ⟨?_, ?_, ?_, ?_, ?_⟩
  · intro h0
    rw [hnodes, h0, explore_succ_eq]
    rw [if_neg (by
      rintro (hlt | hc)
      · exact Nat.not_lt_zero _ hlt
      · cases hc)]
    cases hget : g.getNode opts.startNode with
    | none => rfl
    | some node =>
      rw [foldl_explore_zero_nodes g opts 0]
      rfl
  · rw [hnodes]
    exact (hinv.1).1
  · rw [hnodes]
    exact (hinv.1).2.1
  · rw [hnodes]
    have h1 := (hinv.1).1
    have h2 := (hinv.1).2.1
    set l := (explore g opts (opts.maxDepth + 1) 0 opts.startNode {}).nodes with hl
    calc l.length = (l.map Node.id).length := by rw [List.length_map]
    _ = (l.map Node.id).toFinset.card := (List.toFinset_card_of_nodup h1).symm
    _ ≤ (g.nodes.map Node.id).toFinset.card := by
        apply Finset.card_le_card
        intro x hx
        rw [List.mem_toFinset] at hx ⊢
        obtain ⟨n, hn, rfl⟩ := List.mem_map.mp hx
        exact List.mem_map_of_mem Node.id (h2 n hn)
    _ ≤ (g.nodes.map Node.id).length := List.toFinset_card_le _
    _ = g.nodes.length := List.length_map _ _
  · rw [hmdr]
    exact (hinv.1).2.2.2

/-! ### String lemmas for the LCA development -/

theorem joinSegs_cons (x : String) (q : List String) (hq : q ≠ []) :
    joinSegs (x :: q) = x ++ "/" ++ joinSegs q := by
  cases q with
  | nil => exact absurd rfl hq
  | cons y q' => rfl

theorem joinSegs_append (p q : List String) (hp : p ≠ []) (hq : q ≠ []) :
    joinSegs (p ++ q) = joinSegs p ++ "/" ++ joinSegs q := by
  induction p with
  | nil => exact absurd rfl hp
  | cons x p' ih =>
    cases hp' : p' with
    | nil =>
      subst hp'
      show joinSegs (x :: q) = joinSegs [x] ++ "/" ++ joinSegs q
      rw [joinSegs_cons x q hq]
      rfl
    | cons y p'' =>
      rw [← hp']
      have hne : p' ≠ [] := by rw [hp']; intro hc; cases hc
      have h1 : (x :: p') ++ q = x :: (p' ++ q) := rfl
      rw [h1, joinSegs_cons x (p' ++ q) (by
          intro hc
          exact hne (List.append_eq_nil.mp hc).1),
        ih hne, joinSegs_cons x p' hne]
      simp [String.append_assoc]

theorem strStarts_self_append (a b : String) : strStarts a (a ++ b) = true := by
  unfold strStarts
  apply List.isPrefixOf_iff_prefix.mpr
  exact ⟨b.data, rfl⟩

theorem strStarts_of_append (a b x : String) (h : strStarts (a ++ b) x = true) :
    strStarts a x = true := by
  unfold strStarts at h ⊢
  apply List.isPrefixOf_iff_prefix.mpr
  have h2 : a.data ++ b.data <+: x.data := List.isPrefixOf_iff_prefix.mp h
  exact List.IsPrefix.trans ⟨b.data, rfl⟩ h2

theorem strStarts_false_of_append (a b x : String) (h : strStarts a x = false) :
    strStarts (a ++ b) x = false := by
  cases hc : strStarts (a ++ b) x with
  | false => rfl
  | true => rw [strStarts_of_append a b x hc] at h; cases h

theorem charNotPrefix (a b rest : List Char) (hne : a ≠ b) (ha : '/' ∉ a) (hb : '/' ∉ b)
    (hrest : rest = [] ∨ ∃ r', rest = '/' :: r') :
    List.isPrefixOf (b ++ ['/']) (a ++ rest) = false := by
  induction a generalizing b with
  | nil =>
    cases b with
    | nil => exact absurd rfl hne
    | cons c b' =>
      rcases hrest with rfl | ⟨r', rfl⟩
      · rfl
      · show ((c == '/') && _) = false
        have : c ≠ '/' := fun hc => hb (hc ▸ List.mem_cons_self c b')
        rw [beq_eq_false_iff_ne.mpr this]
        rfl
  | cons x a' ih =>
    cases b with
    | nil =>
      show (('/' == x) && _) = false
      have : x ≠ '/' := fun hc => ha (hc ▸ List.mem_cons_self x a')
      rw [beq_eq_false_iff_ne.mpr (Ne.symm this)]
      rfl
    | cons y b' =>
      show ((y == x) && List.isPrefixOf (b' ++ ['/']) (a' ++ rest)) = false
      by_cases hxy : y = x
      · subst hxy
        rw [beq_self_eq_true, Bool.true_and]
        apply ih
        · intro hc
          exact hne (by rw [hc])
        · intro hc
          exact ha (List.mem_cons_of_mem _ hc)
        · intro hc
          exact hb (List.mem_cons_of_mem _ hc)
      · rw [beq_eq_false_iff_ne.mpr hxy]
        rfl

theorem joinSegs_cons_data (s : String) (u : List String) (hu : u ≠ []) :
    (joinSegs (s :: u)).data = s.data ++ '/' :: (joinSegs u).data := by
  rw [joinSegs_cons s u hu]
  show (s.data ++ ['/']) ++ (joinSegs u).data = _
  simp [List.append_assoc]

theorem notPrefix_sib (s s' : String) (u : List String)
    (h : s ≠ s') (hs : segOK s) (hs' : segOK s') :
    List.isPrefixOf (s'.data ++ ['/']) (joinSegs (s :: u)).data = false := by
  have hd : s.data ≠ s'.data := fun hc => h (String.ext hc)
  cases u with
  | nil =>
    have h0 := charNotPrefix s.data s'.data [] hd hs.2 hs'.2 (Or.inl rfl)
    rw [List.append_nil] at h0
    exact h0
  | cons v u' =>
    rw [joinSegs_cons_data s (v :: u') (by intro hc; cases hc)]
    exact charNotPrefix s.data s'.data ('/' :: (joinSegs (v :: u')).data) hd hs.2 hs'.2
      (Or.inr ⟨_, rfl⟩)

theorem strStarts_append_cancel (w a b : String) :
    strStarts (w ++ a) (w ++ b) = strStarts a b := by
  have key : ∀ (v x y : List Char), List.isPrefixOf (v ++ x) (v ++ y) = List.isPrefixOf x y := by
    intro v x y
    induction v with
    | nil => rfl
    | cons c v ih =>
      show ((c == c) && List.isPrefixOf (v ++ x) (v ++ y)) = List.isPrefixOf x y
      rw [beq_self_eq_true, Bool.true_and, ih]
  exact key w.data a.data b.data

theorem strStarts_sibling_false (p : List String) (s s' : String) (u : List String)
    (h : s ≠ s') (hs : segOK s) (hs' : segOK s') :
    strStarts (joinSegs (p ++ [s']) ++ "/") (joinSegs (p ++ s :: u)) = false := by
  by_cases hp : p = []
  · subst hp
    show strStarts (joinSegs [s'] ++ "/") (joinSegs (s :: u)) = false
    exact notPrefix_sib s s' u h hs hs'
  · rw [joinSegs_append p [s'] hp (by intro hc; cases hc),
      joinSegs_append p (s :: u) hp (by intro hc; cases hc),
      String.append_assoc (joinSegs p ++ "/") (joinSegs [s']) "/",
      strStarts_append_cancel]
    exact notPrefix_sib s s' u h hs hs'

theorem len_pos_of_ne_empty (s : String) (h : s ≠ "") : 0 < s.length := by
  show 0 < s.data.length
  cases hd : s.data with
  | nil => exact absurd (String.ext hd) h
  | cons c cs => simp

theorem splitSlashAux_noSlash (cs : List Char) (h : '/' ∉ cs) :
    ∀ acc, splitSlashAux cs acc = [String.mk (acc.reverse ++ cs)] := by
  induction cs with
  | nil => intro acc; simp [splitSlashAux]
  | cons c rest ih =>
    intro acc
    have hc : c ≠ '/' := fun hcc => h (hcc ▸ List.mem_cons_self c rest)
    show (if (c == '/') = true then _ else splitSlashAux rest (c :: acc)) = _
    rw [if_neg (by simp [hc]), ih (fun hm => h (List.mem_cons_of_mem c hm)) (c :: acc)]
    simp [List.append_assoc]

theorem splitSlashAux_slashSplit (cs : List Char) (h : '/' ∉ cs) :
    ∀ rest acc, splitSlashAux (cs ++ '/' :: rest) acc
      = String.mk (acc.reverse ++ cs) :: splitSlashAux rest [] := by
  induction cs with
  | nil =>
    intro rest acc
    show (if ('/' == '/') = true then String.mk acc.reverse :: splitSlashAux rest [] else _) = _
    rw [if_pos (by simp)]
    simp
  | cons c cs ih =>
    intro rest acc
    have hc : c ≠ '/' := fun hcc => h (hcc ▸ List.mem_cons_self c cs)
    show (if (c == '/') = true then _ else splitSlashAux (cs ++ '/' :: rest) (c :: acc)) = _
    rw [if_neg (by simp [hc]), ih (fun hm => h (List.mem_cons_of_mem c hm)) rest (c :: acc)]
    simp [List.append_assoc]

theorem segsOf_joinSegs (p : List String) (hp : ∀ z ∈ p, segOK z) :
    segsOf (joinSegs p) = p := by
  induction p with
  | nil => rfl
  | cons x xs ih =>
    have hx : segOK x := hp x (List.mem_cons_self x xs)
    cases xs with
    | nil =>
      show segsOf x = [x]
      unfold segsOf splitSlash
      rw [splitSlashAux_noSlash x.data hx.2 []]
      have : (List.filter (fun s => decide (s.length > 0)) [String.mk ([].reverse ++ x.data)])
          = List.filter (fun s => decide (s.length > 0)) [x] := by
        simp
      rw [this]
      rw [List.filter_cons_of_pos]
      · rfl
      · simpa using len_pos_of_ne_empty x hx.1
    | cons y ys =>
      have hys : (y :: ys) ≠ [] := by intro hc; cases hc
      unfold segsOf splitSlash
      rw [joinSegs_cons_data x (y :: ys) hys,
        splitSlashAux_slashSplit x.data hx.2 (joinSegs (y :: ys)).data []]
      have hmk : String.mk ([].reverse ++ x.data) = x := by simp
      rw [hmk]
      rw [List.filter_cons_of_pos]
      · have : splitSlashAux (joinSegs (y :: ys)).data [] = splitSlash (joinSegs (y :: ys)) := rfl
        rw [this]
        have ihr : segsOf (joinSegs (y :: ys)) = y :: ys :=
          ih (fun z hz => hp z (List.mem_cons_of_mem x hz))
        exact congrArg (x :: ·) ihr
      · simpa using len_pos_of_ne_empty x hx.1

theorem mem_splitSlashAux_noSlash (cs : List Char) :
    ∀ acc, '/' ∉ acc → ∀ s ∈ splitSlashAux cs acc, '/' ∉ s.data := by
  induction cs with
  | nil =>
    intro acc hacc s hs
    simp [splitSlashAux] at hs
    subst hs
    show '/' ∉ acc.reverse
    simpa using hacc
  | cons c rest ih =>
    intro acc hacc s hs
    by_cases hc : c = '/'
    · subst hc
      show ('/' : Char) ∉ s.data
      have he : splitSlashAux ('/' :: rest) acc
          = String.mk acc.reverse :: splitSlashAux rest [] := by
        show (if ('/' == '/') = true then _ else _) = _
        rw [if_pos (by simp)]
      rw [he] at hs
      rcases List.mem_cons.mp hs with h1 | h2
      · subst h1; show '/' ∉ acc.reverse; simpa using hacc
      · exact ih [] (by simp) s h2
    · have he : splitSlashAux (c :: rest) acc = splitSlashAux rest (c :: acc) := by
        show (if (c == '/') = true then _ else _) = _
        rw [if_neg (by simp [hc])]
      rw [he] at hs
      exact ih (c :: acc) (by
        intro hm
        rcases List.mem_cons.mp hm with h1 | h2
        · exact hc h1.symm
        · exact hacc h2) s hs

theorem segOK_of_mem_segsOf (d : String) : ∀ s ∈ segsOf d, segOK s := by
  intro s hs
  have h2 := List.mem_filter.mp hs
  constructor
  · intro hc
    subst hc
    have : (0 : Nat) < 0 := by simpa using of_decide_eq_true h2.2
    exact absurd this (by simp)
  · exact mem_splitSlashAux_noSlash d.data [] (by simp) s h2.1

theorem slashCancel : ∀ (a b r1 r2 : List Char), '/' ∉ a → '/' ∉ b →
    a ++ '/' :: r1 = b ++ '/' :: r2 → a = b ∧ r1 = r2 := by
  intro a
  induction a with
  | nil =>
    intro b r1 r2 _ hb h
    cases b with
    | nil =>
      refine ⟨rfl, ?_⟩
      simpa using h
    | cons c b' =>
      exfalso
      have h1 : ('/' : Char) = c := by simpa using congrArg (fun l => l.headD ' ') h
      exact hb (h1 ▸ List.mem_cons_self c b')
  | cons c a' ih =>
    intro b r1 r2 ha hb h
    cases b with
    | nil =>
      exfalso
      have h1 : c = '/' := by simpa using congrArg (fun l => l.headD ' ') h
      exact ha (h1 ▸ List.mem_cons_self c a')
    | cons c' b' =>
      have h1 : c = c' := by simpa using congrArg (fun l => l.headD ' ') h
      have h2 : a' ++ '/' :: r1 = b' ++ '/' :: r2 := by simpa using congrArg List.tail h
      obtain ⟨hab, hr⟩ := ih b' r1 r2 (fun hm => ha (List.mem_cons_of_mem c hm))
        (fun hm => hb (List.mem_cons_of_mem c' hm)) h2
      exact ⟨by rw [h1, hab], hr⟩

theorem joinSegs_inj : ∀ (l1 l2 : List String), (∀ z ∈ l1, segOK z) → (∀ z ∈ l2, segOK z) →
    joinSegs l1 = joinSegs l2 → l1 = l2 := by
  intro l1
  induction l1 with
  | nil =>
    intro l2 _ h2 h
    cases l2 with
    | nil => rfl
    | cons y ys =>
      exfalso
      have hy : segOK y := h2 y (List.mem_cons_self y ys)
      have hd := congrArg String.data h
      cases ys with
      | nil =>
        have : ([] : List Char) = y.data := hd
        exact hy.1 (String.ext this.symm)
      | cons z zs =>
        rw [joinSegs_cons_data y (z :: zs) (by intro hc; cases hc)] at hd
        have : y.data = [] ∧ ('/' :: (joinSegs (z :: zs)).data) = [] :=
          List.append_eq_nil.mp hd.symm
        cases this.2
  | cons x xs ih =>
    intro l2 h1 h2 h
    have hx : segOK x := h1 x (List.mem_cons_self x xs)
    cases l2 with
    | nil =>
      exfalso
      have hd := congrArg String.data h
      cases xs with
      | nil => exact hx.1 (String.ext hd)
      | cons z zs =>
        rw [joinSegs_cons_data x (z :: zs) (by intro hc; cases hc)] at hd
        have : x.data = [] ∧ ('/' :: (joinSegs (z :: zs)).data) = [] :=
          List.append_eq_nil.mp hd
        cases this.2
    | cons y ys =>
      have hy : segOK y := h2 y (List.mem_cons_self y ys)
      cases hxs : xs with
      | nil =>
        cases hys : ys with
        | nil =>
          subst hxs hys
          exact congrArg (fun s => [s]) h
        | cons z zs =>
          exfalso
          subst hxs hys
          have hd := congrArg String.data h
          rw [joinSegs_cons_data y (z :: zs) (by intro hc; cases hc)] at hd
          exact hx.2 (hd ▸ List.mem_append_right y.data (List.mem_cons_self '/' _))
      | cons w ws =>
        cases hys : ys with
        | nil =>
          exfalso
          subst hxs hys
          have hd := congrArg String.data h
          rw [joinSegs_cons_data x (w :: ws) (by intro hc; cases hc)] at hd
          exact hy.2 (hd ▸ List.mem_append_right x.data (List.mem_cons_self '/' _))
        | cons z zs =>
          subst hxs hys
          have hd := congrArg String.data h
          rw [joinSegs_cons_data x (w :: ws) (by intro hc; cases hc),
            joinSegs_cons_data y (z :: zs) (by intro hc; cases hc)] at hd
          obtain ⟨hxy, hrest⟩ := slashCancel x.data y.data _ _ hx.2 hy.2 hd
          have hxy' : x = y := String.ext hxy
          have htail : (w :: ws) = (z :: zs) :=
            ih (z :: zs) (fun z' hz => h1 z' (List.mem_cons_of_mem x hz))
              (fun z' hz => h2 z' (List.mem_cons_of_mem y hz))
              (String.ext hrest)
          rw [hxy', htail]

theorem one_lt_length_of_two_mem (l : List String) (a b : String)
    (ha : a ∈ l) (hb : b ∈ l) (hne : a ≠ b) : 1 < l.length := by
  cases l with
  | nil => cases ha
  | cons x l' =>
    cases l' with
    | nil =>
      simp at ha hb
      exact absurd (ha.trans hb.symm) hne
    | cons y l'' =>
      simp [List.length]

/-! ### Lemmas about the children map of the trie -/

theorem kidsSet_keys (ch : List (String × Trie)) (k : String) (c : Trie) :
    (kidsSet ch k c).map Prod.fst
      = if ch.any (fun p => p.1 == k) then ch.map Prod.fst else ch.map Prod.fst ++ [k] := by
  unfold kidsSet
  by_cases h : ch.any (fun p => p.1 == k) = true
  · rw [if_pos h, if_pos h, List.map_map]
    apply List.map_congr_left
    intro p _
    by_cases hp : (p.1 == k) = true
    · show Prod.fst (if (p.1 == k) = true then (k, c) else p) = p.1
      rw [if_pos hp]
      exact (eq_of_beq hp).symm
    · show Prod.fst (if (p.1 == k) = true then (k, c) else p) = p.1
      rw [if_neg hp]
  · rw [if_neg h, if_neg h]
    simp

theorem any_key_false (ch : List (String × Trie)) (s : String)
    (h : ch.any (fun p => p.1 == s) = false) : s ∉ ch.map Prod.fst := by
  intro hm
  obtain ⟨p, hp, hps⟩ := List.mem_map.mp hm
  have : ch.any (fun p => p.1 == s) = true :=
    List.any_eq_true.mpr ⟨p, hp, by simp [hps]⟩
  rw [h] at this
  cases this

theorem mem_kidsSet (ch : List (String × Trie)) (k : String) (c : Trie)
    (q : String × Trie) (h : q ∈ kidsSet ch k c) : q ∈ ch ∨ q = (k, c) := by
  unfold kidsSet at h
  by_cases hany : ch.any (fun p => p.1 == k) = true
  · rw [if_pos hany] at h
    obtain ⟨p, hp, hfp⟩ := List.mem_map.mp h
    by_cases hpk : (p.1 == k) = true
    · right
      rw [if_pos hpk] at hfp
      exact hfp.symm
    · left
      rw [if_neg hpk] at hfp
      exact hfp ▸ hp
  · rw [if_neg hany] at h
    rcases List.mem_append.mp h with h1 | h2
    · exact Or.inl h1
    · right
      simpa using h2

theorem find?_mapRepl_eq (ch : List (String × Trie)) (k : String) (c : Trie)
    (hany : ch.any (fun p => p.1 == k) = true) :
    List.find? (fun p => p.1 == k)
      (ch.map (fun p => if (p.1 == k) = true then (k, c) else p)) = some (k, c) := by
  induction ch with
  | nil => cases hany
  | cons p rest ih =>
    by_cases hp : (p.1 == k) = true
    · show List.find? (fun p => p.1 == k)
        ((if (p.1 == k) = true then (k, c) else p)
          :: rest.map (fun p => if (p.1 == k) = true then (k, c) else p)) = _
      rw [if_pos hp]
      exact @List.find?_cons_of_pos (String × Trie) (fun p => p.1 == k) (k, c)
        (rest.map (fun p => if (p.1 == k) = true then (k, c) else p)) (by simp)
    · show List.find? (fun p => p.1 == k)
        ((if (p.1 == k) = true then (k, c) else p)
          :: rest.map (fun p => if (p.1 == k) = true then (k, c) else p)) = _
      rw [if_neg hp]
      rw [@List.find?_cons_of_neg (String × Trie) (fun p => p.1 == k) p
        (rest.map (fun p => if (p.1 == k) = true then (k, c) else p)) hp]
      apply ih
      have := List.any_eq_true.mp hany
      obtain ⟨x, hx, hxk⟩ := this
      rcases List.mem_cons.mp hx with h1 | h2
      · rw [← h1] at hp; exact absurd hxk hp
      · exact List.any_eq_true.mpr ⟨x, h2, hxk⟩

theorem find?_mapRepl_ne (ch : List (String × Trie)) (k : String) (c : Trie)
    (a : String) (hne : a ≠ k) :
    List.find? (fun p => p.1 == a)
      (ch.map (fun p => if (p.1 == k) = true then (k, c) else p))
      = List.find? (fun p => p.1 == a) ch := by
  induction ch with
  | nil => rfl
  | cons p rest ih =>
    by_cases hp : (p.1 == k) = true
    · show List.find? (fun p => p.1 == a)
        ((if (p.1 == k) = true then (k, c) else p)
          :: rest.map (fun p => if (p.1 == k) = true then (k, c) else p)) = _
      rw [if_pos hp]
      have h1 : ¬ (((k, c).1 == a) = true) := fun hc => hne (eq_of_beq hc).symm
      have h2 : ¬ ((p.1 == a) = true) :=
        fun hc => hne ((eq_of_beq hc).symm.trans (eq_of_beq hp))
      rw [@List.find?_cons_of_neg (String × Trie) (fun p => p.1 == a) (k, c)
          (rest.map (fun p => if (p.1 == k) = true then (k, c) else p)) h1,
        @List.find?_cons_of_neg (String × Trie) (fun p => p.1 == a) p rest h2, ih]
    · show List.find? (fun p => p.1 == a)
        ((if (p.1 == k) = true then (k, c) else p)
          :: rest.map (fun p => if (p.1 == k) = true then (k, c) else p)) = _
      rw [if_neg hp]
      by_cases hpa : (p.1 == a) = true
      · rw [@List.find?_cons_of_pos (String × Trie) (fun p => p.1 == a) p
            (rest.map (fun p => if (p.1 == k) = true then (k, c) else p)) hpa,
          @List.find?_cons_of_pos (String × Trie) (fun p => p.1 == a) p rest hpa]
      · rw [@List.find?_cons_of_neg (String × Trie) (fun p => p.1 == a) p
            (rest.map (fun p => if (p.1 == k) = true then (k, c) else p)) hpa,
          @List.find?_cons_of_neg (String × Trie) (fun p => p.1 == a) p rest hpa, ih]

theorem find?_kidsSet (ch : List (String × Trie)) (k : String) (c : Trie) (a : String) :
    List.find? (fun p => p.1 == a) (kidsSet ch k c)
      = if a = k then some (k, c) else List.find? (fun p => p.1 == a) ch := by
  unfold kidsSet
  by_cases hany : ch.any (fun p => p.1 == k) = true
  · rw [if_pos hany]
    by_cases hak : a = k
    · subst hak
      rw [if_pos rfl]
      exact find?_mapRepl_eq ch a c hany
    · rw [if_neg hak]
      exact find?_mapRepl_ne ch k c a hak
  · rw [if_neg hany, List.find?_append]
    by_cases hak : a = k
    · subst hak
      rw [if_pos rfl]
      have hnone : List.find? (fun p => p.1 == a) ch = none := by
        apply List.find?_eq_none.mpr
        intro x hx hpx
        have : ch.any (fun p => p.1 == a) = true := List.any_eq_true.mpr ⟨x, hx, hpx⟩
        rw [this] at hany
        exact hany rfl
      rw [hnone]
      show (Option.none).or (List.find? (fun p => p.1 == a) [(a, c)]) = some (a, c)
      rw [@List.find?_cons_of_pos (String × Trie) (fun p => p.1 == a) (a, c) [] (by simp)]
      rfl
    · rw [if_neg hak]
      have hnone : List.find? (fun p => p.1 == a) [(k, c)] = none := by
        apply List.find?_eq_none.mpr
        intro x hx hpx
        simp at hx
        rw [hx] at hpx
        exact hak (eq_of_beq hpx).symm
      rw [hnone]
      cases List.find? (fun p => p.1 == a) ch <;> rfl

theorem keys_unique (ch : List (String × Trie)) (hnd : (ch.map Prod.fst).Nodup)
    (s : String) (c c' : Trie) (h : (s, c) ∈ ch) (h' : (s, c') ∈ ch) : c = c' := by
  induction ch with
  | nil => cases h
  | cons p rest ih =>
    have hnd' : (rest.map Prod.fst).Nodup := (List.nodup_cons.mp hnd).2
    have hni : p.1 ∉ rest.map Prod.fst := (List.nodup_cons.mp hnd).1
    rcases List.mem_cons.mp h with h1 | h2
    · rcases List.mem_cons.mp h' with h1' | h2'
      · rw [← h1] at h1'
        exact (Prod.mk.injEq _ _ _ _ ▸ h1').2.symm ▸ rfl
      · exfalso
        apply hni
        rw [← h1]
        exact List.mem_map.mpr ⟨(s, c'), h2', rfl⟩
    · rcases List.mem_cons.mp h' with h1' | h2'
      · exfalso
        apply hni
        rw [← h1']
        exact List.mem_map.mpr ⟨(s, c), h2, rfl⟩
      · exact ih hnd' h2 h2'

/-! ### Preservation of trie well-formedness under insertion -/

theorem trieInsert_ok : ∀ (segs : List String) (t : Trie), TrieOK t →
    (∀ z ∈ segs, segOK z) → TrieOK (trieInsert segs t) := by
  intro segs
  induction segs with
  | nil =>
    intro t ht _
    obtain ⟨t, hseg, hch, hnodup⟩ := ht
    exact TrieOK.intro _ hseg hch hnodup
  | cons s rest ih =>
    intro t ht hsegs
    obtain ⟨t, hseg, hch, hnodup⟩ := ht
    have hs : segOK s := hsegs s (List.mem_cons_self s rest)
    have hrest : ∀ z ∈ rest, segOK z := fun z hz => hsegs z (List.mem_cons_of_mem s hz)
    have hchild : TrieOK (((t.kids.find? (fun p => p.1 == s)).map (fun p => p.2)).getD
        (.mk false [])) := by
      cases hf : t.kids.find? (fun p => p.1 == s) with
      | none =>
        show TrieOK (.mk false [])
        exact TrieOK.intro _ (by intro p hp; cases hp) (by intro p hp; cases hp)
          (by exact List.nodup_nil)
      | some p =>
        show TrieOK p.2
        exact hch p (List.mem_of_find?_eq_some hf)
    have hnew : TrieOK (trieInsert rest (((t.kids.find? (fun p => p.1 == s)).map
        (fun p => p.2)).getD (.mk false []))) := ih _ hchild hrest
    show TrieOK (.mk t.term (kidsSet t.kids s _))
    apply TrieOK.intro
    · intro p hp
      rcases mem_kidsSet _ _ _ p hp with h1 | h2
      · exact hseg p h1
      · rw [h2]; exact hs
    · intro p hp
      rcases mem_kidsSet _ _ _ p hp with h1 | h2
      · exact hch p h1
      · rw [h2]; exact hnew
    · show ((kidsSet t.kids s _).map Prod.fst).Nodup
      rw [kidsSet_keys]
      by_cases hany : t.kids.any (fun p => p.1 == s) = true
      · rw [if_pos hany]; exact hnodup
      · rw [if_neg hany]
        have habs : s ∉ t.kids.map Prod.fst :=
          any_key_false t.kids s (Bool.not_eq_true _ ▸ hany)
        exact List.nodup_append.mpr ⟨hnodup, List.nodup_singleton s,
          by simpa using fun hx => habs hx⟩

theorem buildTrie_ok (dirs : List String) : TrieOK (buildTrie dirs) := by
  have key : ∀ (ds : List String) (t : Trie), TrieOK t →
      TrieOK (ds.foldl (fun t d => t.insert (segsOf d)) t) := by
    intro ds
    induction ds with
    | nil => intro t ht; exact ht
    | cons d ds ih =>
      intro t ht
      exact ih _ (trieInsert_ok (segsOf d) t ht (segOK_of_mem_segsOf d))
  exact key dirs _ (TrieOK.intro _ (by intro p hp; cases hp) (by intro p hp; cases hp)
    (by exact List.nodup_nil))

theorem subAt_ok : ∀ (q : List String) (t : Trie), TrieOK t →
    ∀ t', subAt t q = some t' → TrieOK t' := by
  intro q
  induction q with
  | nil =>
    intro t ht t' h
    cases h
    exact ht
  | cons s q' ih =>
    intro t ht t' h
    obtain ⟨t, hseg, hch, hnodup⟩ := ht
    unfold subAt at h
    cases hf : Trie.kids t |>.find? (fun p => p.1 == s) with
    | none => rw [hf] at h; cases h
    | some p =>
      rw [hf] at h
      exact ih p.2 (hch p (List.mem_of_find?_eq_some hf)) t' h

theorem goodT_iff (t : Trie) (ht : TrieOK t) :
    goodT t = true ↔ t.term = true ∨
      ∃ a b, a ≠ b ∧ t.kids.any (fun p => p.1 == a) = true
        ∧ t.kids.any (fun p => p.1 == b) = true := by
  obtain ⟨t, hseg, hch, hnodup⟩ := ht
  unfold goodT
  rw [Bool.or_eq_true, decide_eq_true_iff]
  constructor
  · rintro (hlen | hterm)
    · right
      cases hk : t.kids with
      | nil => rw [hk] at hlen; simp at hlen
      | cons p1 rest =>
        cases hr : rest with
        | nil => rw [hk, hr] at hlen; simp at hlen
        | cons p2 rest2 =>
          refine ⟨p1.1, p2.1, ?_, ?_, ?_⟩
          · rw [hk, hr] at hnodup
            have := List.nodup_cons.mp hnodup
            intro hc
            exact this.1 (hc ▸ List.mem_cons_self p2.1 _)
          · exact List.any_eq_true.mpr ⟨p1, List.mem_cons_self _ _, by simp⟩
          · exact List.any_eq_true.mpr
              ⟨p2, List.mem_cons_of_mem _ (List.mem_cons_self _ _), by simp⟩
    · exact Or.inl hterm
  · rintro (hterm | ⟨a, b, hab, ha, hb⟩)
    · exact Or.inr hterm
    · left
      obtain ⟨pa, hpa, hpa2⟩ := List.any_eq_true.mp ha
      obtain ⟨pb, hpb, hpb2⟩ := List.any_eq_true.mp hb
      have h1 : a ∈ t.kids.map Prod.fst := List.mem_map.mpr ⟨pa, hpa, eq_of_beq hpa2⟩
      have h2 : b ∈ t.kids.map Prod.fst := List.mem_map.mpr ⟨pb, hpb, eq_of_beq hpb2⟩
      have := one_lt_length_of_two_mem _ a b h1 h2 hab
      rwa [List.length_map] at this

theorem goodAtB_iff (t : Trie) (q : List String) (ht : TrieOK t) :
    goodAtB t q = true ↔ termAtB t q = true ∨
      ∃ a b, a ≠ b ∧ edgeAtB t q a = true ∧ edgeAtB t q b = true := by
  unfold goodAtB termAtB edgeAtB
  cases hs : subAt t q with
  | none =>
    constructor
    · intro h; cases h
    · rintro (h | ⟨a, b, _, ha, _⟩)
      · cases h
      · cases ha
  | some t' => exact goodT_iff t' (subAt_ok q t ht t' hs)

/-! ### Effect of one insertion on the trie path predicates -/

theorem termAtB_fresh (q : List String) : termAtB (.mk false []) q = false := by
  cases q <;> rfl

theorem edgeAtB_fresh (q : List String) (a : String) : edgeAtB (.mk false []) q a = false := by
  cases q <;> rfl

theorem any_eq_find?_isSome (l : List (String × Trie)) (a : String) :
    l.any (fun p => p.1 == a) = (l.find? (fun p => p.1 == a)).isSome := by
  induction l with
  | nil => rfl
  | cons p rest ih =>
    by_cases hp : (p.1 == a) = true
    · rw [List.any_cons, hp,
        @List.find?_cons_of_pos (String × Trie) (fun p => p.1 == a) p rest hp]
      rfl
    · rw [List.any_cons, (Bool.not_eq_true _).mp hp,
        @List.find?_cons_of_neg (String × Trie) (fun p => p.1 == a) p rest hp, ih]
      rfl

theorem any_kidsSet (ch : List (String × Trie)) (k : String) (c : Trie) (a : String) :
    (kidsSet ch k c).any (fun p => p.1 == a)
      = (ch.any (fun p => p.1 == a) || (k == a)) := by
  rw [any_eq_find?_isSome, any_eq_find?_isSome, find?_kidsSet]
  by_cases hak : a = k
  · subst hak
    rw [if_pos rfl, beq_iff_eq.mpr rfl]
    simp
  · rw [if_neg hak, beq_eq_false_iff_ne.mpr (fun h => hak h.symm)]
    simp

theorem termAtB_cons_some (t : Trie) (a : String) (q' : List String) (p : String × Trie)
    (hf : t.kids.find? (fun x => x.1 == a) = some p) :
    termAtB t (a :: q') = termAtB p.2 q' := by
  have hs : subAt t (a :: q') = subAt p.2 q' := by
    simp only [subAt]
    rw [hf]
  unfold termAtB
  rw [hs]

theorem termAtB_cons_none (t : Trie) (a : String) (q' : List String)
    (hf : t.kids.find? (fun x => x.1 == a) = none) :
    termAtB t (a :: q') = false := by
  have hs : subAt t (a :: q') = none := by
    simp only [subAt]
    rw [hf]
  unfold termAtB
  rw [hs]

theorem edgeAtB_cons_some (t : Trie) (a : String) (q' : List String) (b : String)
    (p : String × Trie) (hf : t.kids.find? (fun x => x.1 == a) = some p) :
    edgeAtB t (a :: q') b = edgeAtB p.2 q' b := by
  have hs : subAt t (a :: q') = subAt p.2 q' := by
    simp only [subAt]
    rw [hf]
  unfold edgeAtB
  rw [hs]

theorem edgeAtB_cons_none (t : Trie) (a : String) (q' : List String) (b : String)
    (hf : t.kids.find? (fun x => x.1 == a) = none) :
    edgeAtB t (a :: q') b = false := by
  have hs : subAt t (a :: q') = none := by
    simp only [subAt]
    rw [hf]
  unfold edgeAtB
  rw [hs]

theorem termAtB_insert : ∀ (segs : List String) (t : Trie) (q : List String),
    termAtB (trieInsert segs t) q = (termAtB t q || decide (q = segs)) := by
  intro segs
  induction segs with
  | nil =>
    intro t q
    cases q with
    | nil =>
      show Trie.term (.mk true t.kids) = (Trie.term t || decide (([] : List String) = []))
      simp [Trie.term]
    | cons s q' =>
      show termAtB t (s :: q') = (termAtB t (s :: q') || decide (s :: q' = ([] : List String)))
      simp
  | cons s rest ih =>
    intro t q
    cases q with
    | nil =>
      show t.term = (t.term || decide (([] : List String) = s :: rest))
      simp
    | cons a q' =>
      by_cases has : a = s
      · subst has
        have hd : decide (a :: q' = a :: rest) = decide (q' = rest) :=
          decide_eq_decide.mpr (by simp)
        cases hf : t.kids.find? (fun p => p.1 == a) with
        | some p =>
          have hins : trieInsert (a :: rest) t
              = .mk t.term (kidsSet t.kids a (trieInsert rest p.2)) := by
            simp only [trieInsert]
            rw [hf]
            rfl
          have hf2 : (Trie.kids (.mk t.term (kidsSet t.kids a
              (trieInsert rest p.2)))).find? (fun x => x.1 == a)
              = some (a, trieInsert rest p.2) := by
            show (kidsSet t.kids a (trieInsert rest p.2)).find? (fun x => x.1 == a) = _
            rw [find?_kidsSet, if_pos rfl]
          rw [hins, termAtB_cons_some _ a q' _ hf2, termAtB_cons_some t a q' p hf]
          show termAtB (trieInsert rest p.2) q' = _
          rw [ih p.2 q', hd]
        | none =>
          have hins : trieInsert (a :: rest) t
              = .mk t.term (kidsSet t.kids a (trieInsert rest (.mk false []))) := by
            simp only [trieInsert]
            rw [hf]
            rfl
          have hf2 : (Trie.kids (.mk t.term (kidsSet t.kids a
              (trieInsert rest (.mk false []))))).find? (fun x => x.1 == a)
              = some (a, trieInsert rest (.mk false [])) := by
            show (kidsSet t.kids a (trieInsert rest (.mk false []))).find? (fun x => x.1 == a)
              = _
            rw [find?_kidsSet, if_pos rfl]
          rw [hins, termAtB_cons_some _ a q' _ hf2, termAtB_cons_none t a q' hf]
          show termAtB (trieInsert rest (.mk false [])) q' = _
          rw [ih (.mk false []) q', termAtB_fresh, hd]
      · have hd : decide (a :: q' = s :: rest) = false := by simp [has]
        have hfk : ∀ (c : Trie), (Trie.kids (.mk t.term (kidsSet t.kids s c))).find?
            (fun x => x.1 == a) = t.kids.find? (fun x => x.1 == a) := by
          intro c
          show (kidsSet t.kids s c).find? (fun x => x.1 == a) = _
          rw [find?_kidsSet, if_neg has]
        have hins : trieInsert (s :: rest) t
            = .mk t.term (kidsSet t.kids s (trieInsert rest
              (((t.kids.find? (fun p => p.1 == s)).map (fun p => p.2)).getD
                (.mk false [])))) := by
          simp only [trieInsert]
        cases hg : t.kids.find? (fun x => x.1 == a) with
        | some p =>
          rw [hins, termAtB_cons_some _ a q' p (by rw [hfk]; exact hg),
            termAtB_cons_some t a q' p hg, hd]
          simp
        | none =>
          rw [hins, termAtB_cons_none _ a q' (by rw [hfk]; exact hg),
            termAtB_cons_none t a q' hg, hd]
          simp

theorem edgeAtB_insert : ∀ (segs : List String) (t : Trie) (q : List String) (b : String),
    edgeAtB (trieInsert segs t) q b = (edgeAtB t q b || decide (q ++ [b] <+: segs)) := by
  intro segs
  induction segs with
  | nil =>
    intro t q b
    cases q with
    | nil =>
      show t.kids.any (fun p => p.1 == b)
        = (t.kids.any (fun p => p.1 == b) || decide (([] : List String) ++ [b] <+: []))
      simp
    | cons s q' =>
      show edgeAtB t (s :: q') b
        = (edgeAtB t (s :: q') b || decide ((s :: q') ++ [b] <+: ([] : List String)))
      simp
  | cons s rest ih =>
    intro t q b
    cases q with
    | nil =>
      show (kidsSet t.kids s (trieInsert rest (((t.kids.find? (fun p => p.1 == s)).map
          (fun p => p.2)).getD (.mk false [])))).any (fun p => p.1 == b)
        = (t.kids.any (fun p => p.1 == b) || decide (([] : List String) ++ [b] <+: s :: rest))
      rw [any_kidsSet]
      by_cases hbs : b = s
      · subst hbs
        have h1 : (([] : List String) ++ [b] <+: b :: rest) := by
          simp [List.cons_prefix_cons]
        rw [decide_eq_true h1, beq_self_eq_true]
      · have h1 : ¬ (([] : List String) ++ [b] <+: s :: rest) := by
          simp [List.cons_prefix_cons]
          intro hc
          exact absurd hc.symm (fun h => hbs h.symm)
        rw [decide_eq_false h1, beq_eq_false_iff_ne.mpr (fun h => hbs h.symm)]
    | cons a q' =>
      by_cases has : a = s
      · subst has
        have hd : decide ((a :: q') ++ [b] <+: a :: rest) = decide (q' ++ [b] <+: rest) :=
          decide_eq_decide.mpr (by simp [List.cons_prefix_cons])
        cases hf : t.kids.find? (fun p => p.1 == a) with
        | some p =>
          have hins : trieInsert (a :: rest) t
              = .mk t.term (kidsSet t.kids a (trieInsert rest p.2)) := by
            simp only [trieInsert]
            rw [hf]
            rfl
          have hf2 : (Trie.kids (.mk t.term (kidsSet t.kids a
              (trieInsert rest p.2)))).find? (fun x => x.1 == a)
              = some (a, trieInsert rest p.2) := by
            show (kidsSet t.kids a (trieInsert rest p.2)).find? (fun x => x.1 == a) = _
            rw [find?_kidsSet, if_pos rfl]
          rw [hins, edgeAtB_cons_some _ a q' b _ hf2, edgeAtB_cons_some t a q' b p hf]
          show edgeAtB (trieInsert rest p.2) q' b = _
          rw [ih p.2 q' b, hd]
        | none =>
          have hins : trieInsert (a :: rest) t
              = .mk t.term (kidsSet t.kids a (trieInsert rest (.mk false []))) := by
            simp only [trieInsert]
            rw [hf]
            rfl
          have hf2 : (Trie.kids (.mk t.term (kidsSet t.kids a
              (trieInsert rest (.mk false []))))).find? (fun x => x.1 == a)
              = some (a, trieInsert rest (.mk false [])) := by
            show (kidsSet t.kids a (trieInsert rest (.mk false []))).find? (fun x => x.1 == a)
              = _
            rw [find?_kidsSet, if_pos rfl]
          rw [hins, edgeAtB_cons_some _ a q' b _ hf2, edgeAtB_cons_none t a q' b hf]
          show edgeAtB (trieInsert rest (.mk false [])) q' b = _
          rw [ih (.mk false []) q' b, edgeAtB_fresh, hd]
      · have hd : decide ((a :: q') ++ [b] <+: s :: rest) = false := by
          simp [List.cons_prefix_cons, has]
        have hfk : ∀ (c : Trie), (Trie.kids (.mk t.term (kidsSet t.kids s c))).find?
            (fun x => x.1 == a) = t.kids.find? (fun x => x.1 == a) := by
          intro c
          show (kidsSet t.kids s c).find? (fun x => x.1 == a) = _
          rw [find?_kidsSet, if_neg has]
        have hins : trieInsert (s :: rest) t
            = .mk t.term (kidsSet t.kids s (trieInsert rest
              (((t.kids.find? (fun p => p.1 == s)).map (fun p => p.2)).getD
                (.mk false [])))) := by
          simp only [trieInsert]
        cases hg : t.kids.find? (fun x => x.1 == a) with
        | some p =>
          rw [hins, edgeAtB_cons_some _ a q' b p (by rw [hfk]; exact hg),
            edgeAtB_cons_some t a q' b p hg, hd]
          simp
        | none =>
          rw [hins, edgeAtB_cons_none _ a q' b (by rw [hfk]; exact hg),
            edgeAtB_cons_none t a q' b hg, hd]
          simp

/-! ### The post-order walk emits the minimal good paths -/

theorem isEmpty_false_of_ne (p : List String) (hp : p ≠ []) : p.isEmpty = false := by
  cases p with
  | nil => exact absurd rfl hp
  | cons a q => rfl

theorem cons_ne_nil_str (s : String) (u : List String) : s :: u ≠ [] := by
  intro hc; cases hc

theorem append_singleton_ne_nil (p : List String) (s : String) : p ++ [s] ≠ [] := by
  simp

theorem minimalGood_shape : ∀ (n : Nat),
    (∀ (t : Trie), trieSize t ≤ n → TrieOK t → ∀ (p : List String), p ≠ [] →
      ∀ x ∈ minimalGood t p, ∃ u, (∀ z ∈ u, segOK z) ∧ x = joinSegs (p ++ u)) ∧
    (∀ (ch : List (String × Trie)), trieSizeKids ch ≤ n →
      (∀ pr ∈ ch, segOK pr.1) → (∀ pr ∈ ch, TrieOK pr.2) →
      ∀ (p : List String), ∀ x ∈ minimalGoodKids ch p,
        ∃ s c u, (s, c) ∈ ch ∧ segOK s ∧ (∀ z ∈ u, segOK z)
          ∧ x = joinSegs (p ++ s :: u)) := by
  intro n
  induction n with
  | zero =>
    constructor
    · intro t hsz
      exfalso
      cases t with
      | mk term ch =>
        have : trieSize (.mk term ch) = trieSizeKids ch + 1 := rfl
        omega
    · intro ch hsz _ _ p x hx
      cases ch with
      | nil => cases hx
      | cons pr rest =>
        exfalso
        have : trieSizeKids (pr :: rest) = trieSize pr.2 + trieSizeKids rest + 1 := rfl
        have h1 : 1 ≤ trieSize pr.2 := by
          cases pr.2 with
          | mk term ch2 =>
            have : trieSize (.mk term ch2) = trieSizeKids ch2 + 1 := rfl
            omega
        omega
  | succ n ihn =>
    constructor
    · intro t hsz ht p hp x hx
      cases t with
      | mk term ch =>
        obtain ⟨_, hseg, hch, hnd⟩ := ht
        have hszk : trieSizeKids ch ≤ n := by
          have : trieSize (.mk term ch) = trieSizeKids ch + 1 := rfl
          omega
        rw [show minimalGood (.mk term ch) p
            = if p.isEmpty then minimalGoodKids ch p
              else if goodT (.mk term ch) then [joinSegs p] else minimalGoodKids ch p
          from by simp only [minimalGood], isEmpty_false_of_ne p hp] at hx
        simp only [Bool.false_eq_true, if_false] at hx
        by_cases hg : goodT (.mk term ch) = true
        · rw [if_pos hg] at hx
          simp only [List.mem_singleton] at hx
          refine ⟨[], ⟨fun z hz => absurd hz (List.not_mem_nil z), ?_⟩⟩
          rw [List.append_nil]
          exact hx
        · rw [if_neg hg] at hx
          obtain ⟨s, c, u, _, hs, hu, hxe⟩ := ihn.2 ch hszk hseg hch p x hx
          refine ⟨s :: u, ?_, hxe⟩
          intro z hz
          rcases List.mem_cons.mp hz with h1 | h2
          · exact h1 ▸ hs
          · exact hu z h2
    · intro ch hsz hseg hch p x hx
      cases ch with
      | nil => cases hx
      | cons pr rest =>
        have hstep : minimalGoodKids (pr :: rest) p
            = minimalGood pr.2 (p ++ [pr.1]) ++ minimalGoodKids rest p := by
          cases pr
          simp only [minimalGoodKids]
        rw [hstep] at hx
        have hszc : trieSize pr.2 ≤ n := by
          have : trieSizeKids (pr :: rest) = trieSize pr.2 + trieSizeKids rest + 1 := rfl
          omega
        have hszr : trieSizeKids rest ≤ n := by
          have : trieSizeKids (pr :: rest) = trieSize pr.2 + trieSizeKids rest + 1 := rfl
          omega
        rcases List.mem_append.mp hx with h1 | h2
        · obtain ⟨u, hu, hxe⟩ := ihn.1 pr.2 hszc (hch pr (List.mem_cons_self pr rest))
            (p ++ [pr.1]) (append_singleton_ne_nil p pr.1) x h1
          refine ⟨pr.1, pr.2, u, by
              have : (pr.1, pr.2) = pr := rfl
              rw [this]
              exact List.mem_cons_self pr rest,
            hseg pr (List.mem_cons_self pr rest), hu, ?_⟩
          rw [hxe, List.append_assoc]
          rfl
        · obtain ⟨s, c, u, hm, hs, hu, hxe⟩ := ihn.2 rest hszr
            (fun q hq => hseg q (List.mem_cons_of_mem pr hq))
            (fun q hq => hch q (List.mem_cons_of_mem pr hq)) p x h2
          exact ⟨s, c, u, List.mem_cons_of_mem pr hm, hs, hu, hxe⟩

theorem postOrder_spec : ∀ (n : Nat),
    (∀ (t : Trie), trieSize t ≤ n → TrieOK t → ∀ (p res : List String), p ≠ [] →
      (∀ x ∈ res, strStarts (joinSegs p ++ "/") x = false) →
      postOrderNode t p res = res ++ minimalGood t p) ∧
    (∀ (ch : List (String × Trie)), trieSizeKids ch ≤ n →
      (∀ pr ∈ ch, segOK pr.1) → (∀ pr ∈ ch, TrieOK pr.2) → (ch.map Prod.fst).Nodup →
      ∀ (p res : List String),
      (∀ x ∈ res, ∀ pr ∈ ch, strStarts (joinSegs (p ++ [pr.1]) ++ "/") x = false) →
      postOrderKids ch p res = res ++ minimalGoodKids ch p) := by
  intro n
  induction n with
  | zero =>
    constructor
    · intro t hsz
      exfalso
      cases t with
      | mk term ch =>
        have : trieSize (.mk term ch) = trieSizeKids ch + 1 := rfl
        omega
    · intro ch hsz _ _ _ p res _
      cases ch with
      | nil =>
        show res = res ++ minimalGoodKids [] p
        rw [show minimalGoodKids [] p = [] from rfl, List.append_nil]
      | cons pr rest =>
        exfalso
        have : trieSizeKids (pr :: rest) = trieSize pr.2 + trieSizeKids rest + 1 := rfl
        have h1 : 1 ≤ trieSize pr.2 := by
          cases pr.2 with
          | mk term ch2 =>
            have : trieSize (.mk term ch2) = trieSizeKids ch2 + 1 := rfl
            omega
        omega
  | succ n ihn =>
    constructor
    · intro t hsz ht p res hp hres
      cases t with
      | mk term ch =>
        obtain ⟨_, hseg, hch, hnd⟩ := ht
        have hszk : trieSizeKids ch ≤ n := by
          have : trieSize (.mk term ch) = trieSizeKids ch + 1 := rfl
          omega
        have hres2 : ∀ x ∈ res, ∀ pr ∈ ch,
            strStarts (joinSegs (p ++ [pr.1]) ++ "/") x = false := by
          intro x hx pr _
          have hsplit : joinSegs (p ++ [pr.1]) ++ "/"
              = (joinSegs p ++ "/") ++ (joinSegs [pr.1] ++ "/") := by
            rw [joinSegs_append p [pr.1] hp (cons_ne_nil_str pr.1 []),
              String.append_assoc (joinSegs p ++ "/") (joinSegs [pr.1]) "/"]
          rw [hsplit]
          exact strStarts_false_of_append (joinSegs p ++ "/") (joinSegs [pr.1] ++ "/") x
            (hres x hx)
        have hkids : postOrderKids ch p res = res ++ minimalGoodKids ch p :=
          ihn.2 ch hszk hseg hch hnd p res hres2
        have hnode : postOrderNode (.mk term ch) p res
            = if p.isEmpty then postOrderKids ch p res
              else if decide (1 < ch.length) || term then
                ((postOrderKids ch p res).filter
                  (fun x => !(strStarts (joinSegs p ++ "/") x))) ++ [joinSegs p]
              else postOrderKids ch p res := by
          simp only [postOrderNode]
        have hmg : minimalGood (.mk term ch) p
            = if p.isEmpty then minimalGoodKids ch p
              else if goodT (.mk term ch) then [joinSegs p] else minimalGoodKids ch p := by
          simp only [minimalGood]
        rw [hnode, hmg, isEmpty_false_of_ne p hp]
        simp only [Bool.false_eq_true, if_false]
        have hgood : goodT (.mk term ch) = (decide (1 < ch.length) || term) := rfl
        by_cases hg : (decide (1 < ch.length) || term) = true
        · rw [if_pos hg, if_pos (hgood ▸ hg), hkids, List.filter_append]
          have hres_keep : res.filter (fun x => !(strStarts (joinSegs p ++ "/") x)) = res :=
            List.filter_eq_self.mpr (fun x hx => by rw [hres x hx]; rfl)
          have hmg_drop : (minimalGoodKids ch p).filter
              (fun x => !(strStarts (joinSegs p ++ "/") x)) = [] := by
            apply List.filter_eq_nil_iff.mpr
            intro x hx
            obtain ⟨s, c, u, _, _, _, hxe⟩ :=
              (minimalGood_shape n).2 ch hszk hseg hch p x hx
            rw [hxe, joinSegs_append p (s :: u) hp (cons_ne_nil_str s u),
              strStarts_self_append (joinSegs p ++ "/") (joinSegs (s :: u))]
            simp
          rw [hres_keep, hmg_drop, List.append_nil]
        · rw [if_neg hg, if_neg (fun hc => hg (hgood ▸ hc)), hkids]
    · intro ch hsz hseg hch hnd p res hres
      cases ch with
      | nil =>
        show res = res ++ minimalGoodKids [] p
        rw [show minimalGoodKids [] p = [] from rfl, List.append_nil]
      | cons pr rest =>
        obtain ⟨s, c⟩ := pr
        have hszc : trieSize c ≤ n := by
          have : trieSizeKids ((s, c) :: rest) = trieSize c + trieSizeKids rest + 1 := rfl
          omega
        have hszr : trieSizeKids rest ≤ n := by
          have : trieSizeKids ((s, c) :: rest) = trieSize c + trieSizeKids rest + 1 := rfl
          omega
        have hs : segOK s := hseg (s, c) (List.mem_cons_self _ _)
        have hstep : postOrderKids ((s, c) :: rest) p res
            = postOrderKids rest p (postOrderNode c (p ++ [s]) res) := by
          simp only [postOrderKids]
        have hnode : postOrderNode c (p ++ [s]) res = res ++ minimalGood c (p ++ [s]) :=
          ihn.1 c hszc (hch (s, c) (List.mem_cons_self _ _)) (p ++ [s]) res
            (append_singleton_ne_nil p s)
            (fun x hx => hres x hx (s, c) (List.mem_cons_self _ _))
        have hrest : postOrderKids rest p (res ++ minimalGood c (p ++ [s]))
            = (res ++ minimalGood c (p ++ [s])) ++ minimalGoodKids rest p := by
          apply ihn.2 rest hszr (fun q hq => hseg q (List.mem_cons_of_mem _ hq))
            (fun q hq => hch q (List.mem_cons_of_mem _ hq))
            (List.nodup_cons.mp hnd).2 p
          intro x hx pr hpr
          rcases List.mem_append.mp hx with h1 | h2
          · exact hres x h1 pr (List.mem_cons_of_mem _ hpr)
          · obtain ⟨u, hu, hxe⟩ := (minimalGood_shape n).1 c hszc
              (hch (s, c) (List.mem_cons_self _ _)) (p ++ [s])
              (append_singleton_ne_nil p s) x h2
            have hxe2 : x = joinSegs (p ++ s :: u) := by
              rw [hxe, List.append_assoc]
              rfl
            have hne : s ≠ pr.1 := by
              intro hc
              have h3 := (List.nodup_cons.mp hnd).1
              exact h3 (hc ▸ List.mem_map.mpr ⟨pr, hpr, rfl⟩)
            rw [hxe2]
            exact strStarts_sibling_false p s pr.1 u hne hs
              (hseg pr (List.mem_cons_of_mem _ hpr))
        have hmgk : minimalGoodKids ((s, c) :: rest) p
            = minimalGood c (p ++ [s]) ++ minimalGoodKids rest p := by
          simp only [minimalGoodKids]
        rw [hstep, hnode, hrest, hmgk, List.append_assoc]

theorem postOrderNode_root (t : Trie) (ht : TrieOK t) :
    postOrderNode t [] [] = minimalGood t [] := by
  cases t with
  | mk term ch =>
    obtain ⟨_, hseg, hch, hnd⟩ := ht
    have hnode : postOrderNode (.mk term ch) [] []
        = if ([] : List String).isEmpty then postOrderKids ch [] []
          else if decide (1 < ch.length) || term then
            ((postOrderKids ch [] []).filter
              (fun x => !(strStarts (joinSegs [] ++ "/") x))) ++ [joinSegs []]
          else postOrderKids ch [] [] := by
      simp only [postOrderNode]
    have hmg : minimalGood (.mk term ch) []
        = if ([] : List String).isEmpty then minimalGoodKids ch []
          else if goodT (.mk term ch) then [joinSegs []] else minimalGoodKids ch [] := by
      simp only [minimalGood]
    rw [hnode, hmg]
    simp only [List.isEmpty_nil, if_true]
    have := (postOrder_spec (trieSizeKids ch)).2 ch le_rfl hseg hch hnd [] []
      (fun x hx => absurd hx (List.not_mem_nil x))
    rw [this, List.nil_append]

/-! ### Membership characterisation of the emitted LCA paths -/

theorem goodAtB_nil (t : Trie) : goodAtB t [] = goodT t := rfl

theorem goodAtB_cons_some (t : Trie) (a : String) (q' : List String) (pr : String × Trie)
    (hf : t.kids.find? (fun x => x.1 == a) = some pr) :
    goodAtB t (a :: q') = goodAtB pr.2 q' := by
  have hs : subAt t (a :: q') = subAt pr.2 q' := by
    simp only [subAt]
    rw [hf]
  unfold goodAtB
  rw [hs]

theorem goodAtB_cons_none (t : Trie) (a : String) (q' : List String)
    (hf : t.kids.find? (fun x => x.1 == a) = none) :
    goodAtB t (a :: q') = false := by
  have hs : subAt t (a :: q') = none := by
    simp only [subAt]
    rw [hf]
  unfold goodAtB
  rw [hs]

theorem find?_eq_of_mem_nodup (ch : List (String × Trie))
    (hnd : (ch.map Prod.fst).Nodup) (s : String) (c : Trie) (hm : (s, c) ∈ ch) :
    ch.find? (fun p => p.1 == s) = some (s, c) := by
  induction ch with
  | nil => cases hm
  | cons p rest ih =>
    rcases List.mem_cons.mp hm with h1 | h2
    · rw [← h1]
      exact @List.find?_cons_of_pos (String × Trie) (fun p => p.1 == s) (s, c) rest (by simp)
    · have hkey : p.1 ≠ s := by
        intro hc
        exact (List.nodup_cons.mp hnd).1 (hc ▸ List.mem_map.mpr ⟨(s, c), h2, rfl⟩)
      rw [@List.find?_cons_of_neg (String × Trie) (fun p => p.1 == s) p rest
        (by simpa using hkey)]
      exact ih (List.nodup_cons.mp hnd).2 h2

theorem mem_MG : ∀ (n : Nat),
    (∀ (t : Trie), trieSize t ≤ n → TrieOK t → ∀ (p : List String), p ≠ [] → ∀ x,
      (x ∈ minimalGood t p ↔ ∃ u, x = joinSegs (p ++ u) ∧ goodAtB t u = true ∧
        (∀ u', u' <+: u → u' ≠ u → goodAtB t u' = false))) ∧
    (∀ (ch : List (String × Trie)), trieSizeKids ch ≤ n →
      (∀ pr ∈ ch, segOK pr.1) → (∀ pr ∈ ch, TrieOK pr.2) → (ch.map Prod.fst).Nodup →
      ∀ (p : List String) (x : String),
      (x ∈ minimalGoodKids ch p ↔ ∃ s c u, (s, c) ∈ ch ∧ x = joinSegs (p ++ s :: u) ∧
        goodAtB c u = true ∧ (∀ u', u' <+: u → u' ≠ u → goodAtB c u' = false))) := by
  intro n
  induction n with
  | zero =>
    constructor
    · intro t hsz
      exfalso
      cases t with
      | mk term ch =>
        have : trieSize (.mk term ch) = trieSizeKids ch + 1 := rfl
        omega
    · intro ch hsz _ _ _ p x
      cases ch with
      | nil =>
        constructor
        · intro hx; cases hx
        · rintro ⟨s, c, u, hm, _⟩; cases hm
      | cons pr rest =>
        exfalso
        have : trieSizeKids (pr :: rest) = trieSize pr.2 + trieSizeKids rest + 1 := rfl
        have h1 : 1 ≤ trieSize pr.2 := by
          cases pr.2 with
          | mk term ch2 =>
            have : trieSize (.mk term ch2) = trieSizeKids ch2 + 1 := rfl
            omega
        omega
  | succ n ihn =>
    constructor
    · intro t hsz ht p hp x
      cases t with
      | mk term ch =>
        obtain ⟨_, hseg, hch, hnd⟩ := ht
        have hszk : trieSizeKids ch ≤ n := by
          have : trieSize (.mk term ch) = trieSizeKids ch + 1 := rfl
          omega
        have hmg : minimalGood (.mk term ch) p
            = if p.isEmpty then minimalGoodKids ch p
              else if goodT (.mk term ch) then [joinSegs p] else minimalGoodKids ch p := by
          simp only [minimalGood]
        rw [hmg, isEmpty_false_of_ne p hp]
        simp only [Bool.false_eq_true, if_false]
        by_cases hg : goodT (.mk term ch) = true
        · rw [if_pos hg]
          constructor
          · intro hx
            simp only [List.mem_singleton] at hx
            refine ⟨[], ?_, ?_, ?_⟩
            · rw [List.append_nil]; exact hx
            · rw [goodAtB_nil]; exact hg
            · intro u' hu' hne
              exact absurd (List.prefix_nil.mp hu') hne
          · rintro ⟨u, hx, hgood, hmin⟩
            cases u with
            | nil =>
              rw [List.append_nil] at hx
              simp only [List.mem_singleton]
              exact hx
            | cons s u' =>
              exfalso
              have := hmin [] (List.nil_prefix) (by intro hc; cases hc)
              rw [goodAtB_nil, hg] at this
              cases this
        · rw [if_neg hg]
          rw [ihn.2 ch hszk hseg hch hnd p x]
          constructor
          · rintro ⟨s, c, u, hm, hx, hgood, hmin⟩
            refine ⟨s :: u, hx, ?_, ?_⟩
            · rw [goodAtB_cons_some (.mk term ch) s u (s, c)
                (find?_eq_of_mem_nodup ch hnd s c hm)]
              exact hgood
            · intro u' hu' hne
              cases u' with
              | nil =>
                rw [goodAtB_nil]
                exact (Bool.not_eq_true _).mp hg
              | cons a w =>
                obtain ⟨has, hw⟩ := List.cons_prefix_cons.mp hu'
                subst has
                rw [goodAtB_cons_some (.mk term ch) a w (a, c)
                  (find?_eq_of_mem_nodup ch hnd a c hm)]
                exact hmin w hw (fun hc => hne (by rw [hc]))
          · rintro ⟨u, hx, hgood, hmin⟩
            cases u with
            | nil =>
              exfalso
              rw [goodAtB_nil] at hgood
              exact hg hgood
            | cons s u' =>
              cases hf : ch.find? (fun x => x.1 == s) with
              | none =>
                exfalso
                rw [show goodAtB (.mk term ch) (s :: u') = false from
                  goodAtB_cons_none _ s u' hf] at hgood
                cases hgood
              | some pr =>
                have hps0 := @List.find?_some (String × Trie) (fun x => x.1 == s) pr ch hf
                have hps : pr.1 = s := eq_of_beq hps0
                have hpr : (s, pr.2) ∈ ch := by
                  have : pr = (s, pr.2) := by
                    rw [← hps]
                  exact this ▸ List.mem_of_find?_eq_some hf
                refine ⟨s, pr.2, u', hpr, hx, ?_, ?_⟩
                · rw [show goodAtB (.mk term ch) (s :: u') = goodAtB pr.2 u' from
                    goodAtB_cons_some _ s u' pr hf] at hgood
                  exact hgood
                · intro w hw hne
                  have h1 := hmin (s :: w)
                    (List.cons_prefix_cons.mpr ⟨rfl, hw⟩)
                    (fun hc => hne (by
                      have := congrArg List.tail hc
                      simpa using this))
                  rw [show goodAtB (.mk term ch) (s :: w) = goodAtB pr.2 w from
                    goodAtB_cons_some _ s w pr hf] at h1
                  exact h1
    · intro ch hsz hseg hch hnd p x
      cases ch with
      | nil =>
        constructor
        · intro hx; cases hx
        · rintro ⟨s, c, u, hm, _⟩; cases hm
      | cons pr rest =>
        obtain ⟨s, c⟩ := pr
        have hszc : trieSize c ≤ n := by
          have : trieSizeKids ((s, c) :: rest) = trieSize c + trieSizeKids rest + 1 := rfl
          omega
        have hszr : trieSizeKids rest ≤ n := by
          have : trieSizeKids ((s, c) :: rest) = trieSize c + trieSizeKids rest + 1 := rfl
          omega
        have hstep : minimalGoodKids ((s, c) :: rest) p
            = minimalGood c (p ++ [s]) ++ minimalGoodKids rest p := by
          simp only [minimalGoodKids]
        rw [hstep]
        have hnode := ihn.1 c hszc (hch (s, c) (List.mem_cons_self _ _)) (p ++ [s])
          (append_singleton_ne_nil p s)
        have hkids := ihn.2 rest hszr
          (fun q hq => hseg q (List.mem_cons_of_mem _ hq))
          (fun q hq => hch q (List.mem_cons_of_mem _ hq))
          (List.nodup_cons.mp hnd).2 p
        constructor
        · intro hx
          rcases List.mem_append.mp hx with h1 | h2
          · obtain ⟨u, hxe, hgood, hmin⟩ := (hnode x).mp h1
            refine ⟨s, c, u, List.mem_cons_self _ _, ?_, hgood, hmin⟩
            rw [hxe, List.append_assoc]
            rfl
          · obtain ⟨s', c', u, hm, hxe, hgood, hmin⟩ := (hkids x).mp h2
            exact ⟨s', c', u, List.mem_cons_of_mem _ hm, hxe, hgood, hmin⟩
        · rintro ⟨s', c', u, hm, hxe, hgood, hmin⟩
          rcases List.mem_cons.mp hm with h1 | h2
          · have hs' : s' = s := (Prod.mk.injEq _ _ _ _ ▸ h1).1
            have hc' : c' = c := (Prod.mk.injEq _ _ _ _ ▸ h1).2
            subst hs' hc'
            apply List.mem_append_left
            apply (hnode x).mpr
            refine ⟨u, ?_, hgood, hmin⟩
            rw [hxe, List.append_assoc]
            rfl
          · apply List.mem_append_right
            exact (hkids x).mpr ⟨s', c', u, h2, hxe, hgood, hmin⟩

theorem mem_minimalGood_root (t : Trie) (ht : TrieOK t) (x : String) :
    x ∈ minimalGood t [] ↔ ∃ q, q ≠ [] ∧ x = joinSegs q ∧ goodAtB t q = true ∧
      (∀ q', q' <+: q → q' ≠ q → q' ≠ [] → goodAtB t q' = false) := by
  cases t with
  | mk term ch =>
    obtain ⟨_, hseg, hch, hnd⟩ := ht
    have hmg : minimalGood (.mk term ch) []
        = if ([] : List String).isEmpty then minimalGoodKids ch []
          else if goodT (.mk term ch) then [joinSegs []] else minimalGoodKids ch [] := by
      simp only [minimalGood]
    rw [hmg]
    simp only [List.isEmpty_nil, if_true]
    rw [(mem_MG (trieSizeKids ch)).2 ch le_rfl hseg hch hnd [] x]
    constructor
    · rintro ⟨s, c, u, hm, hxe, hgood, hmin⟩
      refine ⟨s :: u, cons_ne_nil_str s u, by simpa using hxe, ?_, ?_⟩
      · rw [goodAtB_cons_some (.mk term ch) s u (s, c)
          (find?_eq_of_mem_nodup ch hnd s c hm)]
        exact hgood
      · intro q' hq' hne hnenil
        cases q' with
        | nil => exact absurd rfl hnenil
        | cons a w =>
          obtain ⟨has, hw⟩ := List.cons_prefix_cons.mp hq'
          subst has
          rw [goodAtB_cons_some (.mk term ch) a w (a, c)
            (find?_eq_of_mem_nodup ch hnd a c hm)]
          exact hmin w hw (fun hc => hne (by rw [hc]))
    · rintro ⟨q, hq, hxe, hgood, hmin⟩
      cases q with
      | nil => exact absurd rfl hq
      | cons s u =>
        cases hf : ch.find? (fun x => x.1 == s) with
        | none =>
          exfalso
          rw [show goodAtB (.mk term ch) (s :: u) = false from
            goodAtB_cons_none _ s u hf] at hgood
          cases hgood
        | some pr =>
          have hps0 := @List.find?_some (String × Trie) (fun x => x.1 == s) pr ch hf
          have hps : pr.1 = s := eq_of_beq hps0
          have hpr : (s, pr.2) ∈ ch := by
            have : pr = (s, pr.2) := by
              rw [← hps]
            exact this ▸ List.mem_of_find?_eq_some hf
          refine ⟨s, pr.2, u, hpr, by simpa using hxe, ?_, ?_⟩
          · rw [show goodAtB (.mk term ch) (s :: u) = goodAtB pr.2 u from
              goodAtB_cons_some _ s u pr hf] at hgood
            exact hgood
          · intro w hw hne
            have h1 := hmin (s :: w)
              (List.cons_prefix_cons.mpr ⟨rfl, hw⟩)
              (fun hc => hne (by
                have := congrArg List.tail hc
                simpa using this))
              (cons_ne_nil_str s w)
            rw [show goodAtB (.mk term ch) (s :: w) = goodAtB pr.2 w from
              goodAtB_cons_some _ s w pr hf] at h1
            exact h1

/-! ### Path predicates of the fully built trie, in terms of the input -/

theorem termAtB_foldl (dirs : List String) : ∀ (t : Trie) (q : List String),
    termAtB (dirs.foldl (fun t d => t.insert (segsOf d)) t) q
      = (termAtB t q || dirs.any (fun d => decide (q = segsOf d))) := by
  induction dirs with
  | nil => intro t q; simp [List.foldl]
  | cons d ds ih =>
    intro t q
    show termAtB (ds.foldl _ (t.insert (segsOf d))) q = _
    rw [ih (t.insert (segsOf d)) q]
    have hone : termAtB (t.insert (segsOf d)) q = (termAtB t q || decide (q = segsOf d)) :=
      termAtB_insert (segsOf d) t q
    rw [hone, List.any_cons, Bool.or_assoc]

theorem edgeAtB_foldl (dirs : List String) : ∀ (t : Trie) (q : List String) (b : String),
    edgeAtB (dirs.foldl (fun t d => t.insert (segsOf d)) t) q b
      = (edgeAtB t q b || dirs.any (fun d => decide (q ++ [b] <+: segsOf d))) := by
  induction dirs with
  | nil => intro t q b; simp [List.foldl]
  | cons d ds ih =>
    intro t q b
    show edgeAtB (ds.foldl _ (t.insert (segsOf d))) q b = _
    rw [ih (t.insert (segsOf d)) q b]
    have hone : edgeAtB (t.insert (segsOf d)) q b
        = (edgeAtB t q b || decide (q ++ [b] <+: segsOf d)) :=
      edgeAtB_insert (segsOf d) t q b
    rw [hone, List.any_cons, Bool.or_assoc]

theorem termAtB_buildTrie (dirs : List String) (q : List String) :
    termAtB (buildTrie dirs) q = true ↔ ∃ d ∈ dirs, q = segsOf d := by
  unfold buildTrie
  rw [termAtB_foldl dirs (.mk false []) q, termAtB_fresh, Bool.false_or, List.any_eq_true]
  simp only [decide_eq_true_eq]

theorem edgeAtB_buildTrie (dirs : List String) (q : List String) (b : String) :
    edgeAtB (buildTrie dirs) q b = true ↔ ∃ d ∈ dirs, q ++ [b] <+: segsOf d := by
  unfold buildTrie
  rw [edgeAtB_foldl dirs (.mk false []) q b, edgeAtB_fresh, Bool.false_or, List.any_eq_true]
  simp only [decide_eq_true_eq]

theorem goodAtB_buildTrie (dirs : List String) (q : List String) :
    goodAtB (buildTrie dirs) q = true ↔ goodP dirs q := by
  rw [goodAtB_iff _ _ (buildTrie_ok dirs)]
  unfold goodP
  constructor
  · rintro (ht | ⟨a, b, hab, ha, hb⟩)
    · left
      obtain ⟨d, hd, hq⟩ := (termAtB_buildTrie dirs q).mp ht
      exact ⟨d, hd, hq.symm⟩
    · right
      exact ⟨a, b, hab, (edgeAtB_buildTrie dirs q a).mp ha, (edgeAtB_buildTrie dirs q b).mp hb⟩
  · rintro (⟨d, hd, hq⟩ | ⟨a, b, hab, ha, hb⟩)
    · exact Or.inl ((termAtB_buildTrie dirs q).mpr ⟨d, hd, hq.symm⟩)
    · exact Or.inr ⟨a, b, hab, (edgeAtB_buildTrie dirs q a).mpr ha,
        (edgeAtB_buildTrie dirs q b).mpr hb⟩

theorem goodP_segOK (l : List String) (q : List String) (h : goodP l q) :
    ∀ z ∈ q, segOK z := by
  intro z hz
  rcases h with ⟨d, _, hq⟩ | ⟨a, _, _, ⟨d, _, hq⟩, _⟩
  · exact segOK_of_mem_segsOf d z (hq ▸ hz)
  · exact segOK_of_mem_segsOf d z (hq.subset (List.mem_append_left [a] hz))

theorem goodP_congr (l l' : List String) (h : ∀ d, d ∈ l ↔ d ∈ l') (q : List String) :
    goodP l q ↔ goodP l' q := by
  unfold goodP
  constructor
  · rintro (⟨d, hd, hq⟩ | ⟨a, b, hab, ⟨d1, hd1, h1⟩, ⟨d2, hd2, h2⟩⟩)
    · exact Or.inl ⟨d, (h d).mp hd, hq⟩
    · exact Or.inr ⟨a, b, hab, ⟨d1, (h d1).mp hd1, h1⟩, ⟨d2, (h d2).mp hd2, h2⟩⟩
  · rintro (⟨d, hd, hq⟩ | ⟨a, b, hab, ⟨d1, hd1, h1⟩, ⟨d2, hd2, h2⟩⟩)
    · exact Or.inl ⟨d, (h d).mpr hd, hq⟩
    · exact Or.inr ⟨a, b, hab, ⟨d1, (h d1).mpr hd1, h1⟩, ⟨d2, (h d2).mpr hd2, h2⟩⟩

theorem MGP_congr (l l' : List String) (h : ∀ d, d ∈ l ↔ d ∈ l') (x : String) :
    MGP l x ↔ MGP l' x := by
  unfold MGP
  constructor
  · rintro ⟨q, hq, hx, hg, hmin⟩
    exact ⟨q, hq, hx, (goodP_congr l l' h q).mp hg,
      fun q' h1 h2 h3 hc => hmin q' h1 h2 h3 ((goodP_congr l l' h q').mpr hc)⟩
  · rintro ⟨q, hq, hx, hg, hmin⟩
    exact ⟨q, hq, hx, (goodP_congr l l' h q).mpr hg,
      fun q' h1 h2 h3 hc => hmin q' h1 h2 h3 ((goodP_congr l l' h q').mp hc)⟩

theorem mem_minimalGood_buildTrie (dirs : List String) (x : String) :
    x ∈ minimalGood (buildTrie dirs) [] ↔ MGP dirs x := by
  rw [mem_minimalGood_root _ (buildTrie_ok dirs)]
  unfold MGP
  constructor
  · rintro ⟨q, hq, hx, hg, hmin⟩
    refine ⟨q, hq, hx, (goodAtB_buildTrie dirs q).mp hg, ?_⟩
    intro q' h1 h2 h3 hc
    have := hmin q' h1 h2 h3
    rw [(goodAtB_buildTrie dirs q').mpr hc] at this
    cases this
  · rintro ⟨q, hq, hx, hg, hmin⟩
    refine ⟨q, hq, hx, (goodAtB_buildTrie dirs q).mpr hg, ?_⟩
    intro q' h1 h2 h3
    cases hgb : goodAtB (buildTrie dirs) q' with
    | false => rfl
    | true => exact absurd ((goodAtB_buildTrie dirs q').mp hgb) (hmin q' h1 h2 h3)

/-! ### The emitted paths are duplicate-free -/

theorem minimalGood_nodup : ∀ (n : Nat),
    (∀ (t : Trie), trieSize t ≤ n → TrieOK t → ∀ (p : List String), p ≠ [] →
      (∀ z ∈ p, segOK z) → (minimalGood t p).Nodup) ∧
    (∀ (ch : List (String × Trie)), trieSizeKids ch ≤ n →
      (∀ pr ∈ ch, segOK pr.1) → (∀ pr ∈ ch, TrieOK pr.2) → (ch.map Prod.fst).Nodup →
      ∀ (p : List String), (∀ z ∈ p, segOK z) → (minimalGoodKids ch p).Nodup) := by
  intro n
  induction n with
  | zero =>
    constructor
    · intro t hsz
      exfalso
      cases t with
      | mk term ch =>
        have : trieSize (.mk term ch) = trieSizeKids ch + 1 := rfl
        omega
    · intro ch hsz _ _ _ p _
      cases ch with
      | nil => exact List.nodup_nil
      | cons pr rest =>
        exfalso
        have : trieSizeKids (pr :: rest) = trieSize pr.2 + trieSizeKids rest + 1 := rfl
        have h1 : 1 ≤ trieSize pr.2 := by
          cases pr.2 with
          | mk term ch2 =>
            have : trieSize (.mk term ch2) = trieSizeKids ch2 + 1 := rfl
            omega
        omega
  | succ n ihn =>
    constructor
    · intro t hsz ht p hp hpok
      cases t with
      | mk term ch =>
        obtain ⟨_, hseg, hch, hnd⟩ := ht
        have hszk : trieSizeKids ch ≤ n := by
          have : trieSize (.mk term ch) = trieSizeKids ch + 1 := rfl
          omega
        have hmg : minimalGood (.mk term ch) p
            = if p.isEmpty then minimalGoodKids ch p
              else if goodT (.mk term ch) then [joinSegs p] else minimalGoodKids ch p := by
          simp only [minimalGood]
        rw [hmg, isEmpty_false_of_ne p hp]
        simp only [Bool.false_eq_true, if_false]
        by_cases hg : goodT (.mk term ch) = true
        · rw [if_pos hg]
          exact List.nodup_singleton _
        · rw [if_neg hg]
          exact ihn.2 ch hszk hseg hch hnd p hpok
    · intro ch hsz hseg hch hnd p hpok
      cases ch with
      | nil => exact List.nodup_nil
      | cons pr rest =>
        obtain ⟨s, c⟩ := pr
        have hszc : trieSize c ≤ n := by
          have : trieSizeKids ((s, c) :: rest) = trieSize c + trieSizeKids rest + 1 := rfl
          omega
        have hszr : trieSizeKids rest ≤ n := by
          have : trieSizeKids ((s, c) :: rest) = trieSize c + trieSizeKids rest + 1 := rfl
          omega
        have hs : segOK s := hseg (s, c) (List.mem_cons_self _ _)
        have hstep : minimalGoodKids ((s, c) :: rest) p
            = minimalGood c (p ++ [s]) ++ minimalGoodKids rest p := by
          simp only [minimalGoodKids]
        rw [hstep]
        have hpsok : ∀ z ∈ p ++ [s], segOK z := by
          intro z hz
          rcases List.mem_append.mp hz with h1 | h2
          · exact hpok z h1
          · rw [List.mem_singleton.mp h2]; exact hs
        apply List.nodup_append.mpr
        refine ⟨ihn.1 c hszc (hch (s, c) (List.mem_cons_self _ _)) (p ++ [s])
          (append_singleton_ne_nil p s) hpsok,
          ihn.2 rest hszr (fun q hq => hseg q (List.mem_cons_of_mem _ hq))
            (fun q hq => hch q (List.mem_cons_of_mem _ hq))
            (List.nodup_cons.mp hnd).2 p hpok, ?_⟩
        intro x hx1 hx2
        obtain ⟨u, hu, hxe⟩ := (minimalGood_shape n).1 c hszc
          (hch (s, c) (List.mem_cons_self _ _)) (p ++ [s])
          (append_singleton_ne_nil p s) x hx1
        obtain ⟨s', c', u', hm', hs', hu', hxe'⟩ := (minimalGood_shape n).2 rest hszr
          (fun q hq => hseg q (List.mem_cons_of_mem _ hq))
          (fun q hq => hch q (List.mem_cons_of_mem _ hq)) p x hx2
        have hxe2 : x = joinSegs (p ++ s :: u) := by
          rw [hxe, List.append_assoc]
          rfl
        have hall1 : ∀ z ∈ p ++ s :: u, segOK z := by
          intro z hz
          rcases List.mem_append.mp hz with h1 | h2
          · exact hpok z h1
          · rcases List.mem_cons.mp h2 with h3 | h4
            · rw [h3]; exact hs
            · exact hu z h4
        have hall2 : ∀ z ∈ p ++ s' :: u', segOK z := by
          intro z hz
          rcases List.mem_append.mp hz with h1 | h2
          · exact hpok z h1
          · rcases List.mem_cons.mp h2 with h3 | h4
            · rw [h3]; exact hs'
            · exact hu' z h4
        have hj : joinSegs (p ++ s :: u) = joinSegs (p ++ s' :: u') := by
          rw [← hxe2, ← hxe']
        have heq := joinSegs_inj (p ++ s :: u) (p ++ s' :: u') hall1 hall2 hj
        have heq2 : s :: u = s' :: u' := List.append_cancel_left heq
        have hss' : s = s' := by
          have := congrArg (fun l => l.headD "") heq2
          simpa using this
        exact (List.nodup_cons.mp hnd).1
          (hss' ▸ List.mem_map.mpr ⟨(s', c'), hm', rfl⟩)

theorem minimalGood_root_nodup (t : Trie) (ht : TrieOK t) : (minimalGood t []).Nodup := by
  cases t with
  | mk term ch =>
    obtain ⟨_, hseg, hch, hnd⟩ := ht
    have hmg : minimalGood (.mk term ch) []
        = if ([] : List String).isEmpty then minimalGoodKids ch []
          else if goodT (.mk term ch) then [joinSegs []] else minimalGoodKids ch [] := by
      simp only [minimalGood]
    rw [hmg]
    simp only [List.isEmpty_nil, if_true]
    exact (minimalGood_nodup (trieSizeKids ch)).2 ch le_rfl hseg hch hnd []
      (fun z hz => absurd hz (List.not_mem_nil z))

theorem computeLCA_eq (l : List String) :
    computeLCA l = (if (setList l).length = 0 then []
      else if (setList l).length = 1 then setList l
      else postOrderNode (buildTrie (setList l)) [] []) := by
  simp only [computeLCA]
  by_cases h0 : (setList l).length = 0
  · rw [if_pos (by simp [h0]), if_pos h0]
  · rw [if_neg (by simp [h0]), if_neg h0]
    by_cases h1 : (setList l).length = 1
    · rw [if_pos (by simp [h1]), if_pos h1]
    · rw [if_neg (by simp [h1]), if_neg h1]

/-- C7 counterexample: `computeLCA` is not literally invariant under
permutation of its input — the two inputs are permutations of each other
but the result lists differ (they hold the same paths in different
orders, reflecting trie insertion order). -/
theorem c7_counterexample :
    (["a/x", "b/y"] : List String).Perm ["b/y", "a/x"]
      ∧ computeLCA ["a/x", "b/y"] ≠ computeLCA ["b/y", "a/x"] :=
  ⟨List.Perm.swap "b/y" "a/x" [], by decide⟩

/-- C7 (amended): permuting the input permutes the output of
`computeLCA` (same paths, possibly in another order); no output path is
a strict prefix of another by `/`-segments; the documented examples
hold: the LCA of a/b, a/c, a/d is exactly a, and src/graph and
src/graph-store are distinguished, with LCA src. -/
theorem c7_lca_perm_stable_and_minimal :
    (∀ (l l' : List String), l.Perm l' → (computeLCA l).Perm (computeLCA l')) ∧
    (∀ (l : List String), ∀ x ∈ computeLCA l, ∀ y ∈ computeLCA l,
      segsOf x <+: segsOf y → x = y) ∧
    computeLCA ["a/b", "a/c", "a/d"] = ["a"] ∧
    computeLCA ["src/graph", "src/graph-store"] = ["src"] := by
  refine ⟨?_, ?_, by decide, by decide⟩
  · intro l l' hperm
    have hmem : ∀ d, d ∈ setList l ↔ d ∈ setList l' := by
      intro d
      rw [mem_setList, mem_setList]
      exact hperm.mem_iff
    have hsp : (setList l).Perm (setList l') :=
      (List.perm_ext_iff_of_nodup (setList_nodup l) (setList_nodup l')).mpr hmem
    have hlen := hsp.length_eq
    rw [computeLCA_eq l, computeLCA_eq l']
    by_cases h0 : (setList l).length = 0
    · have h0' : (setList l').length = 0 := by omega
      rw [if_pos h0, if_pos h0']
    · have h0' : ¬ (setList l').length = 0 := by omega
      rw [if_neg h0, if_neg h0']
      by_cases h1 : (setList l).length = 1
      · have h1' : (setList l').length = 1 := by omega
        rw [if_pos h1, if_pos h1']
        exact hsp
      · have h1' : ¬ (setList l').length = 1 := by omega
        rw [if_neg h1, if_neg h1']
        rw [postOrderNode_root _ (buildTrie_ok _), postOrderNode_root _ (buildTrie_ok _)]
        apply (List.perm_ext_iff_of_nodup (minimalGood_root_nodup _ (buildTrie_ok _))
          (minimalGood_root_nodup _ (buildTrie_ok _))).mpr
        intro x
        rw [mem_minimalGood_buildTrie, mem_minimalGood_buildTrie]
        exact MGP_congr _ _ hmem x
  · intro l x hx y hy hpre
    rw [computeLCA_eq l] at hx hy
    by_cases h0 : (setList l).length = 0
    · rw [if_pos h0] at hx
      cases hx
    · rw [if_neg h0] at hx hy
      by_cases h1 : (setList l).length = 1
      · rw [if_pos h1] at hx hy
        obtain ⟨d, hd⟩ := List.length_eq_one.mp h1
        rw [hd] at hx hy
        rw [List.mem_singleton.mp hx, List.mem_singleton.mp hy]
      · rw [if_neg h1] at hx hy
        rw [postOrderNode_root _ (buildTrie_ok _)] at hx hy
        obtain ⟨q, hq, hxe, hg, hmin⟩ := (mem_minimalGood_buildTrie _ x).mp hx
        obtain ⟨q', hq', hye, hg', hmin'⟩ := (mem_minimalGood_buildTrie _ y).mp hy
        have hsx : segsOf x = q := by
          rw [hxe]
          exact segsOf_joinSegs q (goodP_segOK _ q hg)
        have hsy : segsOf y = q' := by
          rw [hye]
          exact segsOf_joinSegs q' (goodP_segOK _ q' hg')
        rw [hsx, hsy] at hpre
        by_cases heq : q = q'
        · rw [hxe, hye, heq]
        · exact absurd hg (hmin' q hpre heq hq)

/-- Witness for C7: the permutation-stability conjunct applied to the
concrete permuted pair of directory lists. -/
theorem c7_witness :
    (["a/x", "b/y"] : List String).Perm ["b/y", "a/x"]
      ∧ (computeLCA ["a/x", "b/y"]).Perm (computeLCA ["b/y", "a/x"]) :=
  ⟨List.Perm.swap "b/y" "a/x" [],
    c7_lca_perm_stable_and_minimal.1 ["a/x", "b/y"] ["b/y", "a/x"]
      (List.Perm.swap "b/y" "a/x" [])⟩

/-! ### The JavaScript sort order on path strings -/

theorem char_eq_of_toNat_eq (x y : Char) (h : x.toNat = y.toNat) : x = y := by
  have hv : x.val = y.val := by
    have h2 : x.val.toNat = y.val.toNat := h
    exact UInt32.toNat.inj h2
  exact Char.ext hv

theorem charListLeB_refl : ∀ l, charListLeB l l = true := by
  intro l
  induction l with
  | nil => rfl
  | cons a as ih =>
    show (if a.toNat < a.toNat then true
      else if a.toNat < a.toNat then false else charListLeB as as) = true
    rw [if_neg (lt_irrefl _), if_neg (lt_irrefl _)]
    exact ih

theorem charListLeB_total : ∀ a b, charListLeB a b = true ∨ charListLeB b a = true := by
  intro a
  induction a with
  | nil => intro b; exact Or.inl rfl
  | cons x xs ih =>
    intro b
    cases b with
    | nil => exact Or.inr rfl
    | cons y ys =>
      rcases Nat.lt_trichotomy x.toNat y.toNat with hlt | heq | hgt
      · left
        show (if x.toNat < y.toNat then true else _) = true
        rw [if_pos hlt]
      · rcases ih ys with h1 | h1
        · left
          show (if x.toNat < y.toNat then true
            else if y.toNat < x.toNat then false else charListLeB xs ys) = true
          rw [if_neg (by omega), if_neg (by omega)]
          exact h1
        · right
          show (if y.toNat < x.toNat then true
            else if x.toNat < y.toNat then false else charListLeB ys xs) = true
          rw [if_neg (by omega), if_neg (by omega)]
          exact h1
      · right
        show (if y.toNat < x.toNat then true else _) = true
        rw [if_pos hgt]

theorem charListLeB_antisymm : ∀ a b, charListLeB a b = true → charListLeB b a = true →
    a = b := by
  intro a
  induction a with
  | nil =>
    intro b _ h2
    cases b with
    | nil => rfl
    | cons y ys => cases h2
  | cons x xs ih =>
    intro b h1 h2
    cases b with
    | nil => cases h1
    | cons y ys =>
      rcases Nat.lt_trichotomy x.toNat y.toNat with hlt | heq | hgt
      · exfalso
        have : charListLeB (y :: ys) (x :: xs)
            = (if y.toNat < x.toNat then true
              else if x.toNat < y.toNat then false else charListLeB ys xs) := rfl
        rw [this, if_neg (by omega), if_pos hlt] at h2
        cases h2
      · have hxy : x = y := char_eq_of_toNat_eq x y heq
        have e1 : charListLeB (x :: xs) (y :: ys)
            = (if x.toNat < y.toNat then true
              else if y.toNat < x.toNat then false else charListLeB xs ys) := rfl
        have e2 : charListLeB (y :: ys) (x :: xs)
            = (if y.toNat < x.toNat then true
              else if x.toNat < y.toNat then false else charListLeB ys xs) := rfl
        rw [e1, if_neg (by omega), if_neg (by omega)] at h1
        rw [e2, if_neg (by omega), if_neg (by omega)] at h2
        rw [hxy, ih ys h1 h2]
      · exfalso
        have : charListLeB (x :: xs) (y :: ys)
            = (if x.toNat < y.toNat then true
              else if y.toNat < x.toNat then false else charListLeB xs ys) := rfl
        rw [this, if_neg (by omega), if_pos hgt] at h1
        cases h1

theorem charListLeB_trans : ∀ a b c, charListLeB a b = true → charListLeB b c = true →
    charListLeB a c = true := by
  intro a
  induction a with
  | nil => intro b c _ _; rfl
  | cons x xs ih =>
    intro b c h1 h2
    cases b with
    | nil => cases h1
    | cons y ys =>
      cases c with
      | nil => cases h2
      | cons z zs =>
        have e1 : charListLeB (x :: xs) (y :: ys)
            = (if x.toNat < y.toNat then true
              else if y.toNat < x.toNat then false else charListLeB xs ys) := rfl
        have e2 : charListLeB (y :: ys) (z :: zs)
            = (if y.toNat < z.toNat then true
              else if z.toNat < y.toNat then false else charListLeB ys zs) := rfl
        have e3 : charListLeB (x :: xs) (z :: zs)
            = (if x.toNat < z.toNat then true
              else if z.toNat < x.toNat then false else charListLeB xs zs) := rfl
        have hxy : x.toNat < y.toNat ∨ (x.toNat = y.toNat ∧ charListLeB xs ys = true) := by
          by_cases h : x.toNat < y.toNat
          · exact Or.inl h
          · by_cases h' : y.toNat < x.toNat
            · rw [e1, if_neg h, if_pos h'] at h1; cases h1
            · rw [e1, if_neg h, if_neg h'] at h1
              exact Or.inr ⟨by omega, h1⟩
        have hyz : y.toNat < z.toNat ∨ (y.toNat = z.toNat ∧ charListLeB ys zs = true) := by
          by_cases h : y.toNat < z.toNat
          · exact Or.inl h
          · by_cases h' : z.toNat < y.toNat
            · rw [e2, if_neg h, if_pos h'] at h2; cases h2
            · rw [e2, if_neg h, if_neg h'] at h2
              exact Or.inr ⟨by omega, h2⟩
        rcases hxy with hxy | ⟨hxy, hrec1⟩
        · rcases hyz with hyz | ⟨hyz, _⟩
          · rw [e3, if_pos (by omega)]
          · rw [e3, if_pos (by omega)]
        · rcases hyz with hyz | ⟨hyz, hrec2⟩
          · rw [e3, if_pos (by omega)]
          · rw [e3, if_neg (by omega), if_neg (by omega)]
            exact ih ys zs hrec1 hrec2

theorem strLeB_refl (a : String) : strLeB a a = true := charListLeB_refl a.data

theorem strLeB_total (a b : String) : strLeB a b = true ∨ strLeB b a = true :=
  charListLeB_total a.data b.data

theorem strLeB_antisymm (a b : String) (h1 : strLeB a b = true) (h2 : strLeB b a = true) :
    a = b :=
  String.ext (charListLeB_antisymm a.data b.data h1 h2)

theorem strLeB_trans (a b c : String) (h1 : strLeB a b = true) (h2 : strLeB b c = true) :
    strLeB a c = true :=
  charListLeB_trans a.data b.data c.data h1 h2

theorem insertSorted_perm (x : String) : ∀ l, (insertSorted x l).Perm (x :: l) := by
  intro l
  induction l with
  | nil => exact List.Perm.refl _
  | cons y ys ih =>
    show (if strLeB x y = true then x :: y :: ys else y :: insertSorted x ys).Perm _
    by_cases h : strLeB x y = true
    · rw [if_pos h]
    · rw [if_neg h]
      exact (List.Perm.cons y ih).trans (List.Perm.swap x y ys)

theorem insertSorted_sorted (x : String) :
    ∀ l, l.Pairwise (fun a b => strLeB a b = true) →
      (insertSorted x l).Pairwise (fun a b => strLeB a b = true) := by
  intro l
  induction l with
  | nil =>
    intro _
    exact List.pairwise_singleton _ x
  | cons y ys ih =>
    intro h
    obtain ⟨hy, hys⟩ := List.pairwise_cons.mp h
    show (if strLeB x y = true then x :: y :: ys else y :: insertSorted x ys).Pairwise _
    by_cases hxy : strLeB x y = true
    · rw [if_pos hxy]
      apply List.pairwise_cons.mpr
      refine ⟨?_, h⟩
      intro z hz
      rcases List.mem_cons.mp hz with h1 | h2
      · rw [h1]; exact hxy
      · exact strLeB_trans x y z hxy (hy z h2)
    · rw [if_neg hxy]
      apply List.pairwise_cons.mpr
      refine ⟨?_, ih hys⟩
      intro z hz
      have hz2 : z ∈ x :: ys := (insertSorted_perm x ys).mem_iff.mp hz
      rcases List.mem_cons.mp hz2 with h1 | h2
      · rw [h1]
        rcases strLeB_total x y with h3 | h3
        · exact absurd h3 hxy
        · exact h3
      · exact hy z h2

theorem jsSort_cons (x : String) (l : List String) :
    jsSort (x :: l) = insertSorted x (jsSort l) := rfl

theorem jsSort_perm : ∀ l, (jsSort l).Perm l := by
  intro l
  induction l with
  | nil => exact List.Perm.refl _
  | cons x xs ih =>
    rw [jsSort_cons]
    exact (insertSorted_perm x (jsSort xs)).trans (List.Perm.cons x ih)

theorem jsSort_sorted : ∀ l, (jsSort l).Pairwise (fun a b => strLeB a b = true) := by
  intro l
  induction l with
  | nil => exact List.Pairwise.nil
  | cons x xs ih =>
    rw [jsSort_cons]
    exact insertSorted_sorted x (jsSort xs) ih

theorem jsSort_eq_of_perm (l1 l2 : List String) (h : l1.Perm l2) : jsSort l1 = jsSort l2 := by
  haveI : IsAntisymm String (fun a b => strLeB a b = true) :=
    ⟨fun a b h1 h2 => strLeB_antisymm a b h1 h2⟩
  exact List.eq_of_perm_of_sorted ((jsSort_perm l1).trans (h.trans (jsSort_perm l2).symm))
    (jsSort_sorted l1) (jsSort_sorted l2)

/-! ### Permutation stability and non-emptiness of the LCA computation -/

theorem computeLCA_perm (l l' : List String) (hperm : l.Perm l') :
    (computeLCA l).Perm (computeLCA l') := by
  have hmem : ∀ d, d ∈ setList l ↔ d ∈ setList l' := by
    intro d
    rw [mem_setList, mem_setList]
    exact hperm.mem_iff
  have hsp : (setList l).Perm (setList l') :=
    (List.perm_ext_iff_of_nodup (setList_nodup l) (setList_nodup l')).mpr hmem
  have hlen := hsp.length_eq
  rw [computeLCA_eq l, computeLCA_eq l']
  by_cases h0 : (setList l).length = 0
  · have h0' : (setList l').length = 0 := by omega
    rw [if_pos h0, if_pos h0']
  · have h0' : ¬ (setList l').length = 0 := by omega
    rw [if_neg h0, if_neg h0']
    by_cases h1 : (setList l).length = 1
    · have h1' : (setList l').length = 1 := by omega
      rw [if_pos h1, if_pos h1']
      exact hsp
    · have h1' : ¬ (setList l').length = 1 := by omega
      rw [if_neg h1, if_neg h1']
      rw [postOrderNode_root _ (buildTrie_ok _), postOrderNode_root _ (buildTrie_ok _)]
      apply (List.perm_ext_iff_of_nodup (minimalGood_root_nodup _ (buildTrie_ok _))
        (minimalGood_root_nodup _ (buildTrie_ok _))).mpr
      intro x
      rw [mem_minimalGood_buildTrie, mem_minimalGood_buildTrie]
      exact MGP_congr _ _ hmem x

theorem exists_minimal_goodP : ∀ (n : Nat) (l : List String) (q : List String),
    q.length ≤ n → q ≠ [] → goodP l q → ∃ x, MGP l x := by
  intro n
  induction n with
  | zero =>
    intro l q hlen hq _
    cases q with
    | nil => exact absurd rfl hq
    | cons a t => simp at hlen
  | succ n ih =>
    intro l q hlen hq hg
    rcases Classical.em (∃ q', q' <+: q ∧ q' ≠ q ∧ q' ≠ [] ∧ goodP l q') with
      ⟨q', hpre, hne, hne2, hg'⟩ | hnone
    · apply ih l q' ?_ hne2 hg'
      have h1 : q'.length ≤ q.length := hpre.length_le
      have h2 : q'.length ≠ q.length := fun hc => hne (hpre.eq_of_length hc)
      omega
    · exact ⟨joinSegs q, q, hq, rfl, hg,
        fun q' h1 h2 h3 hc => hnone ⟨q', h1, h2, h3, hc⟩⟩

theorem computeLCA_ne_nil (ds : List String) (h0 : ds ≠ [])
    (h1 : ∀ d ∈ ds, segsOf d ≠ []) : computeLCA ds ≠ [] := by
  rw [computeLCA_eq]
  obtain ⟨d, rest, rfl⟩ : ∃ d rest, ds = d :: rest := by
    cases ds with
    | nil => exact absurd rfl h0
    | cons d rest => exact ⟨d, rest, rfl⟩
  have hd : d ∈ setList (d :: rest) := (mem_setList _ d).mpr (List.mem_cons_self d rest)
  by_cases hl0 : (setList (d :: rest)).length = 0
  · exfalso
    rw [List.length_eq_zero.mp hl0] at hd
    cases hd
  · rw [if_neg hl0]
    by_cases hl1 : (setList (d :: rest)).length = 1
    · rw [if_pos hl1]
      exact List.ne_nil_of_mem hd
    · rw [if_neg hl1]
      rw [postOrderNode_root _ (buildTrie_ok _)]
      have hgood : goodP (setList (d :: rest)) (segsOf d) := Or.inl ⟨d, hd, rfl⟩
      obtain ⟨x, hx⟩ := exists_minimal_goodP (segsOf d).length (setList (d :: rest))
        (segsOf d) le_rfl (h1 d (List.mem_cons_self d rest)) hgood
      exact List.ne_nil_of_mem ((mem_minimalGood_buildTrie _ x).mpr hx)

/-! ### The object-spread update of the extra bag -/

theorem find?_mapReplE_eq (e : List (String × ExtraVal)) (k : String) (v : ExtraVal)
    (hany : e.any (fun p => p.1 == k) = true) :
    List.find? (fun p => p.1 == k)
      (e.map (fun p => if (p.1 == k) = true then (k, v) else p)) = some (k, v) := by
  induction e with
  | nil => cases hany
  | cons p rest ih =>
    by_cases hp : (p.1 == k) = true
    · show List.find? (fun p => p.1 == k)
        ((if (p.1 == k) = true then (k, v) else p)
          :: rest.map (fun p => if (p.1 == k) = true then (k, v) else p)) = _
      rw [if_pos hp]
      exact @List.find?_cons_of_pos (String × ExtraVal) (fun p => p.1 == k) (k, v)
        (rest.map (fun p => if (p.1 == k) = true then (k, v) else p)) (by simp)
    · show List.find? (fun p => p.1 == k)
        ((if (p.1 == k) = true then (k, v) else p)
          :: rest.map (fun p => if (p.1 == k) = true then (k, v) else p)) = _
      rw [if_neg hp]
      rw [@List.find?_cons_of_neg (String × ExtraVal) (fun p => p.1 == k) p
        (rest.map (fun p => if (p.1 == k) = true then (k, v) else p)) hp]
      apply ih
      obtain ⟨x, hx, hxk⟩ := List.any_eq_true.mp hany
      rcases List.mem_cons.mp hx with h1 | h2
      · rw [← h1] at hp; exact absurd hxk hp
      · exact List.any_eq_true.mpr ⟨x, h2, hxk⟩

theorem find?_mapReplE_ne (e : List (String × ExtraVal)) (k : String) (v : ExtraVal)
    (a : String) (hne : a ≠ k) :
    List.find? (fun p => p.1 == a)
      (e.map (fun p => if (p.1 == k) = true then (k, v) else p))
      = List.find? (fun p => p.1 == a) e := by
  induction e with
  | nil => rfl
  | cons p rest ih =>
    by_cases hp : (p.1 == k) = true
    · show List.find? (fun p => p.1 == a)
        ((if (p.1 == k) = true then (k, v) else p)
          :: rest.map (fun p => if (p.1 == k) = true then (k, v) else p)) = _
      rw [if_pos hp]
      have h1 : ¬ (((k, v).1 == a) = true) := fun hc => hne (eq_of_beq hc).symm
      have h2 : ¬ ((p.1 == a) = true) :=
        fun hc => hne ((eq_of_beq hc).symm.trans (eq_of_beq hp))
      rw [@List.find?_cons_of_neg (String × ExtraVal) (fun p => p.1 == a) (k, v)
          (rest.map (fun p => if (p.1 == k) = true then (k, v) else p)) h1,
        @List.find?_cons_of_neg (String × ExtraVal) (fun p => p.1 == a) p rest h2, ih]
    · show List.find? (fun p => p.1 == a)
        ((if (p.1 == k) = true then (k, v) else p)
          :: rest.map (fun p => if (p.1 == k) = true then (k, v) else p)) = _
      rw [if_neg hp]
      by_cases hpa : (p.1 == a) = true
      · rw [@List.find?_cons_of_pos (String × ExtraVal) (fun p => p.1 == a) p
            (rest.map (fun p => if (p.1 == k) = true then (k, v) else p)) hpa,
          @List.find?_cons_of_pos (String × ExtraVal) (fun p => p.1 == a) p rest hpa]
      · rw [@List.find?_cons_of_neg (String × ExtraVal) (fun p => p.1 == a) p
            (rest.map (fun p => if (p.1 == k) = true then (k, v) else p)) hpa,
          @List.find?_cons_of_neg (String × ExtraVal) (fun p => p.1 == a) p rest hpa, ih]

theorem find?_extraSet (e : Extra) (k : String) (v : ExtraVal) (a : String) :
    List.find? (fun p => p.1 == a) (extraSet e k v)
      = if a = k then some (k, v) else List.find? (fun p => p.1 == a) e := by
  unfold extraSet
  by_cases hany : e.any (fun p => p.1 == k) = true
  · rw [if_pos hany]
    by_cases hak : a = k
    · subst hak
      rw [if_pos rfl]
      exact find?_mapReplE_eq e a v hany
    · rw [if_neg hak]
      exact find?_mapReplE_ne e k v a hak
  · rw [if_neg hany, List.find?_append]
    by_cases hak : a = k
    · subst hak
      rw [if_pos rfl]
      have hnone : List.find? (fun p => p.1 == a) e = none := by
        apply List.find?_eq_none.mpr
        intro x hx hpx
        have : e.any (fun p => p.1 == a) = true := List.any_eq_true.mpr ⟨x, hx, hpx⟩
        rw [this] at hany
        exact hany rfl
      rw [hnone]
      show (Option.none).or (List.find? (fun p => p.1 == a) [(a, v)]) = some (a, v)
      rw [@List.find?_cons_of_pos (String × ExtraVal) (fun p => p.1 == a) (a, v) [] (by simp)]
      rfl
    · rw [if_neg hak]
      have hnone : List.find? (fun p => p.1 == a) [(k, v)] = none := by
        apply List.find?_eq_none.mpr
        intro x hx hpx
        simp at hx
        rw [hx] at hpx
        exact hak (eq_of_beq hpx).symm
      rw [hnone]
      cases List.find? (fun p => p.1 == a) e <;> rfl

theorem extraGet_set_same (e : Extra) (k : String) (v : ExtraVal) :
    extraGet (extraSet e k v) k = some v := by
  unfold extraGet
  rw [find?_extraSet, if_pos rfl]
  rfl

theorem extraGet_set_other (e : Extra) (k k' : String) (v : ExtraVal) (h : k' ≠ k) :
    extraGet (extraSet e k v) k' = extraGet e k' := by
  unfold extraGet
  rw [find?_extraSet, if_neg h]

theorem any_map_replE (e : List (String × ExtraVal)) (k : String) (v : ExtraVal) :
    (e.map (fun p => if (p.1 == k) = true then (k, v) else p)).any
      (fun p => p.1 == k) = e.any (fun p => p.1 == k) := by
  induction e with
  | nil => rfl
  | cons p rest ih =>
    show ((if (p.1 == k) = true then (k, v) else p)
        :: rest.map (fun p => if (p.1 == k) = true then (k, v) else p)).any _ = _
    rw [List.any_cons, List.any_cons, ih]
    by_cases hp : (p.1 == k) = true
    · rw [if_pos hp, hp]
      have : ((k, v).1 == k) = true := by simp
      rw [this]
    · rw [if_neg hp]

theorem extraSet_set_same (e : Extra) (k : String) (v : ExtraVal) :
    extraSet (extraSet e k v) k v = extraSet e k v := by
  by_cases hany : e.any (fun p => p.1 == k) = true
  · have h1 : extraSet e k v = e.map (fun p => if (p.1 == k) = true then (k, v) else p) := by
      unfold extraSet
      rw [if_pos hany]
    rw [h1]
    have h2 : (e.map (fun p => if (p.1 == k) = true then (k, v) else p)).any
        (fun p => p.1 == k) = true := by
      rw [any_map_replE]
      exact hany
    show extraSet _ k v = _
    unfold extraSet
    rw [if_pos h2, List.map_map]
    apply List.map_congr_left
    intro p _
    by_cases hp : (p.1 == k) = true
    · show (if ((if (p.1 == k) = true then (k, v) else p).1 == k) = true then (k, v)
        else (if (p.1 == k) = true then (k, v) else p)) = if (p.1 == k) = true then (k, v) else p
      rw [if_pos hp]
      simp
    · show (if ((if (p.1 == k) = true then (k, v) else p).1 == k) = true then (k, v)
        else (if (p.1 == k) = true then (k, v) else p)) = if (p.1 == k) = true then (k, v) else p
      rw [if_neg hp, if_neg hp]
  · have h1 : extraSet e k v = e ++ [(k, v)] := by
      unfold extraSet
      rw [if_neg hany]
    rw [h1]
    have h2 : (e ++ [(k, v)]).any (fun p => p.1 == k) = true := by
      rw [List.any_append]
      have : List.any [(k, v)] (fun p => p.1 == k) = true := by simp
      rw [this, Bool.or_true]
    unfold extraSet
    rw [if_pos h2, List.map_append]
    have h3 : e.map (fun p => if (p.1 == k) = true then (k, v) else p) = e := by
      have : ∀ p ∈ e, (if (p.1 == k) = true then (k, v) else p) = p := by
        intro p hp
        rw [if_neg (fun hc => by
          have : e.any (fun p => p.1 == k) = true := List.any_eq_true.mpr ⟨p, hp, hc⟩
          rw [this] at hany
          exact hany rfl)]
      calc e.map (fun p => if (p.1 == k) = true then (k, v) else p)
          = e.map (fun p => p) := List.map_congr_left this
        _ = e := List.map_id _
    rw [h3]
    have h4 : List.map (fun p => if (p.1 == k) = true then (k, v) else p) [(k, v)]
        = [(k, v)] := by
      show [if (((k, v) : String × ExtraVal).1 == k) = true then (k, v) else (k, v)] = _
      rw [if_pos (by simp)]
    rw [h4]

/-! ### Determinism of the written grounding metadata -/

theorem groundMetaSingle_idem (m : Option StructuralMetadata) (p : String) :
    groundMetaSingle (some (groundMetaSingle m p)) p = groundMetaSingle m p := by
  cases m <;> rfl

theorem groundMetaMulti_idem (m : Option StructuralMetadata) (sorted : List String) :
    groundMetaMulti (some (groundMetaMulti m sorted)) sorted = groundMetaMulti m sorted := by
  cases m with
  | some mm =>
    simp only [groundMetaMulti, Option.getD_some]
    rw [extraSet_set_same]
  | none =>
    simp only [groundMetaMulti, Option.getD_some]
    rw [extraSet_set_same]

theorem groundedMetaFor_congr (m : Option StructuralMetadata) (ds₁ ds₂ : List String)
    (h : ds₁.Perm ds₂) : groundedMetaFor m ds₁ = groundedMetaFor m ds₂ := by
  have hp : (computeLCA ds₁).Perm (computeLCA ds₂) := computeLCA_perm _ _ h
  have hlen : (computeLCA ds₁).length = (computeLCA ds₂).length := hp.length_eq
  unfold groundedMetaFor
  by_cases h1 : (computeLCA ds₁).length = 1
  · have h1' : (computeLCA ds₂).length = 1 := by omega
    rw [if_pos (by simp [h1]), if_pos (by simp [h1'])]
    obtain ⟨p, hp1⟩ := List.length_eq_one.mp h1
    have hp2 : computeLCA ds₂ = [p] := List.perm_singleton.mp (hp1 ▸ hp.symm)
    rw [hp1, hp2]
  · have h1' : ¬ (computeLCA ds₂).length = 1 := by omega
    rw [if_neg (show ¬ (((computeLCA ds₁).length == 1) = true) from
        fun hc => h1 (by simpa using hc)),
      if_neg (show ¬ (((computeLCA ds₂).length == 1) = true) from
        fun hc => h1' (by simpa using hc))]
    by_cases h2 : 1 < (computeLCA ds₁).length
    · rw [if_pos h2, if_pos (by omega), jsSort_eq_of_perm _ _ hp]
    · rw [if_neg h2, if_neg (by omega)]

theorem groundedMetaFor_idem (m : Option StructuralMetadata) (ds : List String) :
    groundedMetaFor (groundedMetaFor m ds) ds = groundedMetaFor m ds := by
  by_cases h1 : (computeLCA ds).length = 1
  · obtain ⟨p, hpL⟩ := List.length_eq_one.mp h1
    have e1 : ∀ (m0 : Option StructuralMetadata),
        groundedMetaFor m0 ds = some (groundMetaSingle m0 p) := by
      intro m0
      unfold groundedMetaFor
      rw [hpL]
      rfl
    rw [e1 m, e1 (some (groundMetaSingle m p)), groundMetaSingle_idem]
  · by_cases h2 : 1 < (computeLCA ds).length
    · have e1 : ∀ (m0 : Option StructuralMetadata),
        groundedMetaFor m0 ds = some (groundMetaMulti m0 (jsSort (computeLCA ds))) := by
        intro m0
        unfold groundedMetaFor
        rw [if_neg (show ¬ (((computeLCA ds).length == 1) = true) from
          fun hc => h1 (by simpa using hc)), if_pos h2]
      rw [e1 m, e1 (some (groundMetaMulti m (jsSort (computeLCA ds)))), groundMetaMulti_idem]
    · have e1 : ∀ (m0 : Option StructuralMetadata), groundedMetaFor m0 ds = m0 := by
        intro m0
        unfold groundedMetaFor
        rw [if_neg (show ¬ (((computeLCA ds).length == 1) = true) from
          fun hc => h1 (by simpa using hc)), if_neg h2]
      rw [e1, e1]

/-! ### Graph evolution under the grounder -/

theorem hasNode_false_of_getNode_none (g : RPG) (a : String)
    (h : g.getNode a = none) : g.hasNode a = false := by
  unfold RPG.getNode at h
  unfold RPG.hasNode
  cases hb : g.nodes.any (fun n => n.id == a) with
  | false => rfl
  | true =>
    exfalso
    obtain ⟨x, hx, hpx⟩ := List.any_eq_true.mp hb
    have := List.find?_eq_none.mp h x hx
    exact this hpx

theorem isLL_eq_not_isHL (n : Node) : isLowLevelNode n = !isHighLevelNode n := by
  unfold isLowLevelNode isHighLevelNode
  cases n.type <;> rfl

theorem isHL_congr (n n' : Node) (h : n'.type = n.type) :
    isHighLevelNode n' = isHighLevelNode n := by
  unfold isHighLevelNode
  rw [h]

theorem isLL_congr (n n' : Node) (h : n'.type = n.type) :
    isLowLevelNode n' = isLowLevelNode n := by
  unfold isLowLevelNode
  rw [h]

theorem Evol_refl (g : RPG) : Evol g g :=
  ⟨rfl, fun _ h => h, fun _ n h => ⟨n, h, rfl, rfl, rfl, rfl, rfl, Or.inl rfl⟩⟩

theorem Evol_getNode_none_iff (g gc : RPG) (hev : Evol g gc) (a : String) :
    gc.getNode a = none ↔ g.getNode a = none := by
  constructor
  · intro h
    cases hg : g.getNode a with
    | none => rfl
    | some n =>
      obtain ⟨n', hn', _⟩ := hev.2.2 a n hg
      rw [h] at hn'
      cases hn'
  · exact hev.2.1 a

theorem Evol_hasNode (g gc : RPG) (hev : Evol g gc) (a : String) :
    gc.hasNode a = g.hasNode a := by
  cases hg : g.getNode a with
  | none =>
    rw [hasNode_false_of_getNode_none g a hg,
      hasNode_false_of_getNode_none gc a ((Evol_getNode_none_iff g gc hev a).mpr hg)]
  | some n =>
    obtain ⟨n', hn', _⟩ := hev.2.2 a n hg
    rw [hasNode_of_getNode g a n hg, hasNode_of_getNode gc a n' hn']

theorem Frontier_inv (g gc : RPG) (hev : Evol g gc) (a : String) (d : String) :
    Frontier gc a d ↔ Frontier g a d := by
  constructor
  · intro h
    induction h with
    | here b n' p hn' hLL hp hpne =>
      cases hg : g.getNode b with
      | none =>
        exfalso
        rw [hev.2.1 b hg] at hn'
        cases hn'
      | some n =>
        obtain ⟨n'', hn'', hid, hty, hfe, hdp, hsc, hmeta⟩ := hev.2.2 b n hg
        rw [hn'] at hn''
        cases hn''
        have hLLn : isLowLevelNode n = true := by
          rw [← isLL_congr n n' hty]
          exact hLL
        have hmeta' : n'.metadata = n.metadata := by
          rcases hmeta with h1 | ⟨hHL, _⟩
          · exact h1
          · exfalso
            rw [isLL_eq_not_isHL, hHL] at hLLn
            cases hLLn
        exact Frontier.here b n p hg hLLn (by rw [← hmeta']; exact hp) hpne
    | step b c d n' hn' hHL e he hsrc htgt hty2 hb ih =>
      cases hg : g.getNode b with
      | none =>
        exfalso
        rw [hev.2.1 b hg] at hn'
        cases hn'
      | some n =>
        obtain ⟨n'', hn'', hid, hty, hfe, hdp, hsc, hmeta⟩ := hev.2.2 b n hg
        rw [hn'] at hn''
        cases hn''
        exact Frontier.step b c d n hg (by rw [← isHL_congr n n' hty]; exact hHL)
          e (by rw [← hev.1]; exact he) hsrc htgt hty2 ih
  · intro h
    induction h with
    | here b n p hn hLL hp hpne =>
      obtain ⟨n', hn', hid, hty, hfe, hdp, hsc, hmeta⟩ := hev.2.2 b n hn
      have hLL' : isLowLevelNode n' = true := by
        rw [isLL_congr n n' hty]
        exact hLL
      have hmeta' : n'.metadata = n.metadata := by
        rcases hmeta with h1 | ⟨hHL, _⟩
        · exact h1
        · exfalso
          rw [isLL_eq_not_isHL, hHL] at hLL
          cases hLL
      exact Frontier.here b n' p hn' hLL' (by rw [hmeta']; exact hp) hpne
    | step b c d n hn hHL e he hsrc htgt hty2 hb ih =>
      obtain ⟨n', hn', hid, hty, hfe, hdp, hsc, hmeta⟩ := hev.2.2 b n hn
      exact Frontier.step b c d n' hn' (by rw [isHL_congr n n' hty]; exact hHL)
        e (by rw [hev.1]; exact he) hsrc htgt hty2 ih

theorem HLPath_inv (g gc : RPG) (hev : Evol g gc) (a b : String) :
    HLPath gc a b ↔ HLPath g a b := by
  constructor
  · intro h
    induction h with
    | refl n' hn' hHL =>
      cases hg : g.getNode a with
      | none =>
        exfalso
        rw [hev.2.1 a hg] at hn'
        cases hn'
      | some n =>
        obtain ⟨n'', hn'', hid, hty, _⟩ := hev.2.2 a n hg
        rw [hn'] at hn''
        cases hn''
        exact HLPath.refl a n hg (by rw [← isHL_congr n n' hty]; exact hHL)
    | step y z n' hab e he hsrc htgt hty2 hn' hHL ih =>
      cases hg : g.getNode z with
      | none =>
        exfalso
        rw [hev.2.1 z hg] at hn'
        cases hn'
      | some n =>
        obtain ⟨n'', hn'', hid, hty, _⟩ := hev.2.2 z n hg
        rw [hn'] at hn''
        cases hn''
        exact HLPath.step a y z n ih e (by rw [← hev.1]; exact he) hsrc htgt hty2 hg
          (by rw [← isHL_congr n n' hty]; exact hHL)
  · intro h
    induction h with
    | refl n hn hHL =>
      obtain ⟨n', hn', hid, hty, _⟩ := hev.2.2 a n hn
      exact HLPath.refl a n' hn' (by rw [isHL_congr n n' hty]; exact hHL)
    | step y z n hab e he hsrc htgt hty2 hn hHL ih =>
      obtain ⟨n', hn', hid, hty, _⟩ := hev.2.2 z n hn
      exact HLPath.step a y z n' ih e (by rw [hev.1]; exact he) hsrc htgt hty2 hn'
        (by rw [isHL_congr n n' hty]; exact hHL)

theorem Frontier_getNode_isSome (g : RPG) (a d : String) (h : Frontier g a d) :
    ∃ n, g.getNode a = some n := by
  cases h with
  | here a n p hn _ _ _ => exact ⟨n, hn⟩
  | step a b d n hn _ _ _ _ _ _ => exact ⟨n, hn⟩

theorem HLPath_start (g : RPG) (a b : String) (h : HLPath g a b) :
    ∃ n, g.getNode a = some n ∧ isHighLevelNode n = true := by
  induction h with
  | refl n hn hHL => exact ⟨n, hn, hHL⟩
  | step b c n hab e he hsrc htgt hty hn hHL ih => exact ih

theorem HLPath_head_cases (g : RPG) (a c : String) (h : HLPath g a c) :
    a = c ∨ ∃ b e, e ∈ g.edges ∧ e.source = a ∧ e.target = b ∧ e.type = .functional
      ∧ HLPath g b c := by
  induction h with
  | refl n hn hHL => exact Or.inl rfl
  | step b c' n hab e he hsrc htgt hty hn hHL ih =>
    rcases ih with heq | ⟨b₀, e₀, he₀, hs₀, ht₀, hty₀, hrest⟩
    · right
      refine ⟨c', e, he, ?_, htgt, hty, HLPath.refl c' n hn hHL⟩
      rw [hsrc, ← heq]
    · exact Or.inr ⟨b₀, e₀, he₀, hs₀, ht₀, hty₀,
        HLPath.step b₀ b c' n hrest e he hsrc htgt hty hn hHL⟩

theorem Frontier_HL_iff (g : RPG) (a : String) (n : Node) (hn : g.getNode a = some n)
    (hHL : isHighLevelNode n = true) (d : String) :
    Frontier g a d ↔ ∃ e, e ∈ g.edges ∧ e.source = a ∧ e.type = .functional
      ∧ Frontier g e.target d := by
  constructor
  · intro h
    cases h with
    | here a n₀ p hn₀ hLL hp hpne =>
      exfalso
      rw [hn] at hn₀
      cases hn₀
      rw [isLL_eq_not_isHL, hHL] at hLL
      cases hLL
    | step a b d n₀ hn₀ hHL₀ e he hsrc htgt hty hb =>
      exact ⟨e, he, hsrc, hty, by rw [htgt]; exact hb⟩
  · rintro ⟨e, he, hsrc, hty, hb⟩
    exact Frontier.step a e.target d n hn hHL e he hsrc rfl hty hb

theorem Frontier_LL_iff (g : RPG) (a : String) (n : Node) (hn : g.getNode a = some n)
    (hLL : isLowLevelNode n = true) (d : String) :
    Frontier g a d ↔ ∃ p, n.metadata.bind StructuralMetadata.path = some p
      ∧ p ≠ "" ∧ d = dirname p := by
  constructor
  · intro h
    cases h with
    | here a n₀ p hn₀ hLL₀ hp hpne =>
      rw [hn] at hn₀
      cases hn₀
      exact ⟨p, hp, hpne, rfl⟩
    | step a b d n₀ hn₀ hHL₀ e he hsrc htgt hty hb =>
      exfalso
      rw [hn] at hn₀
      cases hn₀
      rw [isLL_eq_not_isHL, hHL₀] at hLL
      cases hLL
  · rintro ⟨p, hp, hpne, rfl⟩
    exact Frontier.here a n p hn hLL hp hpne

theorem mem_getChildren (g : RPG) (a : String) (ha : g.hasNode a = true) (nc : Node) :
    nc ∈ g.getChildren a ↔ ∃ e, e ∈ g.edges ∧ e.source = a ∧ e.type = .functional
      ∧ g.getNode e.target = some nc := by
  unfold RPG.getChildren RPG.getOutEdges
  rw [if_neg (fun hc => hc ha)]
  rw [List.mem_filterMap]
  constructor
  · rintro ⟨e, he, hget⟩
    have h1 := List.mem_filter.mp he
    have h2 := List.mem_filter.mp h1.1
    refine ⟨e, h2.1, eq_of_beq h2.2, ?_, hget⟩
    have := h1.2
    exact eq_of_beq this
  · rintro ⟨e, he, hsrc, hty, hget⟩
    refine ⟨e, ?_, hget⟩
    apply List.mem_filter.mpr
    refine ⟨List.mem_filter.mpr ⟨he, by rw [hsrc]; exact beq_self_eq_true a⟩, ?_⟩
    rw [hty]
    rfl

theorem Evol_trans (g g₁ g₂ : RPG) (h1 : Evol g g₁) (h2 : Evol g₁ g₂) : Evol g g₂ := by
  refine ⟨h2.1.trans h1.1, fun a h => h2.2.1 a (h1.2.1 a h), ?_⟩
  intro a n hn
  obtain ⟨n₁, hn₁, hid₁, hty₁, hfe₁, hdp₁, hsc₁, hmeta₁⟩ := h1.2.2 a n hn
  obtain ⟨n₂, hn₂, hid₂, hty₂, hfe₂, hdp₂, hsc₂, hmeta₂⟩ := h2.2.2 a n₁ hn₁
  refine ⟨n₂, hn₂, hid₂.trans hid₁, hty₂.trans hty₁, hfe₂.trans hfe₁,
    hdp₂.trans hdp₁, hsc₂.trans hsc₁, ?_⟩
  rcases hmeta₁ with hu₁ | ⟨hHL₁, ds₁, hne₁, hnd₁, hfr₁, hm₁⟩
  · rcases hmeta₂ with hu₂ | ⟨hHL₂, ds₂, hne₂, hnd₂, hfr₂, hm₂⟩
    · exact Or.inl (hu₂.trans hu₁)
    · right
      refine ⟨by rw [← isHL_congr n n₁ hty₁]; exact hHL₂, ds₂, hne₂, hnd₂, ?_, ?_⟩
      · intro d
        exact (hfr₂ d).trans (Frontier_inv g g₁ h1 a d)
      · rw [hm₂, hu₁]
  · rcases hmeta₂ with hu₂ | ⟨hHL₂, ds₂, hne₂, hnd₂, hfr₂, hm₂⟩
    · exact Or.inr ⟨hHL₁, ds₁, hne₁, hnd₁, hfr₁, hu₂.trans hm₁⟩
    · right
      refine ⟨hHL₁, ds₁, hne₁, hnd₁, hfr₁, ?_⟩
      have hperm : ds₂.Perm ds₁ := by
        apply (List.perm_ext_iff_of_nodup hnd₂ hnd₁).mpr
        intro d
        exact ((hfr₂ d).trans (Frontier_inv g g₁ h1 a d)).trans (hfr₁ d).symm
      rw [hm₂, hm₁, groundedMetaFor_congr _ _ _ hperm, groundedMetaFor_idem]

theorem grounded_persist (g g₁ g₂ : RPG) (hev1 : Evol g g₁) (hev2 : Evol g₁ g₂)
    (h : String) (n₀ : Node) (hn₀ : g.getNode h = some n₀)
    (dsh : List String) (hnd : dsh.Nodup)
    (hfr : ∀ d, d ∈ dsh ↔ Frontier g h d)
    (n₁ : Node) (hn₁ : g₁.getNode h = some n₁)
    (hm : n₁.metadata = groundedMetaFor n₀.metadata dsh) :
    ∃ n₂, g₂.getNode h = some n₂ ∧ n₂.id = n₁.id ∧ n₂.type = n₁.type
      ∧ n₂.feature = n₁.feature
      ∧ n₂.metadata = groundedMetaFor n₀.metadata dsh := by
  obtain ⟨n₂, hn₂, hid, hty, hfe, _, _, hmeta⟩ := hev2.2.2 h n₁ hn₁
  rcases hmeta with hu | ⟨hHL, ds₂, hne₂, hnd₂, hfr₂, hm₂⟩
  · exact ⟨n₂, hn₂, hid, hty, hfe, hu.trans hm⟩
  · refine ⟨n₂, hn₂, hid, hty, hfe, ?_⟩
    have hperm : ds₂.Perm dsh := by
      apply (List.perm_ext_iff_of_nodup hnd₂ hnd).mpr
      intro d
      exact ((hfr₂ d).trans (Frontier_inv g g₁ hev1 h d)).trans (hfr d).symm
    rw [hm₂, hm, groundedMetaFor_congr _ _ _ hperm, groundedMetaFor_idem]

theorem Evol_update (g gc : RPG) (hev : Evol g gc) (a : String) (nc n₀ : Node)
    (hnc : gc.getNode a = some nc) (hn₀ : g.getNode a = some n₀)
    (hHL : isHighLevelNode n₀ = true)
    (M : StructuralMetadata) (ds : List String) (hne : ds ≠ []) (hnd : ds.Nodup)
    (hfr : ∀ d, d ∈ ds ↔ Frontier g a d)
    (hM : some M = groundedMetaFor n₀.metadata ds) (gc' : RPG)
    (hup : gc.updateNode a { metadata := some M } = .ok gc') :
    Evol g gc' ∧ gc'.getNode a = some (applyPartial { metadata := some M } nc)
      ∧ (∀ b, b ≠ a → gc'.getNode b = gc.getNode b) := by
  have hup2 := updateNode_ok gc a { metadata := some M } nc hnc
  rw [hup2] at hup
  injection hup with h3
  subst h3
  have hother := fun (b : String) (hb : b ≠ a) =>
    getNode_after_update_other gc a b { metadata := some M } hb
  have hself := getNode_after_update gc a { metadata := some M } nc hnc
  refine ⟨⟨hev.1, ?_, ?_⟩, hself, hother⟩
  · intro b hb
    have hba : b ≠ a := by
      intro hc
      rw [hc, hn₀] at hb
      cases hb
    rw [hother b hba]
    exact hev.2.1 b hb
  · intro b n hn
    by_cases hba : b = a
    · subst hba
      have hinj : n₀ = n := by
        rw [hn₀] at hn
        exact Option.some.inj hn
      obtain ⟨n₁, hn₁, hid₁, hty₁, hfe₁, hdp₁, hsc₁, _⟩ := hev.2.2 b n hn
      have hncn : n₁ = nc := by
        rw [hnc] at hn₁
        exact (Option.some.inj hn₁).symm
      refine ⟨applyPartial { metadata := some M } nc, hself, hncn ▸ hid₁, hncn ▸ hty₁,
        hncn ▸ hfe₁, hncn ▸ hdp₁, hncn ▸ hsc₁,
        Or.inr ⟨by rw [← hinj]; exact hHL, ds, hne, hnd, hfr, ?_⟩⟩
      show some M = groundedMetaFor n.metadata ds
      rw [← hinj]
      exact hM
    · rw [hother b hba]
      exact hev.2.2 b n hn

/-! ### Correctness of the propagation recursion -/

theorem foldl_prop_none (fuel : Nat) : ∀ (cs : List Node),
    cs.foldl (fun acc c =>
        match acc with
        | none => none
        | some (gAcc, dirSet) =>
          match propagate fuel gAcc c.id with
          | none => none
          | some (g', ds) => some (g', setUnion dirSet ds))
      none = none := by
  intro cs
  induction cs with
  | nil => rfl
  | cons c rest ih => exact ih

theorem foldl_prop_spec (fuel : Nat)
    (IH : ∀ (g : RPG) (a : String) (g' : RPG) (ds : List String),
      propagate fuel g a = some (g', ds) →
      Evol g g' ∧ ds.Nodup ∧ (∀ d, d ∈ ds ↔ Frontier g a d) ∧
      (∀ h n, HLPath g a h → g.getNode h = some n → (∃ d, Frontier g h d) →
        ∃ n', g'.getNode h = some n' ∧ ∃ dsh, dsh ≠ [] ∧ dsh.Nodup ∧
          (∀ d, d ∈ dsh ↔ Frontier g h d) ∧ n'.metadata = groundedMetaFor n.metadata dsh)) :
    ∀ (cs : List Node) (g₀ gAcc : RPG) (dirSet : List String) (out : RPG × List String),
      Evol g₀ gAcc → dirSet.Nodup →
      cs.foldl (fun acc c =>
          match acc with
          | none => none
          | some (gAcc, dirSet) =>
            match propagate fuel gAcc c.id with
            | none => none
            | some (g', ds) => some (g', setUnion dirSet ds))
        (some (gAcc, dirSet)) = some out →
      Evol g₀ out.1 ∧ out.2.Nodup ∧
      (∀ d, d ∈ out.2 ↔ d ∈ dirSet ∨ ∃ c ∈ cs, Frontier g₀ c.id d) ∧
      (∀ h n, (∃ c ∈ cs, HLPath g₀ c.id h) → g₀.getNode h = some n →
        (∃ d, Frontier g₀ h d) →
        ∃ n', out.1.getNode h = some n' ∧ ∃ dsh, dsh ≠ [] ∧ dsh.Nodup ∧
          (∀ d, d ∈ dsh ↔ Frontier g₀ h d) ∧ n'.metadata = groundedMetaFor n.metadata dsh) := by
  intro cs
  induction cs with
  | nil =>
    intro g₀ gAcc dirSet out hev hnd hfold
    have hout : (gAcc, dirSet) = out := Option.some.inj hfold
    refine ⟨hout ▸ hev, hout ▸ hnd, ?_, ?_⟩
    · intro d
      rw [← hout]
      constructor
      · exact fun h => Or.inl h
      · rintro (h | ⟨c, hc, _⟩)
        · exact h
        · cases hc
    · rintro h n ⟨c, hc, _⟩
      cases hc
  | cons c rest ih =>
    intro g₀ gAcc dirSet out hev hnd hfold
    cases hp : propagate fuel gAcc c.id with
    | none =>
      exfalso
      have hred : List.foldl (fun acc c =>
          match acc with
          | none => none
          | some (gAcc, dirSet) =>
            match propagate fuel gAcc c.id with
            | none => none
            | some (g', ds) => some (g', setUnion dirSet ds))
          (some (gAcc, dirSet)) (c :: rest)
          = List.foldl _ (match propagate fuel gAcc c.id with
            | none => none
            | some (g', ds) => some (g', setUnion dirSet ds)) rest := rfl
      have hinit : (match propagate fuel gAcc c.id with
          | none => none
          | some (g', ds) => some (g', setUnion dirSet ds))
          = (none : Option (RPG × List String)) := by rw [hp]
      rw [hred, hinit] at hfold
      clear hred hinit hp ih hev hnd IH
      induction rest with
      | nil => exact Option.noConfusion hfold
      | cons x r ihr => exact ihr hfold
    | some pair =>
      obtain ⟨g₁, ds₁⟩ := pair
      have hred : List.foldl (fun acc c =>
          match acc with
          | none => none
          | some (gAcc, dirSet) =>
            match propagate fuel gAcc c.id with
            | none => none
            | some (g', ds) => some (g', setUnion dirSet ds))
          (some (gAcc, dirSet)) (c :: rest)
          = List.foldl _ (match propagate fuel gAcc c.id with
            | none => none
            | some (g', ds) => some (g', setUnion dirSet ds)) rest := rfl
      have hinit : (match propagate fuel gAcc c.id with
          | none => none
          | some (g', ds) => some (g', setUnion dirSet ds))
          = some (g₁, setUnion dirSet ds₁) := by rw [hp]
      rw [hred, hinit] at hfold
      obtain ⟨hev1, hnd1, hfr1, hD1⟩ := IH gAcc c.id g₁ ds₁ hp
      have hevg₁ : Evol g₀ g₁ := Evol_trans g₀ gAcc g₁ hev hev1
      have hnd' : (setUnion dirSet ds₁).Nodup := setUnion_nodup dirSet ds₁ hnd
      obtain ⟨hevFin, hndFin, hmemFin, hDFin⟩ :=
        ih g₀ g₁ (setUnion dirSet ds₁) out hevg₁ hnd' hfold
      obtain ⟨hevFin₁, _, _, _⟩ := ih g₁ g₁ (setUnion dirSet ds₁) out (Evol_refl g₁) hnd' hfold
      have hds₁ : ∀ x, x ∈ ds₁ ↔ Frontier g₀ c.id x := fun x =>
        (hfr1 x).trans (Frontier_inv g₀ gAcc hev c.id x)
      refine ⟨hevFin, hndFin, ?_, ?_⟩
      · intro d
        rw [hmemFin d, mem_setUnion]
        constructor
        · rintro ((h1 | h2) | ⟨c', hc', hf'⟩)
          · exact Or.inl h1
          · exact Or.inr ⟨c, List.mem_cons_self c rest, (hds₁ d).mp h2⟩
          · exact Or.inr ⟨c', List.mem_cons_of_mem c hc', hf'⟩
        · rintro (h1 | ⟨c', hc', hf'⟩)
          · exact Or.inl (Or.inl h1)
          · rcases List.mem_cons.mp hc' with hcc | hmem
            · exact Or.inl (Or.inr ((hds₁ d).mpr (hcc ▸ hf')))
            · exact Or.inr ⟨c', hmem, hf'⟩
      · rintro h n ⟨c', hc', hpath⟩ hn hfr
        rcases List.mem_cons.mp hc' with hcc | hcrest
        · have hpathAcc : HLPath gAcc c.id h :=
            (HLPath_inv g₀ gAcc hev c.id h).mpr (hcc ▸ hpath)
          have hfrAcc : ∃ d, Frontier gAcc h d := by
            obtain ⟨d, hd⟩ := hfr
            exact ⟨d, (Frontier_inv g₀ gAcc hev h d).mpr hd⟩
          obtain ⟨nAcc, hnAcc, hidA, htyA, hfeA, hdpA, hscA, hmetaA⟩ := hev.2.2 h n hn
          obtain ⟨n₁, hn₁, dsh₁, hne₁, hnd₁h, hfr₁h, hm₁⟩ := hD1 h nAcc hpathAcc hnAcc hfrAcc
          have hfr₁g : ∀ d, d ∈ dsh₁ ↔ Frontier g₀ h d := fun d =>
            (hfr₁h d).trans (Frontier_inv g₀ gAcc hev h d)
          rcases hmetaA with hunch | ⟨hHLn, ds₀, hne₀, hnd₀, hfr₀, hm₀⟩
          · have hm₁' : n₁.metadata = groundedMetaFor n.metadata dsh₁ := by
              rw [hm₁, hunch]
            obtain ⟨n₂, hn₂, _, _, _, hmeta₂⟩ := grounded_persist g₀ g₁ out.1 hevg₁ hevFin₁
              h n hn dsh₁ hnd₁h hfr₁g n₁ hn₁ hm₁'
            exact ⟨n₂, hn₂, dsh₁, hne₁, hnd₁h, hfr₁g, hmeta₂⟩
          · have hperm : dsh₁.Perm ds₀ := by
              apply (List.perm_ext_iff_of_nodup hnd₁h hnd₀).mpr
              intro d
              exact (hfr₁g d).trans (hfr₀ d).symm
            have hm₁' : n₁.metadata = groundedMetaFor n.metadata ds₀ := by
              rw [hm₁, hm₀, groundedMetaFor_congr _ _ _ hperm, groundedMetaFor_idem]
            obtain ⟨n₂, hn₂, _, _, _, hmeta₂⟩ := grounded_persist g₀ g₁ out.1 hevg₁ hevFin₁
              h n hn ds₀ hnd₀ hfr₀ n₁ hn₁ hm₁'
            exact ⟨n₂, hn₂, ds₀, hne₀, hnd₀, hfr₀, hmeta₂⟩
        · exact hDFin h n ⟨c', hcrest, hpath⟩ hn hfr

theorem propagate_spec : ∀ (fuel : Nat) (g : RPG) (a : String) (g' : RPG) (ds : List String),
    propagate fuel g a = some (g', ds) →
    Evol g g' ∧ ds.Nodup ∧ (∀ d, d ∈ ds ↔ Frontier g a d) ∧
    (∀ h n, HLPath g a h → g.getNode h = some n → (∃ d, Frontier g h d) →
      ∃ n', g'.getNode h = some n' ∧ ∃ dsh, dsh ≠ [] ∧ dsh.Nodup ∧
        (∀ d, d ∈ dsh ↔ Frontier g h d) ∧ n'.metadata = groundedMetaFor n.metadata dsh) := by
  intro fuel
  induction fuel with
  | zero =>
    intro g a g' ds hstep
    exact Option.noConfusion hstep
  | succ fuel IH =>
    intro g a g' ds hstep
    simp only [propagate] at hstep
    split at hstep
    · -- getNode a = none
      rename_i hn
      have hpair := Option.some.inj hstep
      have hg' : g = g' := congrArg Prod.fst hpair
      have hds : ([] : List String) = ds := congrArg Prod.snd hpair
      subst hg' hds
      refine ⟨Evol_refl g, List.nodup_nil, ?_, ?_⟩
      · intro d
        constructor
        · intro hd; cases hd
        · intro hd
          obtain ⟨n0, hn0⟩ := Frontier_getNode_isSome g a d hd
          rw [hn] at hn0
          cases hn0
      · intro h n hpath _ _
        exfalso
        obtain ⟨n0, hn0, _⟩ := HLPath_start g a h hpath
        rw [hn] at hn0
        cases hn0
    · -- getNode a = some node
      rename_i node hn
      split at hstep
      · -- low-level node
        rename_i hLL
        have hnoHL : ∀ h, HLPath g a h → False := by
          intro h hpath
          obtain ⟨n1, hn1, hHL1⟩ := HLPath_start g a h hpath
          rw [hn] at hn1
          cases hn1
          rw [isLL_eq_not_isHL, hHL1] at hLL
          cases hLL
        split at hstep
        · -- metadata = none
          rename_i hm
          have hpair := Option.some.inj hstep
          have hg' : g = g' := congrArg Prod.fst hpair
          have hds : ([] : List String) = ds := congrArg Prod.snd hpair
          subst hg' hds
          refine ⟨Evol_refl g, List.nodup_nil, ?_, fun h n0 hpath _ _ =>
            (hnoHL h hpath).elim⟩
          intro d
          constructor
          · intro hd; cases hd
          · intro hd
            obtain ⟨p, hp, _, _⟩ := (Frontier_LL_iff g a node hn hLL d).mp hd
            rw [hm] at hp
            cases hp
        · rename_i m hm
          split at hstep
          · -- path = none
            rename_i hp
            have hpair := Option.some.inj hstep
            have hg' : g = g' := congrArg Prod.fst hpair
            have hds : ([] : List String) = ds := congrArg Prod.snd hpair
            subst hg' hds
            refine ⟨Evol_refl g, List.nodup_nil, ?_, fun h n0 hpath _ _ =>
              (hnoHL h hpath).elim⟩
            intro d
            constructor
            · intro hd; cases hd
            · intro hd
              obtain ⟨p, hpp, _, _⟩ := (Frontier_LL_iff g a node hn hLL d).mp hd
              rw [hm] at hpp
              simp only [Option.some_bind] at hpp
              rw [hp] at hpp
              cases hpp
          · -- path = some filePath
            rename_i fp hp
            split at hstep
            · -- filePath is the empty string: the falsiness guard fires
              rename_i hfpe
              have hfp0 : fp = "" := eq_of_beq hfpe
              have hpair := Option.some.inj hstep
              have hg' : g = g' := congrArg Prod.fst hpair
              have hds : ([] : List String) = ds := congrArg Prod.snd hpair
              subst hg' hds
              refine ⟨Evol_refl g, List.nodup_nil, ?_, fun h n0 hpath _ _ =>
                (hnoHL h hpath).elim⟩
              intro d
              constructor
              · intro hd; cases hd
              · intro hd
                obtain ⟨p, hpp, hpne, _⟩ := (Frontier_LL_iff g a node hn hLL d).mp hd
                rw [hm] at hpp
                simp only [Option.some_bind] at hpp
                rw [hp] at hpp
                exact (hpne ((Option.some.inj hpp).symm.trans hfp0)).elim
            · -- filePath is non-empty: its directory is contributed
              rename_i hfpe
              have hfpne : fp ≠ "" := fun hc => hfpe (by rw [hc]; decide)
              have hpair := Option.some.inj hstep
              have hg' : g = g' := congrArg Prod.fst hpair
              have hds : [dirname fp] = ds := congrArg Prod.snd hpair
              subst hg' hds
              refine ⟨Evol_refl g, List.nodup_singleton _, ?_, fun h n0 hpath _ _ =>
                (hnoHL h hpath).elim⟩
              intro d
              rw [Frontier_LL_iff g a node hn hLL d]
              constructor
              · intro hd
                refine ⟨fp, ?_, hfpne, List.mem_singleton.mp hd⟩
                rw [hm]
                simp only [Option.some_bind]
                exact hp
              · rintro ⟨p, hpp, hpne, rfl⟩
                rw [hm] at hpp
                simp only [Option.some_bind] at hpp
                rw [hp] at hpp
                rw [List.mem_singleton, Option.some.inj hpp]
      · -- high-level node
        rename_i hLLn
        have hLLf : isLowLevelNode node = false := (Bool.not_eq_true _).mp hLLn
        have hHL : isHighLevelNode node = true := by
          cases hx : isHighLevelNode node with
          | true => rfl
          | false =>
            rw [isLL_eq_not_isHL, hx] at hLLf
            cases hLLf
        split at hstep
        · exact Option.noConfusion hstep
        · rename_i g₁ dirSet hfold
          obtain ⟨hev₁, hndD, hmemD, hD₁⟩ := foldl_prop_spec fuel IH (g.getChildren a)
            g g [] (g₁, dirSet) (Evol_refl g) List.nodup_nil hfold
          have hhasa : g.hasNode a = true := hasNode_of_getNode g a node hn
          have hfrChar : ∀ d, d ∈ dirSet ↔ Frontier g a d := by
            intro d
            rw [hmemD d]
            constructor
            · rintro (h1 | ⟨c, hc, hf⟩)
              · cases h1
              · obtain ⟨e, he, hsrc, hty, hget⟩ := (mem_getChildren g a hhasa c).mp hc
                have hcid : c.id = e.target := getNode_id g e.target c hget
                exact Frontier.step a e.target d node hn hHL e he hsrc rfl hty (hcid ▸ hf)
            · intro hf
              right
              obtain ⟨e, he, hsrc, hty, hfe⟩ := (Frontier_HL_iff g a node hn hHL d).mp hf
              obtain ⟨nb, hnb⟩ := Frontier_getNode_isSome g e.target d hfe
              refine ⟨nb, (mem_getChildren g a hhasa nb).mpr ⟨e, he, hsrc, hty, hnb⟩, ?_⟩
              rw [getNode_id g e.target nb hnb]
              exact hfe
          have hDchild : ∀ h n0, HLPath g a h → h ≠ a → g.getNode h = some n0 →
              (∃ d, Frontier g h d) →
              ∃ n', g₁.getNode h = some n' ∧ ∃ dsh, dsh ≠ [] ∧ dsh.Nodup ∧
                (∀ d, d ∈ dsh ↔ Frontier g h d)
                ∧ n'.metadata = groundedMetaFor n0.metadata dsh := by
            intro h n0 hpath hne hn0 hfr
            rcases HLPath_head_cases g a h hpath with heq | ⟨b, e, he, hsrc, htgt, hty, hrest⟩
            · exact absurd heq.symm hne
            · obtain ⟨nb, hnb, _⟩ := HLPath_start g b h hrest
              have hmemC : nb ∈ g.getChildren a := by
                apply (mem_getChildren g a hhasa nb).mpr
                exact ⟨e, he, hsrc, hty, by rw [htgt]; exact hnb⟩
              refine hD₁ h n0 ⟨nb, hmemC, ?_⟩ hn0 hfr
              rw [getNode_id g b nb hnb]
              exact hrest
          split at hstep
          · -- isHighLevelNode node && !dirSet.isEmpty = true
            rename_i hcond
            have hDSne : dirSet ≠ [] := by
              rw [hHL, Bool.true_and] at hcond
              intro hc
              subst hc
              cases hcond
            split at hstep
            · -- (computeLCA dirSet).length == 1
              rename_i hlen1
              split at hstep
              · -- head? = none: impossible
                rename_i hh
                exfalso
                have h1 : (computeLCA dirSet).length = 1 := by simpa using hlen1
                obtain ⟨p, hpL⟩ := List.length_eq_one.mp h1
                rw [hpL] at hh
                cases hh
              · rename_i p0 hh
                split at hstep
                · -- update succeeded
                  rename_i g₂ hup
                  have hpair := Option.some.inj hstep
                  have hg' : g₂ = g' := congrArg Prod.fst hpair
                  have hds : dirSet = ds := congrArg Prod.snd hpair
                  subst hg' hds
                  obtain ⟨nc, hnc, _⟩ := hev₁.2.2 a node hn
                  have hM : some (groundMetaSingle node.metadata p0)
                      = groundedMetaFor node.metadata dirSet := by
                    unfold groundedMetaFor
                    rw [if_pos hlen1, hh]
                  obtain ⟨hevg₂, hself, hother⟩ := Evol_update g g₁ hev₁ a nc node hnc hn
                    hHL (groundMetaSingle node.metadata p0) dirSet hDSne hndD hfrChar hM
                    g₂ hup
                  refine ⟨hevg₂, hndD, hfrChar, ?_⟩
                  intro h n0 hpath hn0 hfr
                  by_cases hha : h = a
                  · subst hha
                    have hinj : node = n0 := by
                      rw [hn] at hn0
                      exact Option.some.inj hn0
                    refine ⟨applyPartial { metadata := some (groundMetaSingle node.metadata p0) } nc,
                      hself, dirSet, hDSne, hndD, hfrChar, ?_⟩
                    show some (groundMetaSingle node.metadata p0)
                      = groundedMetaFor n0.metadata dirSet
                    rw [← hinj]
                    exact hM
                  · obtain ⟨n₁, hn₁, dsh, hdsne, hdsnd, hdsfr, hmeta⟩ :=
                      hDchild h n0 hpath hha hn0 hfr
                    refine ⟨n₁, ?_, dsh, hdsne, hdsnd, hdsfr, hmeta⟩
                    rw [hother h hha]
                    exact hn₁
                · -- update threw
                  exact Option.noConfusion hstep
            · -- length ≠ 1
              rename_i hlen1
              split at hstep
              · -- multi-LCA branch
                rename_i hlt
                split at hstep
                · rename_i g₂ hup
                  have hpair := Option.some.inj hstep
                  have hg' : g₂ = g' := congrArg Prod.fst hpair
                  have hds : dirSet = ds := congrArg Prod.snd hpair
                  subst hg' hds
                  obtain ⟨nc, hnc, _⟩ := hev₁.2.2 a node hn
                  have hM : some (groundMetaMulti node.metadata (jsSort (computeLCA dirSet)))
                      = groundedMetaFor node.metadata dirSet := by
                    unfold groundedMetaFor
                    rw [if_neg hlen1, if_pos hlt]
                  obtain ⟨hevg₂, hself, hother⟩ := Evol_update g g₁ hev₁ a nc node hnc hn
                    hHL (groundMetaMulti node.metadata (jsSort (computeLCA dirSet))) dirSet
                    hDSne hndD hfrChar hM g₂ hup
                  refine ⟨hevg₂, hndD, hfrChar, ?_⟩
                  intro h n0 hpath hn0 hfr
                  by_cases hha : h = a
                  · subst hha
                    have hinj : node = n0 := by
                      rw [hn] at hn0
                      exact Option.some.inj hn0
                    refine ⟨applyPartial
                      { metadata := some (groundMetaMulti node.metadata
                          (jsSort (computeLCA dirSet))) } nc,
                      hself, dirSet, hDSne, hndD, hfrChar, ?_⟩
                    show some (groundMetaMulti node.metadata (jsSort (computeLCA dirSet)))
                      = groundedMetaFor n0.metadata dirSet
                    rw [← hinj]
                    exact hM
                  · obtain ⟨n₁, hn₁, dsh, hdsne, hdsnd, hdsfr, hmeta⟩ :=
                      hDchild h n0 hpath hha hn0 hfr
                    refine ⟨n₁, ?_, dsh, hdsne, hdsnd, hdsfr, hmeta⟩
                    rw [hother h hha]
                    exact hn₁
                · exact Option.noConfusion hstep
              · -- zero-LCA branch: no update written
                rename_i hlt
                have hpair := Option.some.inj hstep
                have hg' : g₁ = g' := congrArg Prod.fst hpair
                have hds : dirSet = ds := congrArg Prod.snd hpair
                subst hg' hds
                refine ⟨hev₁, hndD, hfrChar, ?_⟩
                intro h n0 hpath hn0 hfr
                by_cases hha : h = a
                · subst hha
                  have hinj : node = n0 := by
                    rw [hn] at hn0
                    exact Option.some.inj hn0
                  have hgm0 : groundedMetaFor n0.metadata dirSet = n0.metadata := by
                    unfold groundedMetaFor
                    rw [if_neg hlen1, if_neg hlt]
                  obtain ⟨nc, hnc, _, _, _, _, _, hmeta⟩ := hev₁.2.2 h n0 hn0
                  rcases hmeta with hunch | ⟨_, ds₀, hne₀, hnd₀, hfr₀, hm₀⟩
                  · exact ⟨nc, hnc, dirSet, hDSne, hndD, hfrChar, by rw [hunch, hgm0]⟩
                  · exact ⟨nc, hnc, ds₀, hne₀, hnd₀, hfr₀, hm₀⟩
                · exact hDchild h n0 hpath hha hn0 hfr
          · -- condition false: dirSet empty
            rename_i hcond
            have hDSnil : dirSet = [] := by
              rw [hHL, Bool.true_and] at hcond
              cases hd : dirSet.isEmpty with
              | false => rw [hd] at hcond; exact absurd rfl hcond
              | true =>
                cases dirSet with
                | nil => rfl
                | cons x xs => cases hd
            have hpair := Option.some.inj hstep
            have hg' : g₁ = g' := congrArg Prod.fst hpair
            have hds : dirSet = ds := congrArg Prod.snd hpair
            subst hg' hds
            refine ⟨hev₁, hndD, hfrChar, ?_⟩
            intro h n0 hpath hn0 hfr
            by_cases hha : h = a
            · subst hha
              exfalso
              obtain ⟨d, hd⟩ := hfr
              have : d ∈ dirSet := (hfrChar d).mpr hd
              rw [hDSnil] at this
              cases this
            · exact hDchild h n0 hpath hha hn0 hfr

theorem Evol_getParent_isSome (g gc : RPG) (hev : Evol g gc) (x : String) :
    (gc.getParent x).isSome = (g.getParent x).isSome := by
  have heq : gc.getInEdges x (some .functional) = g.getInEdges x (some .functional) := by
    unfold RPG.getInEdges
    rw [Evol_hasNode g gc hev x, hev.1]
  unfold RPG.getParent
  rw [heq]
  cases (g.getInEdges x (some .functional)).head? with
  | none => rfl
  | some e =>
    show (gc.getNode e.source).isSome = (g.getNode e.source).isSome
    cases hg : g.getNode e.source with
    | none => rw [hev.2.1 e.source hg]
    | some n =>
      obtain ⟨n', hn', _⟩ := hev.2.2 e.source n hg
      rw [hn']
      rfl

theorem groundList_spec : ∀ (ns : List Node) (fuel : Nat) (g₀ gc g' : RPG),
    Evol g₀ gc → groundList fuel gc ns = some g' →
    Evol g₀ g' ∧
    (∀ (nr : Node), nr ∈ ns → (g₀.getParent nr.id).isSome = false →
      ∀ h n, HLPath g₀ nr.id h → g₀.getNode h = some n → (∃ d, Frontier g₀ h d) →
      ∃ n', g'.getNode h = some n' ∧ ∃ dsh, dsh ≠ [] ∧ dsh.Nodup ∧
        (∀ d, d ∈ dsh ↔ Frontier g₀ h d) ∧ n'.metadata = groundedMetaFor n.metadata dsh) := by
  intro ns
  induction ns with
  | nil =>
    intro fuel g₀ gc g' hev hstep
    have hg : gc = g' := Option.some.inj hstep
    subst hg
    exact ⟨hev, fun nr hnr => absurd hnr (List.not_mem_nil nr)⟩
  | cons nr rest ih =>
    intro fuel g₀ gc g' hev hstep
    simp only [groundList] at hstep
    split at hstep
    · -- parent present in the current graph: skipped
      rename_i hpar
      obtain ⟨hevFin, hDrest⟩ := ih fuel g₀ gc g' hev hstep
      refine ⟨hevFin, ?_⟩
      intro nr' hnr' hroot h n hpath hn hfr
      rcases List.mem_cons.mp hnr' with heq | hmem
      · exfalso
        rw [heq, ← Evol_getParent_isSome g₀ gc hev nr.id] at hroot
        rw [hpar] at hroot
        cases hroot
      · exact hDrest nr' hmem hroot h n hpath hn hfr
    · rename_i hpar
      split at hstep
      · exact Option.noConfusion hstep
      · rename_i g₁ ds₁ hp
        obtain ⟨hev1, _, _, hD1⟩ := propagate_spec fuel gc nr.id g₁ ds₁ hp
        have hevg₁ : Evol g₀ g₁ := Evol_trans g₀ gc g₁ hev hev1
        obtain ⟨hevFin, hDrest⟩ := ih fuel g₀ g₁ g' hevg₁ hstep
        obtain ⟨hevFin₁, _⟩ := ih fuel g₁ g₁ g' (Evol_refl g₁) hstep
        refine ⟨hevFin, ?_⟩
        intro nr' hnr' hroot h n hpath hn hfr
        rcases List.mem_cons.mp hnr' with heq | hmem
        · -- the processed root: grounded by its propagate run, then persists
          subst heq
          have hpathc : HLPath gc nr'.id h := (HLPath_inv g₀ gc hev nr'.id h).mpr hpath
          have hfrc : ∃ d, Frontier gc h d := by
            obtain ⟨d, hd⟩ := hfr
            exact ⟨d, (Frontier_inv g₀ gc hev h d).mpr hd⟩
          obtain ⟨nAcc, hnAcc, _, _, _, _, _, hmetaA⟩ := hev.2.2 h n hn
          obtain ⟨n₁, hn₁, dsh₁, hne₁, hnd₁h, hfr₁h, hm₁⟩ := hD1 h nAcc hpathc hnAcc hfrc
          have hfr₁g : ∀ d, d ∈ dsh₁ ↔ Frontier g₀ h d := fun d =>
            (hfr₁h d).trans (Frontier_inv g₀ gc hev h d)
          rcases hmetaA with hunch | ⟨_, ds₀, hne₀, hnd₀, hfr₀, hm₀⟩
          · have hm₁' : n₁.metadata = groundedMetaFor n.metadata dsh₁ := by
              rw [hm₁, hunch]
            obtain ⟨n₂, hn₂, _, _, _, hmeta₂⟩ := grounded_persist g₀ g₁ g' hevg₁ hevFin₁
              h n hn dsh₁ hnd₁h hfr₁g n₁ hn₁ hm₁'
            exact ⟨n₂, hn₂, dsh₁, hne₁, hnd₁h, hfr₁g, hmeta₂⟩
          · have hperm : dsh₁.Perm ds₀ := by
              apply (List.perm_ext_iff_of_nodup hnd₁h hnd₀).mpr
              intro d
              exact (hfr₁g d).trans (hfr₀ d).symm
            have hm₁' : n₁.metadata = groundedMetaFor n.metadata ds₀ := by
              rw [hm₁, hm₀, groundedMetaFor_congr _ _ _ hperm, groundedMetaFor_idem]
            obtain ⟨n₂, hn₂, _, _, _, hmeta₂⟩ := grounded_persist g₀ g₁ g' hevg₁ hevFin₁
              h n hn ds₀ hnd₀ hfr₀ n₁ hn₁ hm₁'
            exact ⟨n₂, hn₂, ds₀, hne₀, hnd₀, hfr₀, hmeta₂⟩
        · exact hDrest nr' hmem hroot h n hpath hn hfr

theorem groundedMetaFor_props (m : Option StructuralMetadata) (ds : List String)
    (hLne : computeLCA ds ≠ []) :
    ∃ m', groundedMetaFor m ds = some m' ∧ m'.entityType = "module" ∧
      (∃ p, m'.path = some p ∧ p ∈ computeLCA ds
        ∧ ∀ x ∈ computeLCA ds, strLeB p x = true) ∧
      ((computeLCA ds).length = 1 → m'.extra = m.bind StructuralMetadata.extra) ∧
      (1 < (computeLCA ds).length →
        ∃ e', m'.extra = some e' ∧
          extraGet e' "paths" = some (.strList (jsSort (computeLCA ds))) ∧
          (jsSort (computeLCA ds)).Pairwise (fun a b => strLeB a b = true) ∧
          ∀ k, k ≠ "paths" →
            extraGet e' k = extraGet ((m.bind StructuralMetadata.extra).getD []) k) := by
  by_cases h1 : (computeLCA ds).length = 1
  · obtain ⟨p, hpL⟩ := List.length_eq_one.mp h1
    have e1 : groundedMetaFor m ds = some (groundMetaSingle m p) := by
      unfold groundedMetaFor
      rw [hpL]
      rfl
    refine ⟨groundMetaSingle m p, e1, ?_, ⟨p, ?_, ?_, ?_⟩, ?_, ?_⟩
    · cases m <;> rfl
    · cases m <;> rfl
    · rw [hpL]; exact List.mem_singleton.mpr rfl
    · intro x hx
      rw [hpL] at hx
      rw [List.mem_singleton.mp hx]
      exact strLeB_refl p
    · intro _
      cases m <;> rfl
    · intro hlt
      omega
  · by_cases h2 : 1 < (computeLCA ds).length
    · have e1 : groundedMetaFor m ds
          = some (groundMetaMulti m (jsSort (computeLCA ds))) := by
        unfold groundedMetaFor
        rw [if_neg (show ¬ (((computeLCA ds).length == 1) = true) from
          fun hc => h1 (by simpa using hc)), if_pos h2]
      have hsne : jsSort (computeLCA ds) ≠ [] := by
        intro hc
        have hperm := jsSort_perm (computeLCA ds)
        rw [hc] at hperm
        exact hLne (List.Perm.eq_nil hperm.symm)
      obtain ⟨q, qs, hq⟩ : ∃ q qs, jsSort (computeLCA ds) = q :: qs := by
        cases hqq : jsSort (computeLCA ds) with
        | nil => exact absurd hqq hsne
        | cons q qs => exact ⟨q, qs, rfl⟩
      refine ⟨groundMetaMulti m (jsSort (computeLCA ds)), e1, ?_, ⟨q, ?_, ?_, ?_⟩, ?_, ?_⟩
      · cases m <;> rfl
      · have hpath : (groundMetaMulti m (jsSort (computeLCA ds))).path
            = (jsSort (computeLCA ds)).head? := by
          cases m <;> rfl
        rw [hpath, hq]
        rfl
      · have hqm : q ∈ jsSort (computeLCA ds) := by
          rw [hq]
          exact List.mem_cons_self q qs
        exact (jsSort_perm (computeLCA ds)).mem_iff.mp hqm
      · intro x hx
        have hx2 : x ∈ jsSort (computeLCA ds) := (jsSort_perm (computeLCA ds)).mem_iff.mpr hx
        rw [hq] at hx2
        rcases List.mem_cons.mp hx2 with h3 | h4
        · rw [h3]
          exact strLeB_refl q
        · have hsorted := jsSort_sorted (computeLCA ds)
          rw [hq] at hsorted
          exact (List.pairwise_cons.mp hsorted).1 x h4
      · intro hl1
        omega
      · intro _
        refine ⟨extraSet ((m.bind StructuralMetadata.extra).getD []) "paths"
          (.strList (jsSort (computeLCA ds))), ?_, ?_, jsSort_sorted _, ?_⟩
        · cases m <;> rfl
        · exact extraGet_set_same _ _ _
        · intro k hk
          exact extraGet_set_other _ _ _ _ hk
    · exfalso
      have h0 : (computeLCA ds).length = 0 := by omega
      exact hLne (List.length_eq_zero.mp h0)

/-- C6 counterexample: two discrepancies with the claim. First, a
high-level node whose functional parent is a low-level node is skipped
by the root loop and never grounded, although it has a leaf low-level
descendant carrying a path. Second, the grounder collects the
directories of the nearest low-level descendants, not of the leaves:
with a chain h2 to a (path a/x.ts) to leaf b (path b/y.ts), the written
path is a, not the leaf LCA b. -/
theorem c6_counterexample :
    ground 10 gC6a = some gC6a
    ∧ (gC6a.getNode "h").map Node.type = some NodeType.highLevel
    ∧ (gC6a.getNode "l1").map (fun n => n.metadata.bind StructuralMetadata.path)
        = some (some "src/m/f.ts")
    ∧ (gC6a.getChildren "h").map Node.id = ["l1"]
    ∧ gC6a.getChildren "l1" = []
    ∧ (gC6a.getNode "h").map Node.metadata = some none
    ∧ ground 10 gC6b = some gC6bg
    ∧ (gC6bg.getNode "h2").map (fun n => n.metadata.map StructuralMetadata.entityType)
        = some (some "module")
    ∧ (gC6bg.getNode "h2").map (fun n => n.metadata.bind StructuralMetadata.path)
        = some (some "a")
    ∧ (gC6b.getChildren "h2").map Node.id = ["a"]
    ∧ (gC6b.getChildren "a").map Node.id = ["b"]
    ∧ gC6b.getChildren "b" = []
    ∧ (gC6b.getNode "b").map (fun n => n.metadata.bind StructuralMetadata.path)
        = some (some "b/y.ts")
    ∧ "a" ≠ "b" := by
  decide

/-- C6 (amended): after a successful `ground()` run, every high-level
node reachable from a parentless high-level root through functional
edges between high-level nodes, whose frontier of nearest low-level
descendants contributes at least one directory (all with at least one
path segment), carries entityType module and path equal to the
lexicographically smallest LCA of the frontier directories; with
several LCAs, extra.paths holds them all sorted ascending and other
extra entries are preserved; with a single LCA the extra bag is left
unchanged. Low-level descendants without a path contribute nothing. -/
theorem c6_ground_frontier_lca (fuel : Nat) (g g' : RPG) (r h : String) (n nr : Node)
    (hg : ground fuel g = some g')
    (hr : g.getNode r = some nr) (hrHL : isHighLevelNode nr = true)
    (hroot : (g.getParent r).isSome = false)
    (hpath : HLPath g r h)
    (hn : g.getNode h = some n)
    (hfr : ∃ d, Frontier g h d)
    (hsegs : ∀ d, Frontier g h d → segsOf d ≠ []) :
    ∃ n' ds m', g'.getNode h = some n' ∧
      ds ≠ [] ∧ ds.Nodup ∧ (∀ d, d ∈ ds ↔ Frontier g h d) ∧
      n'.metadata = some m' ∧ m'.entityType = "module" ∧
      (∃ p, m'.path = some p ∧ p ∈ computeLCA ds
        ∧ ∀ x ∈ computeLCA ds, strLeB p x = true) ∧
      ((computeLCA ds).length = 1 → m'.extra = n.metadata.bind StructuralMetadata.extra) ∧
      (1 < (computeLCA ds).length →
        ∃ e', m'.extra = some e' ∧
          extraGet e' "paths" = some (.strList (jsSort (computeLCA ds))) ∧
          (jsSort (computeLCA ds)).Pairwise (fun a b => strLeB a b = true) ∧
          ∀ k, k ≠ "paths" →
            extraGet e' k = extraGet ((n.metadata.bind StructuralMetadata.extra).getD []) k) := by
  have hmem : nr ∈ g.getHighLevelNodes := by
    unfold RPG.getHighLevelNodes RPG.getNodes
    exact List.mem_filter.mpr ⟨getNode_mem g r nr hr, hrHL⟩
  unfold ground at hg
  obtain ⟨_, hD⟩ := groundList_spec g.getHighLevelNodes fuel g g g' (Evol_refl g) hg
  have hrid : nr.id = r := getNode_id g r nr hr
  obtain ⟨n', hn', ds, hdne, hdnd, hdfr, hmeta⟩ := hD nr hmem (by rw [hrid]; exact hroot)
    h n (by rw [hrid]; exact hpath) hn hfr
  have hLne : computeLCA ds ≠ [] :=
    computeLCA_ne_nil ds hdne (fun d hd => hsegs d ((hdfr d).mp hd))
  obtain ⟨m', hm', hET, hminp, hsingle, hmulti⟩ := groundedMetaFor_props n.metadata ds hLne
  exact ⟨n', ds, m', hn', hdne, hdnd, hdfr, by rw [hmeta]; exact hm', hET, hminp,
    hsingle, hmulti⟩

/-- Witness for C6: the amended theorem applied to the concrete chain
h2 to a to b, whose frontier is the single directory a. -/
theorem c6_witness :
    (∃ d, Frontier gC6b "h2" d) ∧
    (∃ n' ds m', gC6bg.getNode "h2" = some n' ∧
      ds ≠ [] ∧ ds.Nodup ∧ (∀ d, d ∈ ds ↔ Frontier gC6b "h2" d) ∧
      n'.metadata = some m' ∧ m'.entityType = "module" ∧
      (∃ p, m'.path = some p ∧ p ∈ computeLCA ds
        ∧ ∀ x ∈ computeLCA ds, strLeB p x = true) ∧
      ((computeLCA ds).length = 1 → m'.extra = nC6h2.metadata.bind StructuralMetadata.extra) ∧
      (1 < (computeLCA ds).length →
        ∃ e', m'.extra = some e' ∧
          extraGet e' "paths" = some (.strList (jsSort (computeLCA ds))) ∧
          (jsSort (computeLCA ds)).Pairwise (fun a b => strLeB a b = true) ∧
          ∀ k, k ≠ "paths" →
            extraGet e' k
              = extraGet ((nC6h2.metadata.bind StructuralMetadata.extra).getD []) k)) := by
  have hfr : ∃ d, Frontier gC6b "h2" d :=
    ⟨dirname "a/x.ts",
      Frontier.step "h2" "a" (dirname "a/x.ts") nC6h2 (by decide) (by decide)
        (createFunctionalEdge "h2" "a") (by decide) rfl rfl rfl
        (Frontier.here "a" nC6a "a/x.ts" (by decide) (by decide) (by decide) (by decide))⟩
  have hsegs : ∀ d, Frontier gC6b "h2" d → segsOf d ≠ [] := by
    intro d hd
    obtain ⟨e, he, hsrc, hty, hfe⟩ :=
      (Frontier_HL_iff gC6b "h2" nC6h2 (by decide) (by decide) d).mp hd
    have he3 : e ∈ [createFunctionalEdge "h2" "a", createFunctionalEdge "a" "b"] := he
    rcases List.mem_cons.mp he3 with rfl | h4
    · have hfe2 : Frontier gC6b "a" d := hfe
      obtain ⟨p, hp, hpne, hd2⟩ :=
        (Frontier_LL_iff gC6b "a" nC6a (by decide) (by decide) d).mp hfe2
      have hb : nC6a.metadata.bind StructuralMetadata.path = some "a/x.ts" := rfl
      rw [hb] at hp
      have hp2 : p = "a/x.ts" := (Option.some.inj hp).symm
      rw [hd2, hp2]
      decide
    · rcases List.mem_cons.mp h4 with rfl | h5
      · exact absurd hsrc (by decide)
      · cases h5
  exact ⟨hfr, c6_ground_frontier_lca 10 gC6b gC6bg "h2" "h2" nC6h2 nC6h2 (by decide)
    (by decide) (by decide) (by decide)
    (HLPath.refl "h2" nC6h2 (by decide) (by decide)) (by decide) hfr hsegs⟩

/-- Witness for C9: the depth-0 traversal of the concrete graph returns
exactly the start node, and ids are distinct. -/
theorem c9_witness :
    (ExploreRPG.traverse gC9 { startNode := "r", edgeType := .both, maxDepth := 0 }).nodes
      = (gC9.getNode "r").toList ∧
    ((ExploreRPG.traverse gC9 { startNode := "r", edgeType := .both, maxDepth := 0 }).nodes.map Node.id).Nodup :=
  ⟨(c9_traverse_bounded gC9 { startNode := "r", edgeType := .both, maxDepth := 0 }).1 rfl,
   (c9_traverse_bounded gC9 { startNode := "r", edgeType := .both, maxDepth := 0 }).2.1⟩

end RPGSpec


